import Mathlib

/-!
# Market maker core: Order Manager, Risk Manager, strategy, execution, backtest

A shallow embedding of `core/order.h`, `core/order_manager.cpp`,
`core/market_data.{h,cpp}`, `risk/risk_manager.h`, `core/risk_manager.cpp`,
`strategy/stoikov_strategy.{h,cpp}`, `exchange/bitmex_execution_manager.{h,cpp}`,
`backtest/backtest_engine.{h,cpp}`, `common/config.{h,cpp}` and
`model/metrics.{h,cpp}`.

Modelling conventions
* `double` values are exact rationals (`ℚ`): comparisons and arithmetic follow the
  source expression by expression. Two computations are closer to the machine, because
  what they do depends on it: the index of `calculate_var` rounds each of its two
  operations to double (`round_double`), and the capital, costs and drawdowns of the
  backtest are `Double` values, which overflow to an infinity, underflow to zero and
  propagate NaN; the book quantities that `calculate_slippage` divides by are summed
  with rounding. The statements on the Stoikov quotes and sizes name the range in which
  the doubles of the source are finite (`quote_in_range`, `size_in_range`) and compare
  the bid and the ask after rounding.
* `int64_t` / `int` values are `Int`; atomic counters wrap explicitly.
* Clock reads (`std::chrono::...::now()`, `std::time`) are explicit arguments.
* `std::exp`, `std::log` and `std::sqrt` are parameters of the functions that call them.
  A call hands them the exact value of its argument expression; the library function
  sees that value rounded to double, and what a theorem assumes of them is what holds of
  the library functions on doubles.
* Each member function is a pure function from the object state (and arguments) to
  the return value and the new object state; locks have no counterpart.
* Calls into code that has no definition in the sources are parameters.
* Where a statement needs true square roots, the volatility estimator is also given
  over an arbitrary ordered field.
* The OpenMP pragma on the main loop of the backtest is a relation between the input
  series and the sequence in which the iterations execute.
-/

namespace MarketMaker

/-! ## Rounding of `double` operations -/

/-- The number of binary digits of `n` (0 for 0); `fuel` bounds the number of halvings. -/
def bit_length_aux : Nat → Nat → Nat
  | 0, _ => 0
  | fuel + 1, n => if n = 0 then 0 else bit_length_aux fuel (n / 2) + 1

/-- The number of binary digits of `n`. -/
def bit_length (n : Nat) : Nat := bit_length_aux n n

/-- The power `2 ^ e` for an integer exponent. -/
def two_pow (e : Int) : ℚ :=
  if 0 ≤ e then ((2 ^ e.toNat : Nat) : ℚ) else 1 / ((2 ^ (-e).toNat : Nat) : ℚ)

/-- The binary exponent `e` of a non-zero `x`: `2 ^ e ≤ |x| < 2 ^ (e + 1)`. -/
def binade (x : ℚ) : Int :=
  if two_pow ((bit_length x.num.natAbs : Int) - (bit_length x.den : Int)) ≤ |x| then
    (bit_length x.num.natAbs : Int) - (bit_length x.den : Int)
  else (bit_length x.num.natAbs : Int) - (bit_length x.den : Int) - 1

/-- The integer nearest to `q`, the even one of the two when `q` is halfway. -/
def round_half_even (q : ℚ) : Int :=
  if q - ⌊q⌋ < 1 / 2 then ⌊q⌋
  else if 1 / 2 < q - ⌊q⌋ then ⌊q⌋ + 1
  else if ⌊q⌋ % 2 = 0 then ⌊q⌋ else ⌊q⌋ + 1

/-- The result of a `double` operation whose exact result is `x`: `x` rounded to 53
significant bits, to nearest, ties to even (IEEE 754 binary64 in the default rounding
mode, for results in the normal range). -/
def round_double (x : ℚ) : ℚ :=
  if x = 0 then 0
  else (round_half_even (x / two_pow (binade x - 52)) : ℚ) * two_pow (binade x - 52)

/-! ## core/order.h -/

/-- `enum class OrderSide { BUY, SELL }`. -/
inductive OrderSide where
  | BUY
  | SELL
deriving DecidableEq, Repr

/-- `enum class OrderStatus { NEW, PARTIALLY_FILLED, FILLED, CANCELLED, REJECTED }`. -/
inductive OrderStatus where
  | NEW
  | PARTIALLY_FILLED
  | FILLED
  | CANCELLED
  | REJECTED
deriving DecidableEq, Repr

/-- `struct Order`, with its two default member initialisers. -/
structure Order where
  order_id : Int
  side : OrderSide
  price : ℚ
  quantity : ℚ
  filled_quantity : ℚ := 0
  status : OrderStatus := OrderStatus.NEW
  creation_time : Int
  last_update_time : Int
deriving DecidableEq, Repr

/-- `Order::is_active`. -/
def Order.is_active (o : Order) : Bool :=
  o.status == OrderStatus.NEW || o.status == OrderStatus.PARTIALLY_FILLED

/-- `OrderManager::Config` with its default values. -/
structure Config where
  max_position : ℚ := 100
  max_order_size : ℚ := 10
  max_notional : ℚ := 10000
  max_active_orders : Int := 50
  min_spread : ℚ := 1 / 10000
deriving DecidableEq, Repr

/-- The data members of `class OrderManager`. `active_orders_` is the
`stable_vector<Order>` in insertion order. -/
structure OrderManager where
  config_ : Config
  next_order_id_ : Int := 1
  position_ : ℚ := 0
  notional_exposure_ : ℚ := 0
  active_orders_ : List Order := []
deriving DecidableEq, Repr

/-- `explicit OrderManager(Config config) : config_(config) {}`. -/
def OrderManager.fresh (config : Config) : OrderManager :=
  { config_ := config }

/-- Two's-complement wrap of an integer into the `int64_t` range. -/
def wrap64 (x : Int) : Int :=
  (x + 2 ^ 63) % 2 ^ 64 - 2 ^ 63

/-- `OrderManager::generate_order_id`: `next_order_id_.fetch_add(1)` returns the old
value and stores the incremented one. -/
def OrderManager.generate_order_id (m : OrderManager) : Int × OrderManager :=
  (m.next_order_id_, { m with next_order_id_ := wrap64 (m.next_order_id_ + 1) })

/-! ## core/order_manager.cpp -/

/-- `OrderManager::check_risk_limits`. -/
def OrderManager.check_risk_limits (m : OrderManager) (side : OrderSide)
    (quantity price : ℚ) : Bool :=
  if quantity > m.config_.max_order_size then false
  else
    let current_position := m.position_
    let position_delta := if side = OrderSide.BUY then quantity else -quantity
    let new_position := current_position + position_delta
    if |new_position| > m.config_.max_position then false
    else
      let current_notional := m.notional_exposure_
      let notional_delta := price * quantity
      if current_notional + notional_delta > m.config_.max_notional then false
      else true

/-- The `std::count_if(..., is_active)` of `place_order`. -/
def OrderManager.active_count (m : OrderManager) : Nat :=
  m.active_orders_.countP Order.is_active

/-- `OrderManager::place_order`. `t_create` and `t_update` are the two clock reads.
The result is the returned `std::optional<Order>` and the manager afterwards. -/
def OrderManager.place_order (m : OrderManager) (side : OrderSide) (price quantity : ℚ)
    (t_create t_update : Int) : Option Order × OrderManager :=
  if !m.check_risk_limits side quantity price then (none, m)
  else
    let (id, m1) := m.generate_order_id
    let order : Order :=
      { order_id := id, side := side, price := price, quantity := quantity,
        creation_time := t_create, last_update_time := t_update }
    if (m1.active_count : Int) ≥ m1.config_.max_active_orders then (none, m1)
    else (some order, { m1 with active_orders_ := m1.active_orders_ ++ [order] })

/-- The assignment `*it = order` at the first element satisfying `p`. -/
def assign_first (p : Order → Bool) (order : Order) : List Order → List Order
  | [] => []
  | o :: os => if p o then order :: os else o :: assign_first p order os

/-- `OrderManager::update_order`. -/
def OrderManager.update_order (m : OrderManager) (order : Order) : OrderManager :=
  match m.active_orders_.find? (fun o => o.order_id == order.order_id) with
  | none => m
  | some it =>
    let fill_delta := order.filled_quantity - it.filled_quantity
    let m1 : OrderManager :=
      if fill_delta > 0 then
        let position_delta := if order.side = OrderSide.BUY then fill_delta else -fill_delta
        let notional_delta := order.price * fill_delta
        { m with position_ := m.position_ + position_delta,
                 notional_exposure_ := m.notional_exposure_ + notional_delta }
      else m
    { m1 with active_orders_ :=
        assign_first (fun o => o.order_id == order.order_id) order m1.active_orders_ }

/-! ## Call sequences on one Order Manager -/

/-- One call on an Order Manager. -/
inductive Op where
  | place (side : OrderSide) (price quantity : ℚ) (t_create t_update : Int)
  | update (order : Order)
deriving DecidableEq, Repr

/-- The manager after one call. -/
def OrderManager.step (m : OrderManager) : Op → OrderManager
  | Op.place side price quantity t1 t2 => (m.place_order side price quantity t1 t2).2
  | Op.update order => m.update_order order

/-- The manager after a sequence of calls, first call first. -/
def OrderManager.run (m : OrderManager) : List Op → OrderManager
  | [] => m
  | op :: ops => (m.step op).run ops

/-- A fill that `update_order` applies: the side and price of the snapshot and the
positive `fill_delta`. -/
structure Fill where
  side : OrderSide
  price : ℚ
  delta : ℚ
deriving DecidableEq, Repr

/-- The side-signed quantity of a fill. -/
def Fill.signed (f : Fill) : ℚ :=
  if f.side = OrderSide.BUY then f.delta else -f.delta

/-- The notional of a fill. -/
def Fill.notional (f : Fill) : ℚ :=
  f.price * f.delta

/-- The fill that the snapshot `order` carries against the stored record: none when
the id is not stored or the filled quantity does not grow. -/
def OrderManager.fill_of (m : OrderManager) (order : Order) : Option Fill :=
  match m.active_orders_.find? (fun o => o.order_id == order.order_id) with
  | none => none
  | some it =>
    if order.filled_quantity - it.filled_quantity > 0 then
      some { side := order.side, price := order.price,
             delta := order.filled_quantity - it.filled_quantity }
    else none

/-- The fills applied along a call sequence, in order. -/
def OrderManager.applied_fills (m : OrderManager) : List Op → List Fill
  | [] => []
  | Op.update order :: ops =>
    (m.fill_of order).toList ++ (m.update_order order).applied_fills ops
  | op :: ops => (m.step op).applied_fills ops

/-- The ids of the orders returned by the `place_order` calls of a sequence, in order. -/
def OrderManager.returned_ids (m : OrderManager) : List Op → List Int
  | [] => []
  | Op.place side price quantity t1 t2 :: ops =>
    ((m.place_order side price quantity t1 t2).1.map Order.order_id).toList ++
      (m.place_order side price quantity t1 t2).2.returned_ids ops
  | op :: ops => (m.step op).returned_ids ops

/-- The order that `place_order` builds. -/
def OrderManager.candidate (m : OrderManager) (side : OrderSide) (price quantity : ℚ)
    (t_create t_update : Int) : Order :=
  { order_id := m.next_order_id_, side := side, price := price, quantity := quantity,
    creation_time := t_create, last_update_time := t_update }

/-! ## Concrete states and call sequences -/

/-- The bounds `0 <= filled_quantity <= quantity` of an order record. -/
def Order.fill_bounded (o : Order) : Prop :=
  0 ≤ o.filled_quantity ∧ o.filled_quantity ≤ o.quantity

/-- A call whose argument is in bounds: a placement of a non-negative quantity, or an
update whose snapshot satisfies `0 <= filled_quantity <= quantity`. -/
def Op.in_bounds : Op → Prop
  | Op.place _ _ quantity _ _ => 0 ≤ quantity
  | Op.update order => order.fill_bounded

/-- A snapshot of order 1 (Buy 5 at 100) with the given fill and status. -/
def snapshot_1 (filled : ℚ) (status : OrderStatus) : Order :=
  { order_id := 1, side := OrderSide.BUY, price := 100, quantity := 5,
    filled_quantity := filled, status := status, creation_time := 0, last_update_time := 1 }

/-- A fresh default manager after placing Buy 5 at 100 (it gets id 1). -/
def placed_1 : OrderManager :=
  (OrderManager.fresh {}).run [Op.place OrderSide.BUY 100 5 0 0]

/-- The manager `placed_1` after order 1 was reported filled for 3. -/
def filled_3 : OrderManager :=
  placed_1.run [Op.update (snapshot_1 3 OrderStatus.PARTIALLY_FILLED)]

/-- The manager `placed_1` after order 1 was reported cancelled with no fill. -/
def cancelled_1 : OrderManager :=
  placed_1.run [Op.update (snapshot_1 0 OrderStatus.CANCELLED)]

/-- A manager limited to one active order, after one placement (Buy 5 at 100). -/
def full_1 : OrderManager :=
  (OrderManager.fresh { max_active_orders := 1 }).run [Op.place OrderSide.BUY 100 5 0 0]

/-- Calls on a manager limited to one active order: a placement that is returned (id 1),
a placement that takes id 2 and is rejected (one order is active), the fill of order 1,
a placement that is returned (id 3), and a placement rejected by the risk check. -/
def placements_with_rejections : List Op :=
  [Op.place OrderSide.BUY 100 5 0 0, Op.place OrderSide.SELL 100 5 1 1,
   Op.update (snapshot_1 5 OrderStatus.FILLED), Op.place OrderSide.SELL 100 5 2 2,
   Op.place OrderSide.BUY 100 11 3 3]

/-! ## core/market_data.{h,cpp} -/

/-- `MarketDepth::Level`. -/
structure Level where
  price : ℚ
  quantity : ℚ
  update_time : Int
deriving DecidableEq, Repr

/-- `MarketDepth::MAX_LEVELS`. -/
abbrev MAX_LEVELS : Nat := 20

/-- `struct MarketDepth`: two ladders of `MAX_LEVELS` levels, level 0 the best. -/
structure MarketDepth where
  asks : Fin MAX_LEVELS → Level
  bids : Fin MAX_LEVELS → Level
  last_update : Int := 0

/-- `MarketDepth::get_mid_price`. -/
def MarketDepth.get_mid_price (d : MarketDepth) : ℚ :=
  if (d.asks 0).price ≤ 0 ∨ (d.bids 0).price ≤ 0 then 0
  else ((d.asks 0).price + (d.bids 0).price) * 0.5

/-! ## risk/risk_manager.h -/

/-- `RiskManager::RiskLimits` with its default values. -/
structure RiskLimits where
  max_position_value : ℚ := 1000000
  max_daily_loss : ℚ := 50000
  max_order_value : ℚ := 100000
  max_position_concentration : ℚ := 0.2
  max_message_rate_per_second : Int := 100
  max_adverse_selection : ℚ := 0.01
  var_limit : ℚ := 100000
  stress_test_multiplier : ℚ := 3
deriving DecidableEq, Repr

/-- `RiskManager::RiskMetrics`; a default-constructed `last_reset` is the clock's epoch. -/
structure RiskMetrics where
  current_var : ℚ := 0
  daily_pnl : ℚ := 0
  max_drawdown : ℚ := 0
  message_count : Int := 0
  adverse_selection_cost : ℚ := 0
  last_reset : Int := 0
deriving DecidableEq, Repr

/-- `RiskManager::CircuitBreaker`. Only `is_triggered` has an initialiser in the source;
`is_triggered = false` is the state Armed, `is_triggered = true` the state Triggered. -/
structure CircuitBreaker where
  loss_threshold : ℚ
  max_consecutive_losses : Int
  max_drawdown : ℚ
  cooldown_period : Int
  is_triggered : Bool := false
  trigger_time : Int
deriving DecidableEq, Repr

/-- The data members of `class RiskManager`. -/
structure RiskManager where
  limits_ : RiskLimits
  metrics_ : RiskMetrics := {}
  start_time_ : Int
  price_history_ : List ℚ := []
  pnl_history_ : List ℚ := []
  circuit_breaker_ : CircuitBreaker
deriving DecidableEq, Repr

/-- Ticks of `std::chrono::system_clock` in one second (nanosecond ticks). -/
def ticks_per_second : Int := 1000000000

/-- Two's-complement wrap of an integer into the `int` range. -/
def wrap32 (x : Int) : Int :=
  (x + 2 ^ 31) % 2 ^ 32 - 2 ^ 31

/-- `RiskManager::trigger_circuit_breaker`; `steady_now` is the steady-clock read. -/
def RiskManager.trigger_circuit_breaker (r : RiskManager) (_reason : String)
    (steady_now : Int) : RiskManager :=
  { r with circuit_breaker_ :=
      { r.circuit_breaker_ with is_triggered := true, trigger_time := steady_now } }

/-- `RiskManager::check_circuit_breakers`. -/
def RiskManager.check_circuit_breakers (r : RiskManager) (steady_now : Int) : RiskManager :=
  if r.metrics_.daily_pnl < -r.circuit_breaker_.loss_threshold ∨
      r.metrics_.max_drawdown > r.circuit_breaker_.max_drawdown then
    r.trigger_circuit_breaker "Risk limits exceeded" steady_now
  else r

/-! ## core/risk_manager.cpp -/

/-- `RiskManager::calculate_adverse_selection`. -/
def calculate_adverse_selection (order : Order) (depth : MarketDepth) : ℚ :=
  let mid_price := depth.get_mid_price
  let execution_price := order.price
  if order.side = OrderSide.BUY then (execution_price - mid_price) / mid_price
  else (mid_price - execution_price) / mid_price

/-- `RiskManager::check_order_risk`; `now` is the system-clock read. The result is the
returned flag and the manager afterwards. -/
def RiskManager.check_order_risk (r : RiskManager) (order : Order) (depth : MarketDepth)
    (now : Int) : Bool × RiskManager :=
  let order_value := order.price * order.quantity
  if order_value > r.limits_.max_order_value then (false, r)
  else
    let elapsed := Int.tdiv (now - r.metrics_.last_reset) ticks_per_second
    if elapsed > 0 ∧
        Int.tdiv r.metrics_.message_count elapsed > r.limits_.max_message_rate_per_second then
      (false, r)
    else
      let adverse_selection := calculate_adverse_selection order depth
      if adverse_selection > r.limits_.max_adverse_selection then (false, r)
      else
        (true, { r with metrics_ :=
          { r.metrics_ with message_count := wrap32 (r.metrics_.message_count + 1) } })

/-- `RiskManager::run_stress_test`. -/
def RiskManager.run_stress_test (r : RiskManager) (var position_value : ℚ) : Bool :=
  let stressed_var := var * r.limits_.stress_test_multiplier
  decide (|position_value| * stressed_var ≤ r.limits_.var_limit)

/-- The conversion `static_cast<size_t>(x)` of a `double`: truncation toward zero, defined
when the truncated value is not negative. -/
def to_size_t (x : ℚ) : Option Nat :=
  let t : Int := if 0 ≤ x then ⌊x⌋ else ⌈x⌉
  if t < 0 then none else some t.toNat

/-- `RiskManager::calculate_var`. The index is computed as in the source, in double: the
difference `1.0 - confidence` and its product with the sample size are each rounded
(`round_double`); the sample size itself converts to double exactly, as every size below
2^53 does. The result is `none`
where the source has undefined behaviour: the index conversion is out of range or the
index is past the end of the sorted sample. A failed stress test has no effect in the
source. -/
def RiskManager.calculate_var (r : RiskManager) (returns : List ℚ) (confidence : ℚ) :
    Option RiskManager :=
  let sorted_returns := returns.insertionSort (· ≤ ·)
  match to_size_t (round_double (round_double (1 - confidence) * sorted_returns.length)) with
  | none => none
  | some var_index =>
    match sorted_returns[var_index]? with
    | none => none
    | some x =>
      let var := -x
      let r1 : RiskManager := { r with metrics_ := { r.metrics_ with current_var := var } }
      if !r1.run_stress_test var r1.metrics_.daily_pnl then some r1 else some r1

/-- The loop of `update_metrics` that builds `returns` from the price history:
`log(price_history_[i] / price_history_[i-1])` for `i = 1 .. size-1`. -/
def log_returns (log : ℚ → ℚ) (prices : List ℚ) : List ℚ :=
  List.zipWith (fun previous current => log (current / previous)) prices prices.tail

/-- `RiskManager::update_metrics`. `log` stands for `std::log`. -/
def RiskManager.update_metrics (log : ℚ → ℚ) (r : RiskManager) (order : Order)
    (depth : MarketDepth) : Option RiskManager :=
  let trade_pnl :=
    if order.side = OrderSide.BUY then -(order.price * order.filled_quantity)
    else order.price * order.filled_quantity
  let current_pnl := r.metrics_.daily_pnl
  let r1 : RiskManager :=
    { r with metrics_ := { r.metrics_ with daily_pnl := current_pnl + trade_pnl } }
  let r2 : RiskManager :=
    if trade_pnl < 0 then
      let drawdown := |trade_pnl|
      let current_max_drawdown := r1.metrics_.max_drawdown
      if drawdown > current_max_drawdown then
        { r1 with metrics_ := { r1.metrics_ with max_drawdown := drawdown } }
      else r1
    else r1
  let r3 : RiskManager :=
    if r2.price_history_.length > 1000 then
      { r2 with price_history_ := r2.price_history_.tail }
    else r2
  let r4 : RiskManager :=
    { r3 with price_history_ := r3.price_history_ ++ [depth.get_mid_price] }
  if r4.price_history_.length > 1 then
    r4.calculate_var (log_returns log r4.price_history_) 0.99
  else some r4

/-! ## Call sequences on one Risk Manager -/

/-- One call on a Risk Manager, with the clock reads it makes. -/
inductive RiskOp where
  | check_order_risk (order : Order) (depth : MarketDepth) (now : Int)
  | update_metrics (order : Order) (depth : MarketDepth)
  | calculate_var (returns : List ℚ) (confidence : ℚ)
  | check_circuit_breakers (steady_now : Int)

/-- The manager after one call; `none` where the call has undefined behaviour. -/
def RiskManager.step (log : ℚ → ℚ) (r : RiskManager) : RiskOp → Option RiskManager
  | RiskOp.check_order_risk order depth now => some (r.check_order_risk order depth now).2
  | RiskOp.update_metrics order depth => r.update_metrics log order depth
  | RiskOp.calculate_var returns confidence => r.calculate_var returns confidence
  | RiskOp.check_circuit_breakers steady_now => some (r.check_circuit_breakers steady_now)

/-- The manager after a sequence of calls, first call first. -/
def RiskManager.run (log : ℚ → ℚ) (r : RiskManager) : List RiskOp → Option RiskManager
  | [] => some r
  | op :: ops =>
    match r.step log op with
    | none => none
    | some r1 => r1.run log ops

/-- A market depth with every ask level at price `ask` and every bid level at `bid`. -/
def flat_depth (ask bid : ℚ) : MarketDepth :=
  { asks := fun _ => { price := ask, quantity := 1, update_time := 0 },
    bids := fun _ => { price := bid, quantity := 1, update_time := 0 } }

/-- A Risk Manager with default limits, no metrics yet, and a breaker armed at a loss
threshold of 500 and a drawdown limit of 1000. -/
def armed_risk_manager : RiskManager :=
  { limits_ := {}, start_time_ := 0,
    circuit_breaker_ :=
      { loss_threshold := 500, max_consecutive_losses := 3, max_drawdown := 1000,
        cooldown_period := 60, trigger_time := 0 } }

/-- A stand-in for `std::log` on the paths that never call it. -/
def log_unused : ℚ → ℚ := fun _ => 0

/-- The calls that trip the breaker of `armed_risk_manager`: a Buy fill of 7 at 100
(daily P&L -700 < -500), then `check_circuit_breakers`. -/
def tripping_calls : List RiskOp :=
  [RiskOp.update_metrics (snapshot_1 7 OrderStatus.PARTIALLY_FILLED) (flat_depth 101 99),
   RiskOp.check_circuit_breakers 5]

/-- The state `armed_risk_manager` reaches through `tripping_calls`. -/
def tripped_risk_manager : RiskManager :=
  { limits_ := {}, start_time_ := 0,
    metrics_ := { daily_pnl := -700, max_drawdown := 700 },
    price_history_ := [100],
    circuit_breaker_ :=
      { loss_threshold := 500, max_consecutive_losses := 3, max_drawdown := 1000,
        cooldown_period := 60, is_triggered := true, trigger_time := 5 } }

/-- A call without undefined behaviour: a direct `calculate_var` call needs a non-empty
sample and a confidence above 2^-54 and at most 1, for which `1.0 - confidence` is below
1.0 in double and the index is inside the sample. -/
def RiskOp.well_defined : RiskOp → Prop
  | RiskOp.calculate_var returns confidence =>
    returns ≠ [] ∧ 1 / 2 ^ 54 < confidence ∧ confidence ≤ 1
  | _ => True

/-- Calls made after the breaker tripped: an order check, a Sell fill that brings daily
P&L back to 300, a direct VaR computation and a breaker check. -/
def calls_after_trip : List RiskOp :=
  [RiskOp.check_order_risk (snapshot_1 0 OrderStatus.NEW) (flat_depth 101 99) 2000000000,
   RiskOp.update_metrics
     { order_id := 2, side := OrderSide.SELL, price := 100, quantity := 10,
       filled_quantity := 10, status := OrderStatus.FILLED, creation_time := 0,
       last_update_time := 1 } (flat_depth 101 99),
   RiskOp.calculate_var [3, 1, 2] 0.5,
   RiskOp.check_circuit_breakers 9]

/-! ## strategy/market_maker_strategy.h, strategy/stoikov_strategy.{h,cpp} -/

/-- The `<cmath>` functions the strategy calls: `std::exp`, `std::log`, `std::sqrt`, each
as a function of the exact value of its argument expression (the library function sees
that value rounded to double). -/
structure MathFns where
  exp : ℚ → ℚ
  log : ℚ → ℚ
  sqrt : ℚ → ℚ

/-- `MarketMakingStrategy::Config` with its default values. -/
structure StrategyConfig where
  spread_multiplier : ℚ := 1
  position_limit : ℚ := 1000
  order_size : ℚ := 100
  risk_factor : ℚ := 0.1
  max_orders_per_side : Int := 3
deriving DecidableEq, Repr

/-- `StoikovStrategy::StoikovConfig`: the base `Config` and the members it adds, with
their default values. Its own `position_limit` hides the base one. -/
structure StoikovConfig where
  base : StrategyConfig := {}
  risk_aversion : ℚ := 0.1
  market_impact : ℚ := 1.5
  volatility_window : ℚ := 100
  inventory_target : ℚ := 0
  time_horizon : ℚ := 1
  drift : ℚ := 0.1
  min_intensity : ℚ := 0.01
  position_limit : ℚ := 10
deriving DecidableEq, Repr

/-- The data members of `StoikovStrategy::VolatilityEstimator`. -/
structure VolatilityEstimator where
  window_size_ : Nat
  last_price_ : ℚ := 0
  returns_ : List ℚ := []
deriving DecidableEq, Repr

/-- `VolatilityEstimator::update`. -/
def VolatilityEstimator.update (fns : MathFns) (v : VolatilityEstimator) (price : ℚ) :
    VolatilityEstimator :=
  let v1 : VolatilityEstimator :=
    if v.last_price_ > 0 then
      let ret := fns.log (price / v.last_price_)
      let kept := if v.returns_.length ≥ v.window_size_ then v.returns_.tail else v.returns_
      { v with returns_ := kept ++ [ret] }
    else v
  { v1 with last_price_ := price }

/-- `VolatilityEstimator::get_volatility`: `std::accumulate` and `std::inner_product` are
left folds from 0. -/
def VolatilityEstimator.get_volatility (fns : MathFns) (v : VolatilityEstimator) : ℚ :=
  if v.returns_.length < 2 then 0
  else
    let mean := v.returns_.foldl (fun acc x => acc + x) 0 / (v.returns_.length : ℚ)
    let sq_sum := v.returns_.foldl (fun acc x => acc + (x - mean) * (x - mean)) 0
    fns.sqrt (sq_sum / ((v.returns_.length - 1 : Nat) : ℚ)) * fns.sqrt 252

/-- The data members of `StoikovStrategy` that `on_market_data` uses; `start_time_` is
the `std::time` read of the constructor, in seconds. -/
structure StoikovStrategy where
  config_ : StoikovConfig
  start_time_ : Int
  volatility_estimator_ : VolatilityEstimator
  price_history_ : List ℚ := []
deriving DecidableEq, Repr

/-- The constructor of `StoikovStrategy`; the estimator's window is the conversion of
`config.volatility_window` to `size_t`. -/
def StoikovStrategy.create (config : StoikovConfig) (now : Int) : Option StoikovStrategy :=
  match to_size_t config.volatility_window with
  | none => none
  | some window_size =>
    some { config_ := config, start_time_ := now,
           volatility_estimator_ := { window_size_ := window_size } }

/-- The quotes `on_market_data` computes on a tick that reaches the pricing code. -/
structure Quotes where
  bid_price : ℚ
  ask_price : ℚ
  bid_size : ℚ
  ask_size : ℚ
  bid_intensity : ℚ
  ask_intensity : ℚ
deriving DecidableEq, Repr

/-- What one `on_market_data` call leaves behind: the strategy and the Order Manager
afterwards, the orders handed to the connector's `place_order` (in call order), and the
quotes computed (none when the call returns before pricing). -/
structure TickResult where
  strategy : StoikovStrategy
  order_manager : OrderManager
  submitted : List Order
  quotes : Option Quotes

/-- The first block of `on_market_data`: the estimator and the price history take the
mid price. -/
def StoikovStrategy.record_price (fns : MathFns) (s : StoikovStrategy) (mid_price : ℚ) :
    StoikovStrategy :=
  let kept :=
    if (s.price_history_.length : ℚ) ≥ s.config_.volatility_window then s.price_history_.tail
    else s.price_history_
  { s with volatility_estimator_ := s.volatility_estimator_.update fns mid_price,
           price_history_ := kept ++ [mid_price] }

/-- The `time_remaining` of `on_market_data`; `now` is the `std::time` read. -/
def StoikovStrategy.time_remaining (s : StoikovStrategy) (now : Int) : ℚ :=
  s.config_.time_horizon - ((now - s.start_time_ : Int) : ℚ) / (24 * 3600)

/-- Lines 25-56 of `on_market_data`: reservation price, spread, quotes, intensities and
sizes from the mid price, the inventory, the volatility and the remaining time. The
arithmetic is exact; `fns.log` and `fns.exp` are the values `std::log` and `std::exp`
return, so that the rounding of `1.0 + x` to 1.0 and an underflow of `std::exp` are
properties of `fns`. Where the other operations neither overflow nor underflow is
`quote_in_range` and `size_in_range`. -/
def stoikov_quotes (fns : MathFns) (config : StoikovConfig)
    (mid_price inventory volatility time_remaining : ℚ) : Quotes :=
  let reserve_price :=
    mid_price - inventory * config.risk_aversion * volatility ^ 2 * time_remaining
  let reserve_spread :=
    (2 / config.risk_aversion) * fns.log (1 + config.risk_aversion / config.market_impact)
  let ask_price := reserve_price + reserve_spread / 2
  let bid_price := reserve_price - reserve_spread / 2
  let delta_ask := ask_price - mid_price
  let delta_bid := mid_price - bid_price
  let base_intensity := mid_price / (200 * config.time_horizon)
  let ask_intensity := base_intensity * fns.exp (-config.market_impact * delta_ask)
  let bid_intensity := base_intensity * fns.exp (-config.market_impact * delta_bid)
  let inventory_skew := (inventory - config.inventory_target) / config.position_limit
  let base_size := config.base.order_size
  let bid_size := base_size * fns.exp (-config.risk_aversion * inventory_skew)
  let ask_size := base_size * fns.exp (config.risk_aversion * inventory_skew)
  { bid_price := bid_price, ask_price := ask_price, bid_size := bid_size,
    ask_size := ask_size, bid_intensity := bid_intensity, ask_intensity := ask_intensity }

/-- The aggregate `Order{.side, .price, .quantity}` of `on_market_data`: the members
not named are zero or take their default initialiser. -/
def quote_order (side : OrderSide) (price quantity : ℚ) : Order :=
  { order_id := 0, side := side, price := price, quantity := quantity,
    creation_time := 0, last_update_time := 0 }

/-- One guarded submission of `on_market_data` (lines 59-69 and 71-81): when the gate is
open the order goes to the connector, and when the connector accepts it the Order
Manager gets `update_order`. The result is the manager and the orders handed to the
connector. -/
def submit_quote (connector : Order → Bool) (om : OrderManager) (side : OrderSide)
    (price size intensity min_intensity : ℚ) : OrderManager × List Order :=
  if size > 0 ∧ intensity > min_intensity then
    let order := quote_order side price size
    if connector order then (om.update_order order, [order]) else (om, [order])
  else (om, [])

/-- `StoikovStrategy::on_market_data`. `connector` is the answer of
`bitmex_connector_->place_order`, `om` the Order Manager behind `order_manager_`, `now`
the `std::time` read. -/
def StoikovStrategy.on_market_data (fns : MathFns) (s : StoikovStrategy)
    (om : OrderManager) (connector : Order → Bool) (depth : MarketDepth) (now : Int) :
    TickResult :=
  let s1 := s.record_price fns depth.get_mid_price
  let time_remaining := s1.time_remaining now
  if time_remaining ≤ 0 then
    { strategy := s1, order_manager := om, submitted := [], quotes := none }
  else
    let inventory := om.position_
    let volatility := s1.volatility_estimator_.get_volatility fns
    let mid_price := depth.get_mid_price
    let q := stoikov_quotes fns s1.config_ mid_price inventory volatility time_remaining
    let bid := submit_quote connector om OrderSide.BUY q.bid_price q.bid_size
      q.bid_intensity s1.config_.min_intensity
    let ask := submit_quote connector bid.1 OrderSide.SELL q.ask_price q.ask_size
      q.ask_intensity s1.config_.min_intensity
    { strategy := s1, order_manager := ask.1, submitted := bid.2 ++ ask.2, quotes := some q }

/-- One delivery of market data to the strategy: the depth, the Order Manager and the
connector as they are at that moment, and the `std::time` read. -/
structure Tick where
  depth : MarketDepth
  order_manager : OrderManager
  connector : Order → Bool
  now : Int

/-- The quotes computed along a sequence of ticks, first tick first. -/
def StoikovStrategy.quote_trace (fns : MathFns) (s : StoikovStrategy) :
    List Tick → List (Option Quotes)
  | [] => []
  | t :: ts =>
    (s.on_market_data fns t.order_manager t.connector t.depth t.now).quotes ::
      (s.on_market_data fns t.order_manager t.connector t.depth t.now).strategy.quote_trace
        fns ts

/-- A strategy constructed at time 0 with the default configuration except
`min_intensity = 0`. -/
def quoting_strategy : StoikovStrategy :=
  { config_ := { min_intensity := 0 }, start_time_ := 0,
    volatility_estimator_ := { window_size_ := 100 } }

/-- An Order Manager with default limits and a position of 5. -/
def long_5 : OrderManager :=
  { config_ := {}, position_ := 5 }

/-- Three ticks at mid prices 100, 100 and 200 for a manager with position 5, the last
one delivered at time `last`. -/
def ticks_100_100_200 (last : Int) : List Tick :=
  [{ depth := flat_depth 101 99, order_manager := long_5, connector := fun _ => true,
     now := 0 },
   { depth := flat_depth 101 99, order_manager := long_5, connector := fun _ => true,
     now := 0 },
   { depth := flat_depth 201 199, order_manager := long_5, connector := fun _ => true,
     now := last }]

/-- The quotes of a tick that reaches the pricing code, from the state before the call. -/
def StoikovStrategy.tick_quotes (fns : MathFns) (s : StoikovStrategy) (om : OrderManager)
    (depth : MarketDepth) (now : Int) : Quotes :=
  stoikov_quotes fns s.config_ depth.get_mid_price om.position_
    ((s.record_price fns depth.get_mid_price).volatility_estimator_.get_volatility fns)
    (s.time_remaining now)

/-- The orders that pass the gate of `on_market_data` for given quotes: a side is
submitted when its size is positive and its intensity exceeds `min_intensity`. -/
def gated_orders (q : Quotes) (min_intensity : ℚ) : List Order :=
  (if q.bid_size > 0 ∧ q.bid_intensity > min_intensity then
    [quote_order OrderSide.BUY q.bid_price q.bid_size] else []) ++
  (if q.ask_size > 0 ∧ q.ask_intensity > min_intensity then
    [quote_order OrderSide.SELL q.ask_price q.ask_size] else [])

/-- Rational stand-ins for `std::exp`, `std::log` and `std::sqrt`, for evaluating the
model at concrete inputs: positive `exp` with `exp 0 = 1`, `log 1 = 0`, and `sqrt`
positive on positive arguments. -/
def sample_fns : MathFns :=
  { exp := fun x => if x ≤ 0 then 1 / (1 - x) else 1 + x,
    log := fun x => x - 1,
    sqrt := fun x => x }

/-- Two ticks that give the pricing code the same inputs: the same mid price, the same
Order Manager position, and the same number of seconds since the strategy was
constructed (at `start_1`, respectively `start_2`). -/
def Tick.same_inputs (start_1 start_2 : Int) (t1 t2 : Tick) : Prop :=
  t1.depth.get_mid_price = t2.depth.get_mid_price ∧
  t1.order_manager.position_ = t2.order_manager.position_ ∧
  t1.now - start_1 = t2.now - start_2

/-- The strategy `quoting_strategy` constructed 1000 seconds later. -/
def quoting_strategy_later : StoikovStrategy :=
  { quoting_strategy with start_time_ := 1000 }

/-- The ticks `ticks_100_100_200 600` delivered 1000 seconds later. -/
def ticks_later : List Tick :=
  [{ depth := flat_depth 101 99, order_manager := long_5, connector := fun _ => false,
     now := 1000 },
   { depth := flat_depth 101 99, order_manager := long_5, connector := fun _ => false,
     now := 1000 },
   { depth := flat_depth 201 199, order_manager := long_5, connector := fun _ => false,
     now := 1600 }]

/-! ## exchange/bitmex_execution_manager.{h,cpp} -/

/-- What one call of the connector's `place_order` does: it returns true, returns false,
or throws a `std::exception`. -/
inductive PlaceOutcome where
  | accepted
  | refused
  | thrown
deriving DecidableEq, Repr

/-- `BitMEXExecutionManager::ExecutionConfig` with its default values; `retry_delay` in
milliseconds. -/
structure ExecutionConfig where
  max_retry_attempts : Int := 3
  retry_delay : Int := 500
  max_position_value : ℚ := 100000
  max_order_value : ℚ := 10000
  max_leverage : ℚ := 5
deriving DecidableEq, Repr

/-- The data members of `BitMEXExecutionManager`; `active_orders_` is the
`unordered_map<int64_t, Order>`. -/
structure BitMEXExecutionManager where
  config_ : ExecutionConfig := {}
  active_orders_ : Int → Option Order := fun _ => none

/-- What the execution manager reads from outside: the outcome of the k-th call of the
connector's `place_order` (k counted from 0), the connector's `get_current_position`,
and the value of `get_current_leverage`, which has no definition in the sources. -/
structure Exchange where
  place_order : Nat → PlaceOutcome
  current_position : ℚ
  current_leverage : ℚ

/-- `BitMEXExecutionManager::validate_order_size`. -/
def BitMEXExecutionManager.validate_order_size (m : BitMEXExecutionManager)
    (order : Order) : Bool :=
  let order_value := order.price * order.quantity
  decide (order_value ≤ m.config_.max_order_value)

/-- `BitMEXExecutionManager::validate_position_value`. -/
def BitMEXExecutionManager.validate_position_value (m : BitMEXExecutionManager)
    (ex : Exchange) (order : Order) : Bool :=
  let current_position := ex.current_position
  let new_position :=
    if order.side = OrderSide.BUY then current_position + order.quantity
    else current_position - order.quantity
  let position_value := |new_position * order.price|
  decide (position_value ≤ m.config_.max_position_value)

/-- `BitMEXExecutionManager::validate_leverage`. -/
def BitMEXExecutionManager.validate_leverage (m : BitMEXExecutionManager)
    (ex : Exchange) (_order : Order) : Bool :=
  let leverage := ex.current_leverage
  decide (leverage ≤ m.config_.max_leverage)

/-- `BitMEXExecutionManager::check_risk_limits`. -/
def BitMEXExecutionManager.check_risk_limits (m : BitMEXExecutionManager) (ex : Exchange)
    (order : Order) : Bool :=
  m.validate_order_size order && m.validate_position_value ex order &&
    m.validate_leverage ex order

/-- What a call of `submit_order` leaves behind when it returns: the returned flag, the
manager afterwards, and the number of calls made to the connector's `place_order`. -/
structure Submission where
  result : Bool
  manager : BitMEXExecutionManager
  calls : Nat

/-- `BitMEXExecutionManager::retry_order_submission`. `fuel` bounds the number of loop
iterations and `calls` counts the connector calls made so far; the result is `none` when
the loop is still running after `fuel` iterations. -/
def BitMEXExecutionManager.retry_order_submission (m : BitMEXExecutionManager)
    (ex : Exchange) (order : Order) : Nat → Int → Nat → Option Submission
  | 0, _, _ => none
  | fuel + 1, attempts, calls =>
    if attempts < m.config_.max_retry_attempts then
      match ex.place_order calls with
      | PlaceOutcome.accepted =>
        some { result := true,
               manager := { m with active_orders_ := fun id =>
                 if id = order.order_id then some order else m.active_orders_ id },
               calls := calls + 1 }
      | PlaceOutcome.refused => m.retry_order_submission ex order fuel attempts (calls + 1)
      | PlaceOutcome.thrown =>
        m.retry_order_submission ex order fuel (attempts + 1) (calls + 1)
    else some { result := false, manager := m, calls := calls }

/-- `BitMEXExecutionManager::submit_order`, with `fuel` loop iterations for the retry. -/
def BitMEXExecutionManager.submit_order (m : BitMEXExecutionManager) (ex : Exchange)
    (order : Order) (fuel : Nat) : Option Submission :=
  if !m.check_risk_limits ex order then some { result := false, manager := m, calls := 0 }
  else m.retry_order_submission ex order fuel 0 0

/-- An exchange with no position and leverage 1 whose `place_order` always returns
false. -/
def refusing_exchange : Exchange :=
  { place_order := fun _ => PlaceOutcome.refused, current_position := 0,
    current_leverage := 1 }

/-- An exchange with no position and leverage 1 whose `place_order` throws twice and
then accepts. -/
def flaky_exchange : Exchange :=
  { place_order := fun k => if k < 2 then PlaceOutcome.thrown else PlaceOutcome.accepted,
    current_position := 0, current_leverage := 1 }

/-- An exchange with leverage 6, above the default `max_leverage` of 5, whose
`place_order` would accept. -/
def leveraged_exchange : Exchange :=
  { place_order := fun _ => PlaceOutcome.accepted, current_position := 0,
    current_leverage := 6 }

/-! ## Concrete Risk Manager states and call sequences -/

/-- A Risk Manager like `armed_risk_manager` with a message-rate limit of 1 per second. -/
def slow_risk_manager : RiskManager :=
  { armed_risk_manager with limits_ := { max_message_rate_per_second := 1 } }

/-- Three order checks at time 0, before a whole second has elapsed. -/
def three_checks : List RiskOp :=
  List.replicate 3
    (RiskOp.check_order_risk (snapshot_1 0 OrderStatus.NEW) (flat_depth 101 99) 0)

/-- The state `slow_risk_manager` reaches through `three_checks`: three messages counted. -/
def busy_risk_manager : RiskManager :=
  { slow_risk_manager with metrics_ := { message_count := 3 } }

/-- The calls `update_metrics(order, depth)` for a sequence of depths, with an order
that has no fill. -/
def metric_updates (depths : List MarketDepth) : List RiskOp :=
  depths.map (fun depth => RiskOp.update_metrics (snapshot_1 0 OrderStatus.NEW) depth)

/-- The returns 0, 1, ..., 99, in descending order. -/
def hundred_returns : List ℚ :=
  (List.range 100).reverse.map (fun k => (k : ℚ))

/-- The returns 0, 1, ..., 9. -/
def ten_returns : List ℚ :=
  (List.range 10).map (fun k => (k : ℚ))

/-! ## Values of type `double` outside the finite range -/

/-- A value of type `double` where the source can leave the finite range: a finite value
(an exact rational), an infinity, or NaN. The sign of a zero is not recorded. -/
inductive Double where
  | finite (x : ℚ)
  | pos_inf
  | neg_inf
  | nan
deriving DecidableEq, Repr

/-- Exact results from this magnitude on round to an infinity: the midpoint between the
largest finite double and 2^1024. -/
def Double.overflow_threshold : ℚ := 2 ^ 1024 - 2 ^ 970

/-- Exact results up to this magnitude round to zero: half the least positive double. -/
def Double.underflow_threshold : ℚ := 1 / 2 ^ 1075

/-- The double for the exact result `x` of an operation: an infinity from the overflow
threshold on, zero up to the underflow threshold, and otherwise `x` itself. The rounding
of a result inside the finite range is `Double.round`, applied where a result is tested
against zero. -/
def Double.of (x : ℚ) : Double :=
  if Double.overflow_threshold ≤ x then Double.pos_inf
  else if x ≤ -Double.overflow_threshold then Double.neg_inf
  else if |x| ≤ Double.underflow_threshold then Double.finite 0
  else Double.finite x

/-- The nearest double to a finite value, ties to even. -/
def Double.round : Double → Double
  | Double.finite x => Double.finite (round_double x)
  | d => d

/-- Unary minus. -/
def Double.neg : Double → Double
  | Double.finite x => Double.finite (-x)
  | Double.pos_inf => Double.neg_inf
  | Double.neg_inf => Double.pos_inf
  | Double.nan => Double.nan

/-- The sum `a + b`: infinities of opposite sign give NaN. -/
def Double.add : Double → Double → Double
  | Double.finite x, Double.finite y => Double.of (x + y)
  | Double.finite _, Double.pos_inf => Double.pos_inf
  | Double.finite _, Double.neg_inf => Double.neg_inf
  | Double.pos_inf, Double.finite _ => Double.pos_inf
  | Double.pos_inf, Double.pos_inf => Double.pos_inf
  | Double.neg_inf, Double.finite _ => Double.neg_inf
  | Double.neg_inf, Double.neg_inf => Double.neg_inf
  | _, _ => Double.nan

/-- The difference `a - b`. -/
def Double.sub (a b : Double) : Double := a.add b.neg

/-- The product of a value with an infinity of the given sign (`positive` for +inf):
zero times an infinity is NaN. -/
def Double.mul_inf (positive : Bool) : Double → Double
  | Double.finite x =>
    if x = 0 then Double.nan
    else if decide (0 < x) = positive then Double.pos_inf else Double.neg_inf
  | Double.pos_inf => if positive then Double.pos_inf else Double.neg_inf
  | Double.neg_inf => if positive then Double.neg_inf else Double.pos_inf
  | Double.nan => Double.nan

/-- The product `a * b`. -/
def Double.mul : Double → Double → Double
  | Double.finite x, Double.finite y => Double.of (x * y)
  | Double.nan, _ => Double.nan
  | _, Double.nan => Double.nan
  | a, Double.pos_inf => Double.mul_inf true a
  | a, Double.neg_inf => Double.mul_inf false a
  | Double.pos_inf, b => Double.mul_inf true b
  | Double.neg_inf, b => Double.mul_inf false b

/-- The quotient `a / b`. A zero divisor is +0.0, as are the divisors of the source that
can be zero (sums that start from 0.0): a non-zero value over it is an infinity, zero
over it is NaN. -/
def Double.div : Double → Double → Double
  | Double.finite x, Double.finite y =>
    if y = 0 then
      (if x = 0 then Double.nan else if 0 < x then Double.pos_inf else Double.neg_inf)
    else Double.of (x / y)
  | Double.finite _, Double.pos_inf => Double.finite 0
  | Double.finite _, Double.neg_inf => Double.finite 0
  | Double.pos_inf, Double.finite y => if 0 ≤ y then Double.pos_inf else Double.neg_inf
  | Double.neg_inf, Double.finite y => if 0 ≤ y then Double.neg_inf else Double.pos_inf
  | _, _ => Double.nan

/-- The comparison `a > b`: false when either side is NaN. -/
def Double.gt : Double → Double → Bool
  | Double.finite x, Double.finite y => decide (y < x)
  | Double.finite _, Double.neg_inf => true
  | Double.pos_inf, Double.finite _ => true
  | Double.pos_inf, Double.neg_inf => true
  | _, _ => false

/-- The comparison `a <= b`: false when either side is NaN. -/
def Double.le : Double → Double → Bool
  | Double.finite x, Double.finite y => decide (x ≤ y)
  | Double.finite _, Double.pos_inf => true
  | Double.neg_inf, Double.finite _ => true
  | Double.neg_inf, Double.neg_inf => true
  | Double.neg_inf, Double.pos_inf => true
  | Double.pos_inf, Double.pos_inf => true
  | _, _ => false

/-- `std::max(a, b)`, which is `(a < b) ? b : a`. -/
def Double.max (a b : Double) : Double := if b.gt a then b else a

/-- A value that `Double.of` leaves as it is: an infinity, NaN, zero, or a finite value
between the underflow and the overflow threshold in magnitude. -/
def Double.normal : Double → Prop
  | Double.finite x => Double.of x = Double.finite x
  | _ => True

/-- A value that is not negative: +inf or a finite value that is at least 0. -/
def Double.nonneg : Double → Prop
  | Double.finite x => 0 ≤ x
  | Double.pos_inf => True
  | _ => False

/-! ## backtest/backtest_engine.{h,cpp} -/

/-- The members of `BacktestEngine::BacktestConfig` that `run` reads, with their default
values. -/
structure BacktestConfig where
  initial_capital : ℚ := 1000000
  include_transaction_costs : Bool := true
  transaction_cost_bps : ℚ := 0.5
  include_slippage : Bool := true
  slippage_bps : ℚ := 1
  warm_up_bars : Nat := 100
deriving DecidableEq, Repr

/-- The members of `BacktestEngine::BacktestResults` that `run` writes in its loop. The
source leaves the two totals uninitialised; they start at 0 here. Capital, costs and
drawdowns are `Double` values: they can leave the finite range. -/
structure BacktestResults where
  equity_curve : List Double := []
  drawdown_curve : List Double := []
  position_history : List (ℚ × ℚ) := []
  trade_history : List Order := []
  total_transaction_costs : Double := Double.finite 0
  total_slippage : Double := Double.finite 0
deriving DecidableEq, Repr

/-- Modelled from the spec: the code that `BacktestEngine::run` calls and that has no
definition in the sources, acting on a state `S` outside the engine's capital and result
containers (the strategy, its Order Manager, the performance monitor). `on_market_data`,
`get_active_orders` and `get_current_position` are the strategy's virtual interface;
`update_position` ("update position via Order Manager") and `record_metrics` are the
engine's helpers. -/
structure BacktestHooks (S : Type) where
  on_market_data : S → MarketDepth → S
  get_active_orders : S → List Order
  get_current_position : S → ℚ
  update_position : S → Order → S
  record_metrics : S → MarketDepth → S

/-- The state of `BacktestEngine::run` inside its loops: the outside state, the Risk
Manager, the number of system-clock reads made so far, `current_capital_`, the locals
`high_water_mark` and `max_drawdown`, and `results`. -/
structure BacktestRun (S : Type) where
  world : S
  risk_manager : RiskManager
  clock_reads : Nat
  current_capital : Double
  high_water_mark : Double
  max_drawdown : Double
  results : BacktestResults

/-- `BacktestEngine::calculate_transaction_costs`. The members of the order and of the
configuration enter the `Double` arithmetic through `Double.of`. -/
def calculate_transaction_costs (config : BacktestConfig) (order : Order) : Double :=
  ((Double.of order.price).mul (Double.of order.quantity)).mul
    ((Double.of config.transaction_cost_bps).div (Double.finite 10000))

/-- The `std::accumulate` of `calculate_slippage` over one side of the book, from 0.0.
Each partial sum is rounded to double, as in the source: `calculate_slippage` divides by
the result, and quantities of opposite sign can cancel to 0.0 where their exact sum is
not 0. -/
def available_liquidity (side : Fin MAX_LEVELS → Level) : Double :=
  (List.finRange MAX_LEVELS).foldl
    (fun sum i => (sum.add (Double.of (side i).quantity)).round) (Double.finite 0)

/-- `BacktestEngine::calculate_slippage`. The source divides by the available liquidity
without a test: over a side with no quantity the quotient is an infinity or NaN. -/
def calculate_slippage (config : BacktestConfig) (order : Order) (depth : MarketDepth) :
    Double :=
  let base_slippage :=
    (Double.of order.price).mul ((Double.of config.slippage_bps).div (Double.finite 10000))
  let market_impact :=
    if order.side = OrderSide.BUY then
      base_slippage.mul ((Double.of order.quantity).div (available_liquidity depth.asks))
    else
      base_slippage.mul ((Double.of order.quantity).div (available_liquidity depth.bids))
  base_slippage.add market_impact

/-- The body of the order loop of `run` (lines 38-61) for one order; `clock k` is the
k-th system-clock read. -/
def process_order {S : Type} (hooks : BacktestHooks S) (config : BacktestConfig)
    (clock : Nat → Int) (depth : MarketDepth) (st : BacktestRun S) (order : Order) :
    BacktestRun S :=
  let checked := st.risk_manager.check_order_risk order depth (clock st.clock_reads)
  let st1 : BacktestRun S :=
    { st with risk_manager := checked.2, clock_reads := st.clock_reads + 1 }
  if checked.1 then
    let transaction_cost :=
      if config.include_transaction_costs then calculate_transaction_costs config order
      else Double.finite 0
    let slippage :=
      if config.include_slippage then calculate_slippage config order depth
      else Double.finite 0
    { st1 with
      world := hooks.update_position st1.world order,
      current_capital := st1.current_capital.sub (transaction_cost.add slippage),
      results :=
        { st1.results with
          trade_history := st1.results.trade_history ++ [order],
          total_transaction_costs :=
            st1.results.total_transaction_costs.add transaction_cost,
          total_slippage := st1.results.total_slippage.add slippage } }
  else st1

/-- The body of the main loop of `run` (lines 30-82) for one snapshot. -/
def process_bar {S : Type} (hooks : BacktestHooks S) (config : BacktestConfig)
    (clock : Nat → Int) (st : BacktestRun S) (depth : MarketDepth) : BacktestRun S :=
  let world1 := hooks.on_market_data st.world depth
  let orders := hooks.get_active_orders world1
  let st1 := orders.foldl (process_order hooks config clock depth) { st with world := world1 }
  let high_water_mark :=
    if st1.current_capital.gt st1.high_water_mark then st1.current_capital
    else st1.high_water_mark
  let drawdown := (high_water_mark.sub st1.current_capital).div high_water_mark
  { st1 with
    high_water_mark := high_water_mark,
    max_drawdown := Double.max st1.max_drawdown drawdown,
    world := hooks.record_metrics st1.world depth,
    results :=
      { st1.results with
        equity_curve := st1.results.equity_curve ++ [st1.current_capital],
        drawdown_curve := st1.results.drawdown_curve ++ [drawdown],
        position_history := st1.results.position_history ++
          [(depth.get_mid_price, hooks.get_current_position st1.world)] } }

/-- `BacktestEngine::run` up to the end of its main loop, executed in index order:
`market_data` is what `load_market_data` left in `market_data_`. -/
def backtest_run {S : Type} (hooks : BacktestHooks S) (config : BacktestConfig)
    (clock : Nat → Int) (world : S) (risk_manager : RiskManager)
    (market_data : List MarketDepth) : BacktestRun S :=
  let warmed := (market_data.take config.warm_up_bars).foldl hooks.on_market_data world
  let start : BacktestRun S :=
    { world := warmed, risk_manager := risk_manager, clock_reads := 0,
      current_capital := Double.of config.initial_capital,
      high_water_mark := Double.of config.initial_capital,
      max_drawdown := Double.finite 0, results := {} }
  (market_data.drop config.warm_up_bars).foldl (process_bar hooks config clock) start

/-- A strategy stand-in with no state that shows one active Buy order (5 at 100) on
every bar; the engine's helpers do nothing. -/
def buying_hooks : BacktestHooks Unit :=
  { on_market_data := fun _ _ => (),
    get_active_orders := fun _ => [snapshot_1 0 OrderStatus.NEW],
    get_current_position := fun _ => 0,
    update_position := fun _ _ => (),
    record_metrics := fun _ _ => () }

/-- A configuration with both cost rates at 0 and a warm-up of 50 bars. -/
def free_config : BacktestConfig :=
  { transaction_cost_bps := 0, slippage_bps := 0, warm_up_bars := 50 }

/-- 200 snapshots at the constant mid price 100. -/
def flat_series : List MarketDepth :=
  List.replicate 200 (flat_depth 101 99)

/-- Three snapshots with the mid price rising 100, 101, 102. -/
def rising_series : List MarketDepth :=
  [flat_depth 101 99, flat_depth 102 100, flat_depth 103 101]

/-- What `run` debits for one accepted order: the transaction cost and the slippage, each
0 when switched off. -/
def order_cost (config : BacktestConfig) (order : Order) (depth : MarketDepth) : Double :=
  (if config.include_transaction_costs then calculate_transaction_costs config order
    else Double.finite 0).add
  (if config.include_slippage then calculate_slippage config order depth
    else Double.finite 0)

/-- Transaction costs and slippage are zero: each is switched off or has a rate of
0 bps. -/
def BacktestConfig.zero_cost (config : BacktestConfig) : Prop :=
  (config.include_transaction_costs = false ∨ config.transaction_cost_bps = 0) ∧
  (config.include_slippage = false ∨ config.slippage_bps = 0)

/-- Every quantity in both ladders of a depth is non-negative. -/
def MarketDepth.nonneg_book (d : MarketDepth) : Prop :=
  ∀ i, 0 ≤ (d.asks i).quantity ∧ 0 ≤ (d.bids i).quantity

/-- A market depth with asks at `ask` that hold no quantity and bids at `bid` with
quantity 1 on every level. -/
def dry_ask_depth (ask bid : ℚ) : MarketDepth :=
  { asks := fun _ => { price := ask, quantity := 0, update_time := 0 },
    bids := fun _ => { price := bid, quantity := 1, update_time := 0 } }

/-- A market depth whose ask quantities are 2^60, 1 and -2^60 on the first three levels
and 0 on the others, with bids at `bid` with quantity 1 on every level. -/
def cancelling_depth (ask bid : ℚ) : MarketDepth :=
  { asks := fun i =>
      { price := ask,
        quantity := if i.val = 0 then 2 ^ 60 else if i.val = 1 then 1
          else if i.val = 2 then -(2 ^ 60) else 0,
        update_time := 0 },
    bids := fun _ => { price := bid, quantity := 1, update_time := 0 } }

/-- A configuration with both cost rates at 0 and no warm-up. -/
def costless_config : BacktestConfig :=
  { transaction_cost_bps := 0, slippage_bps := 0, warm_up_bars := 0 }

/-- `market_maker::config::GlobalConfig` with its default member initialisers. -/
structure GlobalConfig where
  use_gpu : Bool := true
  gpu_device_id : Int := 0
  num_threads : Int := 4
  log_level : String := "INFO"
  model_dir : String := "models"
  checkpoint_dir : String := "checkpoints"
  data_dir : String := "data"
  enable_wandb : Bool := false
  wandb_project : String := "market_maker"
  experiment_name : String := "default"
  use_tvm_optimization : Bool := true
  tvm_target : String := "llvm"
  tvm_opt_level : Int := 3
  max_memory_mb : Nat := 8192
  enable_memory_pool : Bool := true
deriving DecidableEq, Repr

/-- `GlobalConfig::validate_config`: the `std::runtime_error` it throws is the error of
the result, with the message of the source. -/
def GlobalConfig.validate_config (c : GlobalConfig) : Except String Unit :=
  if c.use_gpu = true ∧ c.gpu_device_id < 0 then
    Except.error ("Invalid GPU device ID: " ++ toString c.gpu_device_id)
  else if c.num_threads ≤ 0 then
    Except.error ("Invalid thread count: " ++ toString c.num_threads)
  else if c.max_memory_mb = 0 then
    Except.error "Invalid maximum memory setting"
  else if c.tvm_opt_level < 0 ∨ c.tvm_opt_level > 3 then
    Except.error ("Invalid TVM optimization level: " ++ toString c.tvm_opt_level)
  else if c.model_dir = "" ∨ c.checkpoint_dir = "" ∨ c.data_dir = "" then
    Except.error "Required directory paths cannot be empty"
  else Except.ok ()

/-- `GlobalConfig::load_from_file`. `read_sources` stands for lines 11-77: opening and
parsing the file, reading the environment variables and creating the directories either
throws or leaves the members assigned; then `validate_config` runs on the result. -/
def GlobalConfig.load_from_file (c : GlobalConfig)
    (read_sources : GlobalConfig → Except String GlobalConfig) : Except String GlobalConfig :=
  match read_sources c with
  | Except.error e => Except.error e
  | Except.ok c1 =>
    match c1.validate_config with
    | Except.error e => Except.error e
    | Except.ok _ => Except.ok c1

/-- The conditions under which `validate_config` is said to raise an error. -/
def GlobalConfig.invalid (c : GlobalConfig) : Prop :=
  (c.use_gpu = true ∧ c.gpu_device_id < 0) ∨ c.num_threads ≤ 0 ∨ c.max_memory_mb = 0 ∨
  (c.tvm_opt_level < 0 ∨ c.tvm_opt_level > 3) ∨
  (c.model_dir = "" ∨ c.checkpoint_dir = "" ∨ c.data_dir = "")

/-- Whether a result is a thrown error. -/
def is_error {ε α : Type} : Except ε α → Bool
  | Except.error _ => true
  | Except.ok _ => false

/-! ## model/metrics.{h,cpp} -/

/-- The tensor operations `calculate_rolling_metrics` calls, over a tensor type `T`:
`size(dim)`, `slice(dim, start, end)`, and the `mse` member of
`calculate_metrics(predictions, targets)`. -/
structure TensorOps (T : Type) where
  size : T → Int → Int
  slice : T → Int → Int → Int → T
  mse : T → T → ℚ

/-- `MetricsCalculator::calculate_rolling_metrics`: the loop `for (i = window_size;
i <= seq_len; ++i)` pushes one value per iteration; the result is the vector handed to
`torch::tensor`. -/
def calculate_rolling_metrics {T : Type} (ops : TensorOps T) (predictions targets : T)
    (window_size : Int) : List ℚ :=
  let seq_len := ops.size predictions 1
  (List.range (seq_len - window_size + 1).toNat).map (fun (k : Nat) =>
    let i := window_size + (k : Int)
    let pred_window := ops.slice predictions 1 (i - window_size) i
    let target_window := ops.slice targets 1 (i - window_size) i
    ops.mse pred_window target_window)

/-- Tensors reduced to their shape: `size` reads a dimension, `slice` shortens the
sliced dimension to `end - start`, and every metric is 0. -/
def shape_ops : TensorOps (List Int) :=
  { size := fun shape dim => shape.getD dim.toNat 0,
    slice := fun shape dim start stop => shape.set dim.toNat (stop - start),
    mse := fun _ _ => 0 }

/-! ## The volatility estimator over an ordered field -/

/-- `VolatilityEstimator::get_volatility` on the stored returns, over any ordered field
`K` standing for `double` and with `sqrt` for `std::sqrt`: the same code as
`VolatilityEstimator.get_volatility`, which is the case `K = ℚ`. -/
def get_volatility_in {K : Type} [LinearOrderedField K] (sqrt : K → K) (returns : List K) :
    K :=
  if returns.length < 2 then 0
  else
    let mean := returns.foldl (fun acc x => acc + x) 0 / (returns.length : K)
    let sq_sum := returns.foldl (fun acc x => acc + (x - mean) * (x - mean)) 0
    sqrt (sq_sum / ((returns.length - 1 : Nat) : K)) * sqrt 252

/-- The mean of a sample. -/
def sample_mean {K : Type} [LinearOrderedField K] (rs : List K) : K :=
  rs.sum / (rs.length : K)

/-- The sample variance with Bessel's correction: the sum of the squared deviations from
the mean, divided by n - 1. -/
def sample_variance {K : Type} [LinearOrderedField K] (rs : List K) : K :=
  (rs.map (fun r => (r - sample_mean rs) ^ 2)).sum / ((rs.length : K) - 1)

/-- A fresh `VolatilityEstimator(window_size)`. -/
def VolatilityEstimator.fresh (window_size : Nat) : VolatilityEstimator :=
  { window_size_ := window_size }

/-- The estimator after a sequence of `update(price)` calls, first price first. -/
def VolatilityEstimator.feed (fns : MathFns) (v : VolatilityEstimator) (prices : List ℚ) :
    VolatilityEstimator :=
  prices.foldl (VolatilityEstimator.update fns) v

/-- The Order Manager after each of a sequence of `on_market_data` calls that are the
only calls made on it; a tick is the depth and the `std::time` read. -/
def StoikovStrategy.drive (fns : MathFns) (s : StoikovStrategy) (om : OrderManager)
    (connector : Order → Bool) : List (MarketDepth × Int) → List OrderManager
  | [] => []
  | t :: ts =>
    (s.on_market_data fns om connector t.1 t.2).order_manager ::
      (s.on_market_data fns om connector t.1 t.2).strategy.drive fns
        (s.on_market_data fns om connector t.1 t.2).order_manager connector ts

/-! ## Concrete backtest configurations -/

/-- The ways two sequences can be merged, each keeping its own order. -/
inductive Interleaving {α : Type} : List α → List α → List α → Prop where
  | nil : Interleaving [] [] []
  | left (a : α) {l1 l2 l : List α} :
      Interleaving l1 l2 l → Interleaving (a :: l1) l2 (a :: l)
  | right (b : α) {l1 l2 l : List α} :
      Interleaving l1 l2 l → Interleaving l1 (b :: l2) (b :: l)

/-- Sequences in which the iterations of the main loop of `run` can execute, after
`#pragma omp parallel for if(market_data_.size() > 10000)` (line 28). Up to 10000
snapshots the clause is false and the iterations run in index order. Above, the
iterations are shared out among a team of threads; of the executions OpenMP allows, this
has those of a team of two threads under the static schedule: each thread runs one
contiguous half of the iterations in index order, the two halves interleave, and an
iteration counts as one step. -/
def main_loop_schedule (market_data : List MarketDepth) (warm_up_bars : Nat)
    (executed : List MarketDepth) : Prop :=
  if market_data.length > 10000 then
    Interleaving
      ((market_data.drop warm_up_bars).take
        (((market_data.drop warm_up_bars).length + 1) / 2))
      ((market_data.drop warm_up_bars).drop
        (((market_data.drop warm_up_bars).length + 1) / 2))
      executed
  else executed = market_data.drop warm_up_bars

/-- `BacktestEngine::run` up to the end of its main loop, with the iterations of the
main loop executed in the sequence `executed`; `backtest_run` is the case of index
order. -/
def backtest_run_scheduled {S : Type} (hooks : BacktestHooks S) (config : BacktestConfig)
    (clock : Nat → Int) (world : S) (risk_manager : RiskManager)
    (market_data executed : List MarketDepth) : BacktestRun S :=
  let warmed := (market_data.take config.warm_up_bars).foldl hooks.on_market_data world
  let start : BacktestRun S :=
    { world := warmed, risk_manager := risk_manager, clock_reads := 0,
      current_capital := Double.of config.initial_capital,
      high_water_mark := Double.of config.initial_capital,
      max_drawdown := Double.finite 0, results := {} }
  executed.foldl (process_bar hooks config clock) start

/-- Hooks that do what `hooks` does and keep, next to its state, the snapshots handed to
`on_market_data`, in call order. -/
def logging_hooks {S : Type} (hooks : BacktestHooks S) :
    BacktestHooks (S × List MarketDepth) :=
  { on_market_data := fun w depth => (hooks.on_market_data w.1 depth, w.2 ++ [depth]),
    get_active_orders := fun w => hooks.get_active_orders w.1,
    get_current_position := fun w => hooks.get_current_position w.1,
    update_position := fun w order => (hooks.update_position w.1 order, w.2),
    record_metrics := fun w depth => (hooks.record_metrics w.1 depth, w.2) }

/-- A series of 10001 snapshots with the mid prices 1.5, 2.5, 3.5 and so on. -/
def long_series : List MarketDepth :=
  (List.range 10001).map (fun (k : Nat) => flat_depth ((k : ℚ) + 2) ((k : ℚ) + 1))

/-- The snapshots of `long_series` with the second half of the iterations executed
before the first half. -/
def second_half_first : List MarketDepth :=
  long_series.drop 5001 ++ long_series.take 5001

/-! ## Ranges of the quote computation -/

theorem bit_length_aux_spec : ∀ fuel n : Nat, n ≤ fuel →
    n < 2 ^ bit_length_aux fuel n ∧ (n ≠ 0 → 2 ^ bit_length_aux fuel n ≤ 2 * n) := by
  intro fuel
  induction fuel with
  | zero =>
    intro n hn
    have : n = 0 := by omega
    subst this
    simp [bit_length_aux]
  | succ fuel ih =>
    intro n hn
    unfold bit_length_aux
    by_cases h0 : n = 0
    · subst h0; simp
    · rw [if_neg h0]
      obtain ⟨h1, h2⟩ := ih (n / 2) (by omega)
      rw [pow_succ]
      refine ⟨by omega, fun _ => ?_⟩
      by_cases hh : n / 2 = 0
      · have hn1 : n = 1 := by omega
        subst hn1
        have : bit_length_aux fuel (1 / 2) = 0 := by
          cases fuel <;> simp [bit_length_aux]
        rw [this]
        norm_num
      · have := h2 hh
        omega

theorem bit_length_spec (n : Nat) (hn : n ≠ 0) :
    n < 2 ^ bit_length n ∧ 2 ^ bit_length n ≤ 2 * n :=
  ⟨(bit_length_aux_spec n n (le_refl n)).1, (bit_length_aux_spec n n (le_refl n)).2 hn⟩

theorem two_pow_eq (e : Int) : two_pow e = (2 : ℚ) ^ e := by
  unfold two_pow
  split_ifs with h
  · obtain ⟨n, rfl⟩ := Int.eq_ofNat_of_zero_le h
    simp
  · have hneg : 0 ≤ -e := by omega
    obtain ⟨n, hn⟩ := Int.eq_ofNat_of_zero_le hneg
    have he : e = -(n : Int) := by omega
    subst he
    simp


theorem two_pow_pos (e : Int) : 0 < two_pow e := by
  rw [two_pow_eq]; positivity

theorem binade_spec (x : ℚ) (hx : x ≠ 0) :
    (2 : ℚ) ^ binade x ≤ |x| ∧ |x| < (2 : ℚ) ^ (binade x + 1) := by
  have hnum : x.num.natAbs ≠ 0 := by
    rw [Ne, Int.natAbs_eq_zero]; exact Rat.num_ne_zero.mpr hx
  obtain ⟨a1, a2⟩ := bit_length_spec x.num.natAbs hnum
  obtain ⟨b1, b2⟩ := bit_length_spec x.den x.den_ne_zero
  have habs : |x| = (x.num.natAbs : ℚ) / (x.den : ℚ) := by
    conv_lhs => rw [← Rat.num_div_den x]
    rw [abs_div, Nat.cast_natAbs, Int.cast_abs]
    congr 1
    exact abs_of_nonneg (by positivity)
  have hb : (0 : ℚ) < (x.den : ℚ) := by exact_mod_cast x.den_pos
  have a1q : (x.num.natAbs : ℚ) < (2 : ℚ) ^ bit_length x.num.natAbs := by exact_mod_cast a1
  have a2q : (2 : ℚ) ^ bit_length x.num.natAbs ≤ 2 * (x.num.natAbs : ℚ) := by
    exact_mod_cast a2
  have b1q : (x.den : ℚ) < (2 : ℚ) ^ bit_length x.den := by exact_mod_cast b1
  have b2q : (2 : ℚ) ^ bit_length x.den ≤ 2 * (x.den : ℚ) := by exact_mod_cast b2
  have hP : (0 : ℚ) < (2 : ℚ) ^ bit_length x.num.natAbs := by positivity
  have hQ : (0 : ℚ) < (2 : ℚ) ^ bit_length x.den := by positivity
  have ha0 : (0 : ℚ) ≤ (x.num.natAbs : ℚ) := by positivity
  have he0 : (2 : ℚ) ^ ((bit_length x.num.natAbs : Int) - (bit_length x.den : Int)) =
      (2 : ℚ) ^ bit_length x.num.natAbs / (2 : ℚ) ^ bit_length x.den := by
    rw [zpow_sub₀ (two_ne_zero), zpow_natCast, zpow_natCast]
  unfold binade
  rw [two_pow_eq]
  split_ifs with hc
  · refine ⟨hc, ?_⟩
    rw [zpow_add_one₀ (two_ne_zero), he0, habs, div_mul_eq_mul_div, div_lt_div_iff₀ hb hQ]
    nlinarith
  · refine ⟨?_, ?_⟩
    · rw [zpow_sub_one₀ (two_ne_zero), he0, habs, div_mul_eq_mul_div,
        div_le_div_iff₀ hQ hb]
      have h2 : (2 : ℚ)⁻¹ = 1 / 2 := by norm_num
      rw [h2]
      nlinarith
    · rw [sub_add_cancel]
      exact not_le.mp hc

theorem round_half_even_error (q : ℚ) : |(round_half_even q : ℚ) - q| ≤ 1 / 2 := by
  have h1 := Int.floor_le q
  have h2 := Int.lt_floor_add_one q
  unfold round_half_even
  rw [abs_le]
  split_ifs with c1 c2 c3
  · constructor <;> linarith
  · push_cast; constructor <;> linarith
  · constructor <;> linarith
  · push_cast; constructor <;> linarith

theorem round_half_even_le (q : ℚ) (m : Int) (h : q ≤ (m : ℚ)) : round_half_even q ≤ m := by
  have h1 := round_half_even_error q
  rw [abs_le] at h1
  have : ((round_half_even q : Int) : ℚ) < (m : ℚ) + 1 := by linarith [h1.2]
  have : round_half_even q < m + 1 := by exact_mod_cast this
  omega

theorem le_round_half_even (q : ℚ) (m : Int) (h : (m : ℚ) ≤ q) : m ≤ round_half_even q := by
  have h1 := round_half_even_error q
  rw [abs_le] at h1
  have : (m : ℚ) - 1 < ((round_half_even q : Int) : ℚ) := by linarith [h1.1]
  have : m - 1 < round_half_even q := by exact_mod_cast this
  omega

theorem round_double_error (x : ℚ) : |round_double x - x| ≤ |x| / 2 ^ 53 := by
  unfold round_double
  split_ifs with h0
  · subst h0; simp
  · obtain ⟨hb, _⟩ := binade_spec x h0
    rw [two_pow_eq]
    have hu : (0 : ℚ) < (2 : ℚ) ^ (binade x - 52) := by positivity
    have herr := round_half_even_error (x / (2 : ℚ) ^ (binade x - 52))
    have hsplit : (round_half_even (x / (2 : ℚ) ^ (binade x - 52)) : ℚ) *
        (2 : ℚ) ^ (binade x - 52) - x =
        ((round_half_even (x / (2 : ℚ) ^ (binade x - 52)) : ℚ) -
          x / (2 : ℚ) ^ (binade x - 52)) * (2 : ℚ) ^ (binade x - 52) := by
      field_simp
    rw [hsplit, abs_mul, abs_of_pos hu]
    have hpow : (2 : ℚ) ^ (binade x - 52) = (2 : ℚ) ^ binade x / 2 ^ 52 := by
      rw [zpow_sub₀ (two_ne_zero)]; norm_num
    calc |(round_half_even (x / (2 : ℚ) ^ (binade x - 52)) : ℚ) -
          x / (2 : ℚ) ^ (binade x - 52)| * (2 : ℚ) ^ (binade x - 52)
        ≤ 1 / 2 * (2 : ℚ) ^ (binade x - 52) := by
          exact mul_le_mul_of_nonneg_right herr (le_of_lt hu)
      _ = (2 : ℚ) ^ binade x / 2 ^ 53 := by rw [hpow]; ring
      _ ≤ |x| / 2 ^ 53 := by
          exact div_le_div_of_nonneg_right hb (by positivity)

theorem round_double_nonneg (x : ℚ) (hx : 0 ≤ x) : 0 ≤ round_double x := by
  unfold round_double
  split_ifs with h0
  · exact le_refl _
  · have hq : (0 : ℚ) ≤ x / two_pow (binade x - 52) :=
      div_nonneg hx (le_of_lt (two_pow_pos _))
    have := le_round_half_even _ 0 (by simpa using hq)
    exact mul_nonneg (by exact_mod_cast this) (le_of_lt (two_pow_pos _))


theorem round_half_even_le_of_lt_half (q : ℚ) (m : Int) (h : q < (m : ℚ) + 1 / 2) :
    round_half_even q ≤ m := by
  have h1 := Int.floor_le q
  have hfl : ⌊q⌋ ≤ m := by
    have : ((⌊q⌋ : Int) : ℚ) < (m : ℚ) + 1 := by linarith
    have : ⌊q⌋ < m + 1 := by exact_mod_cast this
    omega
  unfold round_half_even
  by_cases hm : ⌊q⌋ = m
  · have hfrac : q - (⌊q⌋ : ℚ) < 1 / 2 := by rw [hm]; linarith
    rw [if_pos hfrac]
    exact hfl
  · have : ⌊q⌋ + 1 ≤ m := by omega
    split_ifs <;> omega

theorem round_double_below_one (y : ℚ) (h0 : 0 ≤ y) (h1 : y < 1 - 1 / 2 ^ 54) :
    round_double y ≤ 1 - 1 / 2 ^ 53 := by
  unfold round_double
  split_ifs with hy
  · norm_num
  · obtain ⟨hb1, hb2⟩ := binade_spec y hy
    rw [abs_of_nonneg h0] at hb1 hb2
    rw [two_pow_eq]
    have hneg : binade y < 0 := by
      by_contra hcon
      have h2 : (1 : ℚ) ≤ (2 : ℚ) ^ binade y := one_le_zpow₀ (by norm_num) (not_lt.mp hcon)
      have h3 : (0 : ℚ) < 1 / 2 ^ 54 := by positivity
      linarith
    have hu : (0 : ℚ) < (2 : ℚ) ^ (binade y - 52) := by positivity
    have hpow : (2 : ℚ) ^ 53 * (2 : ℚ) ^ (binade y - 52) = (2 : ℚ) ^ (binade y + 1) := by
      rw [show binade y + 1 = 53 + (binade y - 52) by ring, zpow_add₀ (two_ne_zero)]
      norm_num
    have hq : y / (2 : ℚ) ^ (binade y - 52) < 2 ^ 53 := by
      rw [div_lt_iff₀ hu, hpow]; exact hb2
    by_cases hb : binade y = -1
    · have hu53 : (2 : ℚ) ^ (binade y - 52) = 1 / 2 ^ 53 := by
        rw [hb]; norm_num [zpow_neg]
      rw [hu53]
      have hle := round_half_even_le_of_lt_half (y / (1 / 2 ^ 53)) (2 ^ 53 - 1) (by
        rw [div_lt_iff₀ (by positivity)]
        push_cast
        have : ((9007199254740991 : ℚ) + 1 / 2) * (1 / 2 ^ 53) = 1 - 1 / 2 ^ 54 := by
          norm_num
        rw [this]; exact h1)
      have hle2 : ((round_half_even (y / (1 / 2 ^ 53)) : Int) : ℚ) ≤ 2 ^ 53 - 1 := by
        exact_mod_cast hle
      calc ((round_half_even (y / (1 / 2 ^ 53)) : Int) : ℚ) * (1 / 2 ^ 53)
          ≤ (2 ^ 53 - 1) * (1 / 2 ^ 53) :=
            mul_le_mul_of_nonneg_right hle2 (by positivity)
        _ = 1 - 1 / 2 ^ 53 := by norm_num
    · have hb2le : binade y + 1 ≤ -1 := by omega
      have hle := round_half_even_le (y / (2 : ℚ) ^ (binade y - 52)) (2 ^ 53) (by
        push_cast; exact le_of_lt hq)
      have hle2 : ((round_half_even (y / (2 : ℚ) ^ (binade y - 52)) : Int) : ℚ) ≤ 2 ^ 53 := by
        exact_mod_cast hle
      calc ((round_half_even (y / (2 : ℚ) ^ (binade y - 52)) : Int) : ℚ) *
            (2 : ℚ) ^ (binade y - 52)
          ≤ 2 ^ 53 * (2 : ℚ) ^ (binade y - 52) :=
            mul_le_mul_of_nonneg_right hle2 (le_of_lt hu)
        _ = (2 : ℚ) ^ (binade y + 1) := hpow
        _ ≤ (2 : ℚ) ^ (-1 : Int) := zpow_le_zpow_right₀ (by norm_num) hb2le
        _ ≤ 1 - 1 / 2 ^ 53 := by norm_num [zpow_neg]

theorem round_double_le (x : ℚ) (hx : 0 ≤ x) :
    round_double x ≤ x * (1 + 1 / 2 ^ 53) := by
  have h := round_double_error x
  rw [abs_le, abs_of_nonneg hx] at h
  have : x * (1 + 1 / 2 ^ 53) = x + x / 2 ^ 53 := by ring
  linarith [h.2]

theorem le_round_double (x : ℚ) (hx : 0 ≤ x) :
    x * (1 - 1 / 2 ^ 53) ≤ round_double x := by
  have h := round_double_error x
  rw [abs_le, abs_of_nonneg hx] at h
  have : x * (1 - 1 / 2 ^ 53) = x - x / 2 ^ 53 := by ring
  linarith [h.1]

/-- The double product `(1.0 - c) * n` of `calculate_var` for `2^-54 < c <= 1` and
`n >= 1` is at least 0 and below `n`, and within two roundings of the exact product. -/
theorem var_product_in_range (c : ℚ) (n : Nat) (hn : 0 < n) (hc : 1 / 2 ^ 54 < c)
    (h1 : c ≤ 1) :
    0 ≤ round_double (round_double (1 - c) * (n : ℚ)) ∧
    round_double (round_double (1 - c) * (n : ℚ)) < (n : ℚ) ∧
    (1 - c) * (n : ℚ) * (1 - 1 / 2 ^ 53) ^ 2 ≤
      round_double (round_double (1 - c) * (n : ℚ)) ∧
    round_double (round_double (1 - c) * (n : ℚ)) ≤
      (1 - c) * (n : ℚ) * (1 + 1 / 2 ^ 53) ^ 2 := by
  have hnq : (0 : ℚ) < (n : ℚ) := by exact_mod_cast hn
  have hy0 : (0 : ℚ) ≤ 1 - c := by linarith
  have hx0 := round_double_nonneg (1 - c) hy0
  have hx1 := round_double_below_one (1 - c) hy0 (by linarith)
  have hxu := round_double_le (1 - c) hy0
  have hxl := le_round_double (1 - c) hy0
  have hp0 : (0 : ℚ) ≤ round_double (1 - c) * (n : ℚ) := mul_nonneg hx0 (le_of_lt hnq)
  have hru := round_double_le _ hp0
  have hrl := le_round_double _ hp0
  refine ⟨round_double_nonneg _ hp0, ?_, ?_, ?_⟩
  · have h2 : round_double (1 - c) * (n : ℚ) * (1 + 1 / 2 ^ 53) ≤
        (1 - 1 / 2 ^ 53) * (n : ℚ) * (1 + 1 / 2 ^ 53) := by
      apply mul_le_mul_of_nonneg_right _ (by positivity)
      exact mul_le_mul_of_nonneg_right hx1 (le_of_lt hnq)
    have h3 : (1 - 1 / 2 ^ 53) * (n : ℚ) * (1 + 1 / 2 ^ 53) < (n : ℚ) := by
      have : (1 - 1 / 2 ^ 53) * (n : ℚ) * (1 + 1 / 2 ^ 53) =
          (n : ℚ) - (n : ℚ) * (1 / 2 ^ 106) := by ring
      rw [this]
      have : (0 : ℚ) < (n : ℚ) * (1 / 2 ^ 106) := by positivity
      linarith
    linarith
  · have h2 : (1 - c) * (1 - 1 / 2 ^ 53) * (n : ℚ) * (1 - 1 / 2 ^ 53) ≤
        round_double (1 - c) * (n : ℚ) * (1 - 1 / 2 ^ 53) := by
      apply mul_le_mul_of_nonneg_right _ (by norm_num)
      exact mul_le_mul_of_nonneg_right hxl (le_of_lt hnq)
    have : (1 - c) * (n : ℚ) * (1 - 1 / 2 ^ 53) ^ 2 =
        (1 - c) * (1 - 1 / 2 ^ 53) * (n : ℚ) * (1 - 1 / 2 ^ 53) := by ring
    linarith
  · have h2 : round_double (1 - c) * (n : ℚ) * (1 + 1 / 2 ^ 53) ≤
        (1 - c) * (1 + 1 / 2 ^ 53) * (n : ℚ) * (1 + 1 / 2 ^ 53) := by
      apply mul_le_mul_of_nonneg_right _ (by positivity)
      exact mul_le_mul_of_nonneg_right hxu (le_of_lt hnq)
    have : (1 - c) * (n : ℚ) * (1 + 1 / 2 ^ 53) ^ 2 =
        (1 - c) * (1 + 1 / 2 ^ 53) * (n : ℚ) * (1 + 1 / 2 ^ 53) := by ring
    linarith

theorem Double.underflow_pos : 0 < Double.underflow_threshold := by
  unfold Double.underflow_threshold; positivity

theorem Double.underflow_lt_overflow :
    Double.underflow_threshold < Double.overflow_threshold := by
  unfold Double.underflow_threshold Double.overflow_threshold; norm_num

theorem Double.of_cases (x : ℚ) :
    (Double.overflow_threshold ≤ x ∧ Double.of x = Double.pos_inf) ∨
    (x ≤ -Double.overflow_threshold ∧ Double.of x = Double.neg_inf) ∨
    (-Double.underflow_threshold ≤ x ∧ x ≤ Double.underflow_threshold ∧
      Double.of x = Double.finite 0) ∨
    (-Double.overflow_threshold < x ∧ x < Double.overflow_threshold ∧
      (x < -Double.underflow_threshold ∨ Double.underflow_threshold < x) ∧
      Double.of x = Double.finite x) := by
  have hu := Double.underflow_pos
  have hut := Double.underflow_lt_overflow
  unfold Double.of
  by_cases h1 : Double.overflow_threshold ≤ x
  · exact Or.inl ⟨h1, by rw [if_pos h1]⟩
  · rw [if_neg h1]
    by_cases h2 : x ≤ -Double.overflow_threshold
    · exact Or.inr (Or.inl ⟨h2, by rw [if_pos h2]⟩)
    · rw [if_neg h2]
      by_cases h3 : |x| ≤ Double.underflow_threshold
      · rw [if_pos h3]
        rw [abs_le] at h3
        exact Or.inr (Or.inr (Or.inl ⟨h3.1, h3.2, rfl⟩))
      · rw [if_neg h3]
        refine Or.inr (Or.inr (Or.inr ⟨not_le.mp h2, not_le.mp h1, ?_, rfl⟩))
        rw [abs_le, not_and_or, not_le, not_le] at h3
        exact h3

theorem Double.of_zero : Double.of 0 = Double.finite 0 := by
  have hu := Double.underflow_pos
  have hut := Double.underflow_lt_overflow
  rcases Double.of_cases 0 with h | h | h | h
  · linarith [h.1]
  · linarith [h.1]
  · exact h.2.2
  · exact h.2.2.2

theorem Double.of_normal (x : ℚ) : (Double.of x).normal := by
  rcases Double.of_cases x with h | h | h | h
  · rw [h.2]; trivial
  · rw [h.2]; trivial
  · rw [h.2.2]; exact Double.of_zero
  · rw [h.2.2.2]; exact h.2.2.2

theorem Double.of_nonneg (x : ℚ) (hx : 0 ≤ x) : (Double.of x).nonneg := by
  have hu := Double.underflow_pos
  have hut := Double.underflow_lt_overflow
  rcases Double.of_cases x with h | h | h | h
  · rw [h.2]; trivial
  · linarith [h.1]
  · rw [h.2.2]; exact le_refl (0 : ℚ)
  · rw [h.2.2.2]; exact hx

theorem Double.of_mono (x y : ℚ) (hxy : x ≤ y) :
    Double.le (Double.of x) (Double.of y) = true := by
  have hu := Double.underflow_pos
  have hut := Double.underflow_lt_overflow
  rcases Double.of_cases x with ⟨hx1, hx⟩ | ⟨hx1, hx⟩ | ⟨hx1, hx2, hx⟩ | ⟨hx1, hx2, hx3, hx⟩ <;>
  rcases Double.of_cases y with ⟨hy1, hy⟩ | ⟨hy1, hy⟩ | ⟨hy1, hy2, hy⟩ | ⟨hy1, hy2, hy3, hy⟩ <;>
  rw [hx, hy] <;>
  simp only [Double.le, decide_eq_true_eq, Bool.false_eq_true, le_refl] <;>
  first
  | linarith
  | (rcases hy3 with h | h <;> linarith)
  | (rcases hx3 with h | h <;> linarith)

theorem Double.le_trans (a b c : Double) (hab : Double.le a b = true)
    (hbc : Double.le b c = true) : Double.le a c = true := by
  cases a <;> cases b <;> cases c <;>
    simp only [Double.le, decide_eq_true_eq, Bool.false_eq_true] at hab hbc ⊢
  exact hab.trans hbc

theorem Double.le_self (a : Double) (ha : a ≠ Double.nan) : Double.le a a = true := by
  cases a <;> simp [Double.le] at ha ⊢

theorem Double.gt_of_le (a b : Double) (hab : Double.le a b = true) :
    Double.gt a b = false := by
  cases a <;> cases b <;>
    simp only [Double.le, Double.gt, decide_eq_true_eq, decide_eq_false_iff_not, not_lt,
      Bool.false_eq_true] at hab ⊢
  exact hab

theorem Double.ne_nan_of_le (a b : Double) (hab : Double.le a b = true) :
    a ≠ Double.nan ∧ b ≠ Double.nan := by
  cases a <;> cases b <;> simp [Double.le] at hab ⊢

theorem Double.add_nonneg (a b : Double) (ha : a.nonneg) (hb : b.nonneg) :
    (a.add b).nonneg := by
  cases a <;> cases b <;> simp only [Double.nonneg] at ha hb <;>
    simp only [Double.add, Double.nonneg]
  exact Double.of_nonneg _ (by linarith)

theorem Double.mul_nonneg_or_nan (a b : Double) (ha : a.nonneg) (hb : b.nonneg) :
    (a.mul b).nonneg ∨ a.mul b = Double.nan := by
  cases a with
  | finite x =>
    cases b with
    | finite y =>
      exact Or.inl (Double.of_nonneg _ (mul_nonneg ha hb))
    | pos_inf =>
      simp only [Double.nonneg] at ha
      by_cases hx : x = 0
      · right; simp [Double.mul, Double.mul_inf, hx]
      · left
        have hpos : 0 < x := lt_of_le_of_ne ha (Ne.symm hx)
        simp [Double.mul, Double.mul_inf, hx, hpos, Double.nonneg]
    | neg_inf => exact absurd hb (by simp [Double.nonneg])
    | nan => exact absurd hb (by simp [Double.nonneg])
  | pos_inf =>
    cases b with
    | finite y =>
      simp only [Double.nonneg] at hb
      by_cases hy : y = 0
      · right; simp [Double.mul, Double.mul_inf, hy]
      · left
        have hpos : 0 < y := lt_of_le_of_ne hb (Ne.symm hy)
        simp [Double.mul, Double.mul_inf, hy, hpos, Double.nonneg]
    | pos_inf => left; simp [Double.mul, Double.mul_inf, Double.nonneg]
    | neg_inf => exact absurd hb (by simp [Double.nonneg])
    | nan => exact absurd hb (by simp [Double.nonneg])
  | neg_inf => exact absurd ha (by simp [Double.nonneg])
  | nan => exact absurd ha (by simp [Double.nonneg])

theorem Double.div_nonneg_or_nan (a b : Double) (ha : a.nonneg) (hb : b.nonneg) :
    (a.div b).nonneg ∨ a.div b = Double.nan := by
  cases a with
  | finite x =>
    cases b with
    | finite y =>
      simp only [Double.nonneg] at ha hb
      by_cases hy : y = 0
      · by_cases hx : x = 0
        · right; simp [Double.div, hx, hy]
        · left
          have hpos : 0 < x := lt_of_le_of_ne ha (Ne.symm hx)
          simp [Double.div, hx, hy, hpos, Double.nonneg]
      · left
        simp only [Double.div, hy, if_false]
        exact Double.of_nonneg _ (div_nonneg ha hb)
    | pos_inf => left; simp [Double.div, Double.nonneg]
    | neg_inf => exact absurd hb (by simp [Double.nonneg])
    | nan => exact absurd hb (by simp [Double.nonneg])
  | pos_inf =>
    cases b with
    | finite y =>
      simp only [Double.nonneg] at hb
      left; simp [Double.div, hb, Double.nonneg]
    | pos_inf => right; simp [Double.div]
    | neg_inf => exact absurd hb (by simp [Double.nonneg])
    | nan => exact absurd hb (by simp [Double.nonneg])
  | neg_inf => exact absurd ha (by simp [Double.nonneg])
  | nan => exact absurd ha (by simp [Double.nonneg])

theorem Double.add_nan_left (b : Double) : Double.nan.add b = Double.nan := by
  cases b <;> rfl

theorem Double.add_nan_right (a : Double) : a.add Double.nan = Double.nan := by
  cases a <;> rfl

theorem Double.sub_nan_right (a : Double) : a.sub Double.nan = Double.nan := by
  cases a <;> rfl

theorem Double.sub_nan_left (b : Double) : Double.nan.sub b = Double.nan := by
  cases b <;> rfl

theorem Double.mul_nan_left (b : Double) : Double.nan.mul b = Double.nan := by
  cases b <;> rfl

theorem Double.mul_nan_right (a : Double) : a.mul Double.nan = Double.nan := by
  cases a <;> rfl

theorem Double.sub_normal (a b : Double) : (a.sub b).normal := by
  cases a <;> cases b <;> simp only [Double.sub, Double.neg, Double.add, Double.normal]
  exact Double.of_normal _

theorem Double.sub_zero (a : Double) (ha : a.normal) : a.sub (Double.finite 0) = a := by
  cases a with
  | finite x =>
    show Double.of (x + -0) = Double.finite x
    rw [neg_zero, add_zero]
    exact ha
  | pos_inf => rfl
  | neg_inf => rfl
  | nan => rfl

theorem Double.add_zero_zero :
    (Double.finite 0).add (Double.finite 0) = Double.finite 0 := by
  show Double.of (0 + 0) = Double.finite 0
  rw [add_zero]; exact Double.of_zero

/-- Taking a value that is not negative from a capital gives NaN or a capital that is
not above the one before. -/
theorem Double.sub_nonneg_le (a b : Double) (ha : a.normal) (hb : b.nonneg) :
    a.sub b = Double.nan ∨ Double.le (a.sub b) a = true := by
  cases a with
  | finite x =>
    cases b with
    | finite y =>
      right
      show Double.le (Double.of (x + -y)) (Double.finite x) = true
      have hx : Double.of x = Double.finite x := ha
      rw [← hx]
      exact Double.of_mono _ _ (by simp only [Double.nonneg] at hb; linarith)
    | pos_inf => right; rfl
    | neg_inf => exact absurd hb (by simp [Double.nonneg])
    | nan => exact absurd hb (by simp [Double.nonneg])
  | pos_inf =>
    cases b with
    | finite y => right; rfl
    | pos_inf => left; rfl
    | neg_inf => exact absurd hb (by simp [Double.nonneg])
    | nan => exact absurd hb (by simp [Double.nonneg])
  | neg_inf =>
    cases b with
    | finite y => right; rfl
    | pos_inf => right; rfl
    | neg_inf => exact absurd hb (by simp [Double.nonneg])
    | nan => exact absurd hb (by simp [Double.nonneg])
  | nan => left; exact Double.sub_nan_left b

theorem place_order_cases (m : OrderManager) (side : OrderSide) (price quantity : ℚ)
    (t1 t2 : Int) :
    (m.check_risk_limits side quantity price = false ∧
      m.place_order side price quantity t1 t2 = (none, m)) ∨
    (m.check_risk_limits side quantity price = true ∧
      m.config_.max_active_orders ≤ (m.active_count : Int) ∧
      m.place_order side price quantity t1 t2 =
        (none, { m with next_order_id_ := wrap64 (m.next_order_id_ + 1) })) ∨
    (m.check_risk_limits side quantity price = true ∧
      (m.active_count : Int) < m.config_.max_active_orders ∧
      m.place_order side price quantity t1 t2 =
        (some (m.candidate side price quantity t1 t2),
          { m with next_order_id_ := wrap64 (m.next_order_id_ + 1),
                   active_orders_ :=
                     m.active_orders_ ++ [m.candidate side price quantity t1 t2] })) := by
  by_cases hc : m.check_risk_limits side quantity price = true
  · by_cases hn : m.config_.max_active_orders ≤ (m.active_count : Int)
    · right; left
      refine ⟨hc, hn, ?_⟩
      have hn2 : m.config_.max_active_orders ≤ (List.countP Order.is_active m.active_orders_ : Int) := hn
      simp [OrderManager.place_order, OrderManager.generate_order_id, hc,
        OrderManager.active_count, hn2]
    · right; right
      refine ⟨hc, lt_of_not_le hn, ?_⟩
      have hn2 : ¬ m.config_.max_active_orders ≤ (List.countP Order.is_active m.active_orders_ : Int) := hn
      simp [OrderManager.place_order, OrderManager.generate_order_id, hc,
        OrderManager.active_count, hn2, OrderManager.candidate]
  · left
    have hc2 : m.check_risk_limits side quantity price = false := by simpa using hc
    exact ⟨hc2, by simp [OrderManager.place_order, hc2]⟩

theorem place_order_position (m : OrderManager) (side : OrderSide) (price quantity : ℚ)
    (t1 t2 : Int) :
    (m.place_order side price quantity t1 t2).2.position_ = m.position_ ∧
    (m.place_order side price quantity t1 t2).2.notional_exposure_ = m.notional_exposure_ ∧
    (m.place_order side price quantity t1 t2).2.config_ = m.config_ := by
  rcases place_order_cases m side price quantity t1 t2 with h | h | h
  · rw [h.2]; simp
  · rw [h.2.2]; simp
  · rw [h.2.2]; simp

theorem update_order_position (m : OrderManager) (order : Order) :
    (m.update_order order).position_ =
      m.position_ + ((m.fill_of order).toList.map Fill.signed).sum := by
  unfold OrderManager.update_order OrderManager.fill_of
  cases m.active_orders_.find? (fun o => o.order_id == order.order_id) with
  | none => simp
  | some it =>
    by_cases h : order.filled_quantity - it.filled_quantity > 0
    · simp [h, Fill.signed]
    · simp [h]

theorem update_order_notional (m : OrderManager) (order : Order) :
    (m.update_order order).notional_exposure_ =
      m.notional_exposure_ + ((m.fill_of order).toList.map Fill.notional).sum := by
  unfold OrderManager.update_order OrderManager.fill_of
  cases m.active_orders_.find? (fun o => o.order_id == order.order_id) with
  | none => simp
  | some it =>
    by_cases h : order.filled_quantity - it.filled_quantity > 0
    · simp [h, Fill.notional]
    · simp [h]

theorem run_position (ops : List Op) : ∀ m : OrderManager,
    (m.run ops).position_ = m.position_ + ((m.applied_fills ops).map Fill.signed).sum ∧
    (m.run ops).notional_exposure_ =
      m.notional_exposure_ + ((m.applied_fills ops).map Fill.notional).sum := by
  induction ops with
  | nil => intro m; simp [OrderManager.run, OrderManager.applied_fills]
  | cons op ops ih =>
    intro m
    cases op with
    | place side price quantity t1 t2 =>
      have hp := place_order_position m side price quantity t1 t2
      have := ih (m.place_order side price quantity t1 t2).2
      simp only [OrderManager.run, OrderManager.applied_fills, OrderManager.step]
      rw [this.1, this.2, hp.1, hp.2.1]
      exact ⟨rfl, rfl⟩
    | update order =>
      have := ih (m.update_order order)
      simp only [OrderManager.run, OrderManager.applied_fills, OrderManager.step]
      rw [this.1, this.2, update_order_position, update_order_notional]
      simp [add_assoc]

/-- C1: starting from a fresh Order Manager, after any sequence of `place_order` and
`update_order` calls the position is the sum of the side-signed deltas of the applied
fills (Buy positive, Sell negative) and the notional exposure is the sum of
price times delta over the same fills. -/
theorem position_is_sum_of_fills (config : Config) (ops : List Op) :
    ((OrderManager.fresh config).run ops).position_ =
      (((OrderManager.fresh config).applied_fills ops).map Fill.signed).sum ∧
    ((OrderManager.fresh config).run ops).notional_exposure_ =
      (((OrderManager.fresh config).applied_fills ops).map Fill.notional).sum := by
  have h := run_position ops (OrderManager.fresh config)
  simpa [OrderManager.fresh] using h

/-! ## update_order on a stored order -/

theorem find_assign_first (p : Order → Bool) (order : Order) (hp : p order = true) :
    ∀ (l : List Order) (it : Order), l.find? p = some it →
      (assign_first p order l).find? p = some order := by
  intro l
  induction l with
  | nil => intro it h; simp at h
  | cons o os ih =>
    intro it h
    by_cases ho : p o = true
    · simp [assign_first, ho, List.find?, hp]
    · have ho2 : p o = false := by simpa using ho
      rw [List.find?_cons_of_neg _ ho] at h
      simp only [assign_first, ho2]
      rw [if_neg (by simp), List.find?_cons_of_neg _ ho]
      exact ih it h

theorem mem_assign_first (p : Order → Bool) (order : Order) :
    ∀ (l : List Order) (o : Order), o ∈ assign_first p order l → o = order ∨ o ∈ l := by
  intro l
  induction l with
  | nil => intro o h; simp [assign_first] at h
  | cons a as ih =>
    intro o h
    by_cases ha : p a = true
    · simp only [assign_first, ha, if_true, List.mem_cons] at h
      rcases h with h | h
      · exact Or.inl h
      · exact Or.inr (List.mem_cons_of_mem _ h)
    · have ha2 : p a = false := by simpa using ha
      simp only [assign_first, ha2, List.mem_cons] at h
      rw [if_neg (by simp)] at h
      simp only [List.mem_cons] at h
      rcases h with h | h
      · exact Or.inr (by simp [h])
      · rcases ih o h with h2 | h2
        · exact Or.inl h2
        · exact Or.inr (List.mem_cons_of_mem _ h2)

theorem update_order_found (m : OrderManager) (order it : Order)
    (hfind : m.active_orders_.find? (fun o => o.order_id == order.order_id) = some it) :
    (m.update_order order).position_ =
      (if order.filled_quantity - it.filled_quantity > 0 then
        m.position_ + (if order.side = OrderSide.BUY
          then order.filled_quantity - it.filled_quantity
          else -(order.filled_quantity - it.filled_quantity))
       else m.position_) ∧
    (m.update_order order).notional_exposure_ =
      (if order.filled_quantity - it.filled_quantity > 0 then
        m.notional_exposure_ + order.price * (order.filled_quantity - it.filled_quantity)
       else m.notional_exposure_) ∧
    (m.update_order order).active_orders_ =
      assign_first (fun o => o.order_id == order.order_id) order m.active_orders_ ∧
    (m.update_order order).next_order_id_ = m.next_order_id_ ∧
    (m.update_order order).config_ = m.config_ := by
  unfold OrderManager.update_order
  rw [hfind]
  by_cases h : order.filled_quantity - it.filled_quantity > 0
  · simp [h]
  · simp [h]

theorem update_order_not_found (m : OrderManager) (order : Order)
    (hfind : m.active_orders_.find? (fun o => o.order_id == order.order_id) = none) :
    m.update_order order = m := by
  unfold OrderManager.update_order
  rw [hfind]

/-- C2 (counterexample): order 1 is stored with `filled_quantity = 3`; the snapshot with
`filled_quantity = 1` is not rejected: the stored record becomes the snapshot, so the
stored `filled_quantity` drops from 3 to 1. -/
theorem lower_fill_snapshot_is_stored :
    filled_3.active_orders_ = [snapshot_1 3 OrderStatus.PARTIALLY_FILLED] ∧
    (filled_3.update_order (snapshot_1 1 OrderStatus.PARTIALLY_FILLED)).active_orders_ =
      [snapshot_1 1 OrderStatus.PARTIALLY_FILLED] := by
  decide!

/-- C2 (amended): a snapshot of a stored order whose `filled_quantity` is lower than the
stored one leaves position and notional exposure unchanged, and the stored record for
that id becomes the snapshot. -/
theorem update_order_lower_fill (m : OrderManager) (order it : Order)
    (hfind : m.active_orders_.find? (fun o => o.order_id == order.order_id) = some it)
    (hlow : order.filled_quantity < it.filled_quantity) :
    (m.update_order order).position_ = m.position_ ∧
    (m.update_order order).notional_exposure_ = m.notional_exposure_ ∧
    (m.update_order order).active_orders_.find? (fun o => o.order_id == order.order_id) =
      some order := by
  have h := update_order_found m order it hfind
  have hneg : ¬ (order.filled_quantity - it.filled_quantity > 0) := by
    simp only [gt_iff_lt, sub_pos]; exact not_lt.mpr (le_of_lt hlow)
  rw [if_neg hneg] at h
  rw [if_neg hneg] at h
  refine ⟨h.1, h.2.1, ?_⟩
  rw [h.2.2.1]
  exact find_assign_first _ order (by simp) _ it hfind

theorem update_order_lower_fill_witness :
    (filled_3.update_order (snapshot_1 1 OrderStatus.PARTIALLY_FILLED)).position_ =
      filled_3.position_ ∧
    (filled_3.update_order (snapshot_1 1 OrderStatus.PARTIALLY_FILLED)).notional_exposure_ =
      filled_3.notional_exposure_ ∧
    (filled_3.update_order (snapshot_1 1 OrderStatus.PARTIALLY_FILLED)).active_orders_.find?
      (fun o => o.order_id == (snapshot_1 1 OrderStatus.PARTIALLY_FILLED).order_id) =
      some (snapshot_1 1 OrderStatus.PARTIALLY_FILLED) :=
  update_order_lower_fill filled_3 (snapshot_1 1 OrderStatus.PARTIALLY_FILLED)
    (snapshot_1 3 OrderStatus.PARTIALLY_FILLED) (by decide!) (by decide!)

/-! ## Fill bounds -/

theorem step_fill_bounded (m : OrderManager) (op : Op) (hop : op.in_bounds)
    (hm : ∀ o ∈ m.active_orders_, o.fill_bounded) :
    ∀ o ∈ (m.step op).active_orders_, o.fill_bounded := by
  cases op with
  | place side price quantity t1 t2 =>
    have hq : (0 : ℚ) ≤ quantity := hop
    simp only [OrderManager.step]
    rcases place_order_cases m side price quantity t1 t2 with h | h | h
    · rw [h.2]; exact hm
    · rw [h.2.2]; exact hm
    · rw [h.2.2]
      intro o ho
      simp only [List.mem_append, List.mem_singleton] at ho
      rcases ho with ho | ho
      · exact hm o ho
      · subst ho
        exact ⟨le_refl _, hq⟩
  | update order =>
    have hb : order.fill_bounded := hop
    simp only [OrderManager.step]
    cases hfind : m.active_orders_.find? (fun o => o.order_id == order.order_id) with
    | none => rw [update_order_not_found m order hfind]; exact hm
    | some it =>
      rw [(update_order_found m order it hfind).2.2.1]
      intro o ho
      rcases mem_assign_first _ order _ o ho with h | h
      · rw [h]; exact hb
      · exact hm o h

theorem run_fill_bounded (ops : List Op) : ∀ m : OrderManager,
    (∀ op ∈ ops, op.in_bounds) → (∀ o ∈ m.active_orders_, o.fill_bounded) →
    ∀ o ∈ (m.run ops).active_orders_, o.fill_bounded := by
  induction ops with
  | nil => intro m _ hm; exact hm
  | cons op ops ih =>
    intro m hops hm
    simp only [OrderManager.run]
    exact ih (m.step op) (fun op2 h2 => hops op2 (List.mem_cons_of_mem _ h2))
      (step_fill_bounded m op (hops op (List.mem_cons_self _ _)) hm)

/-- C3 (counterexample): order 1 (quantity 5, nothing filled) is stored in a state reached
from a fresh manager; the snapshot with `filled_quantity = 7 > 5` is not rejected: it is
stored as given and the position moves from 0 to 7. -/
theorem overfilled_snapshot_is_stored :
    placed_1.position_ = 0 ∧
    (placed_1.update_order (snapshot_1 7 OrderStatus.PARTIALLY_FILLED)).active_orders_ =
      [snapshot_1 7 OrderStatus.PARTIALLY_FILLED] ∧
    (snapshot_1 7 OrderStatus.PARTIALLY_FILLED).quantity = 5 ∧
    (placed_1.update_order (snapshot_1 7 OrderStatus.PARTIALLY_FILLED)).position_ = 7 := by
  decide!

/-- C3 (amended): in every state reached from a fresh manager through `place_order` calls
with a non-negative quantity and `update_order` calls whose snapshots satisfy
`0 <= filled_quantity <= quantity`, every stored order satisfies
`0 <= filled_quantity <= quantity`. -/
theorem stored_orders_fill_bounded (config : Config) (ops : List Op)
    (hops : ∀ op ∈ ops, op.in_bounds) :
    ∀ o ∈ ((OrderManager.fresh config).run ops).active_orders_, o.fill_bounded :=
  run_fill_bounded ops (OrderManager.fresh config) hops
    (by intro o ho; simp [OrderManager.fresh] at ho)

theorem stored_orders_fill_bounded_witness :
    (∀ op ∈ [Op.place OrderSide.BUY 100 5 0 0,
        Op.update (snapshot_1 3 OrderStatus.PARTIALLY_FILLED)], op.in_bounds) ∧
    ∀ o ∈ ((OrderManager.fresh {}).run [Op.place OrderSide.BUY 100 5 0 0,
        Op.update (snapshot_1 3 OrderStatus.PARTIALLY_FILLED)]).active_orders_,
      o.fill_bounded :=
  have h : ∀ op ∈ [Op.place OrderSide.BUY 100 5 0 0,
      Op.update (snapshot_1 3 OrderStatus.PARTIALLY_FILLED)], op.in_bounds := by
    intro op hop
    simp only [List.mem_cons, List.mem_singleton, List.not_mem_nil, or_false] at hop
    rcases hop with rfl | rfl
    · show (0 : ℚ) ≤ 5
      norm_num
    · show (0 : ℚ) ≤ 3 ∧ (3 : ℚ) ≤ 5
      norm_num
  ⟨h, stored_orders_fill_bounded {} _ h⟩

/-! ## Terminal orders -/

/-- C4 (counterexample): order 1 is stored as Cancelled with position 0; a later snapshot
reporting a fill of 2 is not rejected: position becomes 2, notional exposure 200, and the
stored record is active (PartiallyFilled) again. -/
theorem fill_after_cancel_moves_position :
    cancelled_1.active_orders_ = [snapshot_1 0 OrderStatus.CANCELLED] ∧
    cancelled_1.position_ = 0 ∧
    (cancelled_1.update_order (snapshot_1 2 OrderStatus.PARTIALLY_FILLED)).position_ = 2 ∧
    (cancelled_1.update_order (snapshot_1 2 OrderStatus.PARTIALLY_FILLED)).notional_exposure_
      = 200 ∧
    (cancelled_1.update_order (snapshot_1 2 OrderStatus.PARTIALLY_FILLED)).active_orders_.map
      Order.is_active = [true] := by
  decide!

/-- C4 (amended): `update_order` applied to a stored order whose status is terminal leaves
position and notional exposure unchanged when the snapshot's `filled_quantity` does not
exceed the stored one, and otherwise adds the side-signed fill delta to the position and
price times delta to the notional exposure; in both cases the stored record for that id
becomes the snapshot, with the snapshot's status. -/
theorem update_order_terminal (m : OrderManager) (order it : Order)
    (hfind : m.active_orders_.find? (fun o => o.order_id == order.order_id) = some it)
    (_hterm : it.is_active = false) :
    (order.filled_quantity ≤ it.filled_quantity →
      (m.update_order order).position_ = m.position_ ∧
      (m.update_order order).notional_exposure_ = m.notional_exposure_) ∧
    (it.filled_quantity < order.filled_quantity →
      (m.update_order order).position_ = m.position_ +
        (if order.side = OrderSide.BUY then order.filled_quantity - it.filled_quantity
         else -(order.filled_quantity - it.filled_quantity)) ∧
      (m.update_order order).notional_exposure_ = m.notional_exposure_ +
        order.price * (order.filled_quantity - it.filled_quantity)) ∧
    (m.update_order order).active_orders_.find? (fun o => o.order_id == order.order_id) =
      some order := by
  have h := update_order_found m order it hfind
  refine ⟨?_, ?_, ?_⟩
  · intro hle
    have hneg : ¬ (order.filled_quantity - it.filled_quantity > 0) := by
      simp only [gt_iff_lt, sub_pos]; exact not_lt.mpr hle
    rw [if_neg hneg, if_neg hneg] at h
    exact ⟨h.1, h.2.1⟩
  · intro hlt
    have hpos : order.filled_quantity - it.filled_quantity > 0 := by
      simp only [gt_iff_lt, sub_pos]; exact hlt
    rw [if_pos hpos, if_pos hpos] at h
    exact ⟨h.1, h.2.1⟩
  · rw [h.2.2.1]
    exact find_assign_first _ order (by simp) _ it hfind

theorem update_order_terminal_witness :
    (cancelled_1.update_order (snapshot_1 2 OrderStatus.PARTIALLY_FILLED)).active_orders_.find?
      (fun o => o.order_id == (snapshot_1 2 OrderStatus.PARTIALLY_FILLED).order_id) =
      some (snapshot_1 2 OrderStatus.PARTIALLY_FILLED) :=
  (update_order_terminal cancelled_1 (snapshot_1 2 OrderStatus.PARTIALLY_FILLED)
    (snapshot_1 0 OrderStatus.CANCELLED) (by decide!) (by decide!)).2.2

/-! ## place_order -/

/-- C6: `check_risk_limits` returns true exactly when the quantity is at most
`max_order_size`, the magnitude of the position after adding the side-signed quantity is
at most `max_position`, and the notional exposure plus price times quantity is at most
`max_notional`; hence it returns false as soon as one of the three fails. -/
theorem check_risk_limits_iff (m : OrderManager) (side : OrderSide) (quantity price : ℚ) :
    m.check_risk_limits side quantity price = true ↔
      quantity ≤ m.config_.max_order_size ∧
      |m.position_ + (if side = OrderSide.BUY then quantity else -quantity)| ≤
        m.config_.max_position ∧
      m.notional_exposure_ + price * quantity ≤ m.config_.max_notional := by
  unfold OrderManager.check_risk_limits
  by_cases h1 : quantity > m.config_.max_order_size
  · simp only [h1, if_true]
    constructor
    · intro h; exact absurd h (by simp)
    · intro h; exact absurd h.1 (not_le.mpr h1)
  · by_cases h2 : |m.position_ + (if side = OrderSide.BUY then quantity else -quantity)| >
        m.config_.max_position
    · simp only [h1, h2, if_true, if_false]
      constructor
      · intro h; exact absurd h (by simp)
      · intro h; exact absurd h.2.1 (not_le.mpr h2)
    · by_cases h3 : m.notional_exposure_ + price * quantity > m.config_.max_notional
      · simp only [h1, h2, h3, if_true, if_false]
        constructor
        · intro h; exact absurd h (by simp)
        · intro h; exact absurd h.2.2 (not_le.mpr h3)
      · simp only [h1, h2, h3, if_false, true_iff]
        exact ⟨not_lt.mp h1, not_lt.mp h2, not_lt.mp h3⟩

theorem check_risk_limits_oversize (m : OrderManager) (side : OrderSide)
    (quantity price : ℚ) (h : quantity > m.config_.max_order_size) :
    m.check_risk_limits side quantity price = false := by
  unfold OrderManager.check_risk_limits
  rw [if_pos h]

/-- C5: `place_order` with a quantity above `max_order_size` returns no order and leaves
the manager as it was: the number of active orders, the position and the notional
exposure are unchanged. -/
theorem place_order_oversize (m : OrderManager) (side : OrderSide) (price quantity : ℚ)
    (t1 t2 : Int) (h : quantity > m.config_.max_order_size) :
    (m.place_order side price quantity t1 t2).1 = none ∧
    (m.place_order side price quantity t1 t2).2.active_count = m.active_count ∧
    (m.place_order side price quantity t1 t2).2.position_ = m.position_ ∧
    (m.place_order side price quantity t1 t2).2.notional_exposure_ = m.notional_exposure_ ∧
    (m.place_order side price quantity t1 t2).2 = m := by
  have hc := check_risk_limits_oversize m side quantity price h
  have hp : m.place_order side price quantity t1 t2 = (none, m) := by
    simp [OrderManager.place_order, hc]
  rw [hp]
  exact ⟨rfl, rfl, rfl, rfl, rfl⟩

theorem place_order_oversize_witness :
    (placed_1.place_order OrderSide.SELL 100 11 2 2).1 = none ∧
    (placed_1.place_order OrderSide.SELL 100 11 2 2).2.active_count = placed_1.active_count ∧
    (placed_1.place_order OrderSide.SELL 100 11 2 2).2.position_ = placed_1.position_ ∧
    (placed_1.place_order OrderSide.SELL 100 11 2 2).2.notional_exposure_ =
      placed_1.notional_exposure_ ∧
    (placed_1.place_order OrderSide.SELL 100 11 2 2).2 = placed_1 :=
  place_order_oversize placed_1 OrderSide.SELL 100 11 2 2 (by decide!)

theorem active_count_append (m : OrderManager) (o : Order) (id : Int) (ho : o.is_active = true) :
    ({ m with next_order_id_ := id, active_orders_ := m.active_orders_ ++ [o] } :
      OrderManager).active_count = m.active_count + 1 := by
  simp [OrderManager.active_count, List.countP_append, ho]

/-- C7: `place_order` returns no order when the number of stored active orders has
reached `max_active_orders`; an order it does return is stored, has status New and
`filled_quantity` 0, and the number of active orders right after the call is at most
`max_active_orders`. -/
theorem place_order_active_limit (m : OrderManager) (side : OrderSide) (price quantity : ℚ)
    (t1 t2 : Int) :
    (m.config_.max_active_orders ≤ (m.active_count : Int) →
      (m.place_order side price quantity t1 t2).1 = none) ∧
    (∀ o, (m.place_order side price quantity t1 t2).1 = some o →
      o ∈ (m.place_order side price quantity t1 t2).2.active_orders_ ∧
      o.status = OrderStatus.NEW ∧ o.filled_quantity = 0 ∧
      ((m.place_order side price quantity t1 t2).2.active_count : Int) ≤
        (m.place_order side price quantity t1 t2).2.config_.max_active_orders) := by
  rcases place_order_cases m side price quantity t1 t2 with h | h | h
  · rw [h.2]
    exact ⟨fun _ => rfl, fun o ho => by simp at ho⟩
  · rw [h.2.2]
    exact ⟨fun _ => rfl, fun o ho => by simp at ho⟩
  · rw [h.2.2]
    refine ⟨fun hge => absurd h.2.1 (not_lt.mpr hge), ?_⟩
    intro o ho
    simp only [Option.some.injEq] at ho
    subst ho
    refine ⟨by simp, rfl, rfl, ?_⟩
    rw [active_count_append m _ _ (by simp [OrderManager.candidate, Order.is_active])]
    have := h.2.1
    push_cast
    omega

theorem place_order_active_limit_witness :
    (full_1.place_order OrderSide.BUY 100 5 2 2).1 = none ∧
    ((OrderManager.fresh {}).candidate OrderSide.BUY 100 5 0 0 ∈
        ((OrderManager.fresh {}).place_order OrderSide.BUY 100 5 0 0).2.active_orders_ ∧
      ((OrderManager.fresh {}).candidate OrderSide.BUY 100 5 0 0).status = OrderStatus.NEW ∧
      ((OrderManager.fresh {}).candidate OrderSide.BUY 100 5 0 0).filled_quantity = 0 ∧
      (((OrderManager.fresh {}).place_order OrderSide.BUY 100 5 0 0).2.active_count : Int) ≤
        ((OrderManager.fresh {}).place_order OrderSide.BUY 100 5 0 0).2.config_.max_active_orders) :=
  ⟨(place_order_active_limit full_1 OrderSide.BUY 100 5 2 2).1 (by decide!),
   (place_order_active_limit (OrderManager.fresh {}) OrderSide.BUY 100 5 0 0).2 _ (by decide!)⟩

/-! ## Order ids -/

theorem wrap64_of_in_range (x : Int) (h0 : -2 ^ 63 ≤ x) (h1 : x < 2 ^ 63) : wrap64 x = x := by
  unfold wrap64
  rw [Int.emod_eq_of_lt (by omega) (by omega)]
  omega

theorem returned_ids_increasing (ops : List Op) : ∀ m : OrderManager,
    -2 ^ 63 ≤ m.next_order_id_ → m.next_order_id_ + ops.length < 2 ^ 63 →
    (m.returned_ids ops).Pairwise (· < ·) ∧ ∀ id ∈ m.returned_ids ops, m.next_order_id_ ≤ id := by
  induction ops with
  | nil => intro m _ _; simp [OrderManager.returned_ids]
  | cons op ops ih =>
    intro m h0 h1
    simp only [List.length_cons, Nat.cast_add, Nat.cast_one] at h1
    cases op with
    | update order =>
      simp only [OrderManager.returned_ids, OrderManager.step]
      have hn : (m.update_order order).next_order_id_ = m.next_order_id_ := by
        cases hfind : m.active_orders_.find? (fun o => o.order_id == order.order_id) with
        | none => rw [update_order_not_found m order hfind]
        | some it => exact (update_order_found m order it hfind).2.2.2.1
      have := ih (m.update_order order) (by rw [hn]; exact h0) (by rw [hn]; omega)
      rw [hn] at this
      exact this
    | place side price quantity t1 t2 =>
      simp only [OrderManager.returned_ids]
      have hw : wrap64 (m.next_order_id_ + 1) = m.next_order_id_ + 1 :=
        wrap64_of_in_range _ (by omega) (by omega)
      rcases place_order_cases m side price quantity t1 t2 with h | h | h
      · rw [h.2]
        simpa using ih m h0 (by omega)
      · rw [h.2.2]
        have := ih { m with next_order_id_ := wrap64 (m.next_order_id_ + 1) }
          (by simp only [hw]; omega) (by simp only [hw]; omega)
        simp only [hw] at this
        simp only [Option.map_none', Option.toList_none, List.nil_append, hw]
        exact ⟨this.1, fun id hid => by have := this.2 id hid; omega⟩
      · rw [h.2.2]
        have := ih { m with next_order_id_ := wrap64 (m.next_order_id_ + 1),
                            active_orders_ :=
                              m.active_orders_ ++ [m.candidate side price quantity t1 t2] }
          (by simp only [hw]; omega) (by simp only [hw]; omega)
        simp only [hw] at this
        simp only [Option.map_some', Option.toList_some, List.singleton_append, hw,
          List.pairwise_cons, List.mem_cons]
        refine ⟨⟨fun id hid => ?_, this.1⟩, fun id hid => ?_⟩
        · have := this.2 id hid
          simp only [OrderManager.candidate]
          omega
        · rcases hid with hid | hid
          · rw [hid]; simp [OrderManager.candidate]
          · have := this.2 id hid
            omega

/-- C8: along any sequence of `place_order` calls on one manager (interleaved with any
`update_order` calls), as long as the id counter stays below 2^63, the ids of the returned
orders are strictly increasing, whether or not calls in between are rejected; in
particular no id is returned twice. -/
theorem order_ids_strictly_increasing (m : OrderManager) (ops : List Op)
    (h0 : -2 ^ 63 ≤ m.next_order_id_) (h1 : m.next_order_id_ + ops.length < 2 ^ 63) :
    (m.returned_ids ops).Pairwise (· < ·) ∧ (m.returned_ids ops).Nodup := by
  have h := (returned_ids_increasing ops m h0 h1).1
  exact ⟨h, h.imp (fun hab => ne_of_lt hab)⟩

theorem order_ids_strictly_increasing_witness :
    (OrderManager.fresh { max_active_orders := 1 }).returned_ids placements_with_rejections =
      [1, 3] ∧
    ((OrderManager.fresh { max_active_orders := 1 }).returned_ids
      placements_with_rejections).Pairwise (· < ·) ∧
    ((OrderManager.fresh { max_active_orders := 1 }).returned_ids
      placements_with_rejections).Nodup :=
  ⟨by decide!,
   order_ids_strictly_increasing (OrderManager.fresh { max_active_orders := 1 })
     placements_with_rejections (by decide!) (by decide!)⟩

/-! # Theorems: Risk Manager -/

theorem calculate_var_breaker (r r1 : RiskManager) (returns : List ℚ) (confidence : ℚ)
    (h : r.calculate_var returns confidence = some r1) :
    r1.circuit_breaker_ = r.circuit_breaker_ := by
  unfold RiskManager.calculate_var at h
  simp only at h
  split at h
  · exact absurd h (by simp)
  · split at h
    · exact absurd h (by simp)
    · split at h <;>
      · simp only [Option.some.injEq] at h
        rw [← h]

theorem update_metrics_breaker (log : ℚ → ℚ) (r r1 : RiskManager) (order : Order)
    (depth : MarketDepth) (h : r.update_metrics log order depth = some r1) :
    r1.circuit_breaker_ = r.circuit_breaker_ := by
  simp only [RiskManager.update_metrics] at h
  split_ifs at h <;>
    first
    | rw [calculate_var_breaker _ _ _ _ h]
    | (simp only [Option.some.injEq] at h; rw [← h])

theorem check_order_risk_breaker (r : RiskManager) (order : Order) (depth : MarketDepth)
    (now : Int) :
    (r.check_order_risk order depth now).2.circuit_breaker_ = r.circuit_breaker_ := by
  unfold RiskManager.check_order_risk
  simp only
  split_ifs <;> rfl

theorem check_circuit_breakers_triggered (r : RiskManager) (steady_now : Int)
    (h : r.circuit_breaker_.is_triggered = true) :
    (r.check_circuit_breakers steady_now).circuit_breaker_.is_triggered = true := by
  unfold RiskManager.check_circuit_breakers RiskManager.trigger_circuit_breaker
  split_ifs
  · rfl
  · exact h

theorem step_triggered (log : ℚ → ℚ) (r r1 : RiskManager) (op : RiskOp)
    (h : r.circuit_breaker_.is_triggered = true) (hs : r.step log op = some r1) :
    r1.circuit_breaker_.is_triggered = true := by
  cases op with
  | check_order_risk order depth now =>
    simp only [RiskManager.step, Option.some.injEq] at hs
    rw [← hs, check_order_risk_breaker]; exact h
  | update_metrics order depth =>
    rw [update_metrics_breaker log r r1 order depth hs]; exact h
  | calculate_var returns confidence =>
    rw [calculate_var_breaker r r1 returns confidence hs]; exact h
  | check_circuit_breakers steady_now =>
    simp only [RiskManager.step, Option.some.injEq] at hs
    rw [← hs]; exact check_circuit_breakers_triggered r steady_now h

theorem run_triggered (log : ℚ → ℚ) (ops : List RiskOp) : ∀ r r1 : RiskManager,
    r.circuit_breaker_.is_triggered = true → r.run log ops = some r1 →
    r1.circuit_breaker_.is_triggered = true := by
  induction ops with
  | nil =>
    intro r r1 h hr
    simp only [RiskManager.run, Option.some.injEq] at hr
    rw [← hr]; exact h
  | cons op ops ih =>
    intro r r1 h hr
    simp only [RiskManager.run] at hr
    cases hs : r.step log op with
    | none => rw [hs] at hr; exact absurd hr (by simp)
    | some r2 =>
      rw [hs] at hr
      exact ih r2 r1 (step_triggered log r r2 op h hs) hr

theorem to_size_t_in_range (n : Nat) (c : ℚ) (hn : 0 < n) (h0 : 1 / 2 ^ 54 < c)
    (h1 : c ≤ 1) :
    ∃ k, to_size_t (round_double (round_double (1 - c) * (n : ℚ))) = some k ∧ k < n ∧
      (k : Int) = ⌊round_double (round_double (1 - c) * (n : ℚ))⌋ := by
  obtain ⟨hx0, hx1, _, _⟩ := var_product_in_range c n hn h0 h1
  have hx1i : round_double (round_double (1 - c) * (n : ℚ)) < ((n : Int) : ℚ) := by
    push_cast; exact hx1
  have hf0 : (0 : Int) ≤ ⌊round_double (round_double (1 - c) * (n : ℚ))⌋ :=
    Int.floor_nonneg.mpr hx0
  have hf1 : ⌊round_double (round_double (1 - c) * (n : ℚ))⌋ < (n : Int) :=
    Int.floor_lt.mpr hx1i
  refine ⟨⌊round_double (round_double (1 - c) * (n : ℚ))⌋.toNat, ?_, by omega, by omega⟩
  unfold to_size_t
  simp only [hx0, if_true]
  rw [if_neg (by omega)]

theorem calculate_var_defined (r : RiskManager) (returns : List ℚ) (c : ℚ)
    (hn : returns ≠ []) (h0 : 1 / 2 ^ 54 < c) (h1 : c ≤ 1) :
    (r.calculate_var returns c).isSome = true := by
  have hlen : 0 < (returns.insertionSort (· ≤ ·)).length := by
    rw [List.length_insertionSort]
    exact List.length_pos.mpr hn
  obtain ⟨k, hk, hkn, _⟩ := to_size_t_in_range _ c hlen h0 h1
  unfold RiskManager.calculate_var
  simp only [hk]
  rw [List.getElem?_eq_getElem hkn]
  simp only
  split_ifs <;> rfl

theorem log_returns_length (log : ℚ → ℚ) (prices : List ℚ) :
    (log_returns log prices).length = prices.length - 1 := by
  unfold log_returns
  simp only [List.length_zipWith, List.length_tail]
  omega

theorem log_returns_ne_nil (log : ℚ → ℚ) (prices : List ℚ) (h : prices.length > 1) :
    log_returns log prices ≠ [] := by
  intro hnil
  have := congrArg List.length hnil
  rw [log_returns_length] at this
  simp only [List.length_nil] at this
  omega

theorem update_metrics_defined (log : ℚ → ℚ) (r : RiskManager) (order : Order)
    (depth : MarketDepth) : (r.update_metrics log order depth).isSome = true := by
  simp only [RiskManager.update_metrics]
  split_ifs <;>
    first
    | rfl
    | exact calculate_var_defined _ _ _ (log_returns_ne_nil log _ (by assumption))
        (by norm_num) (by norm_num)

/-- C9 (counterexample): `armed_risk_manager` takes a Buy fill of 7 at 100, so that daily
P&L is -700 < -500, and `check_circuit_breakers` triggers the breaker; the next
`check_order_risk`, for an order of value 500 two seconds after the reset, returns true. -/
theorem check_order_risk_passes_while_triggered :
    armed_risk_manager.run log_unused tripping_calls = some tripped_risk_manager ∧
    tripped_risk_manager.circuit_breaker_.is_triggered = true ∧
    (tripped_risk_manager.check_order_risk (snapshot_1 0 OrderStatus.NEW)
      (flat_depth 101 99) 2000000000).1 = true := by
  decide!

/-- C9 (amended): while the circuit breaker is Triggered, `check_order_risk` returns false
exactly when one of its three limit checks fails: the order value exceeds
`max_order_value`, or the elapsed whole seconds are positive and the integer quotient
`message_count / elapsed` exceeds `max_message_rate_per_second`, or the adverse selection
exceeds `max_adverse_selection`. -/
theorem check_order_risk_while_triggered (r : RiskManager) (order : Order)
    (depth : MarketDepth) (now : Int) (_h : r.circuit_breaker_.is_triggered = true) :
    (r.check_order_risk order depth now).1 = false ↔
      (order.price * order.quantity > r.limits_.max_order_value ∨
       (Int.tdiv (now - r.metrics_.last_reset) ticks_per_second > 0 ∧
        Int.tdiv r.metrics_.message_count
            (Int.tdiv (now - r.metrics_.last_reset) ticks_per_second) >
          r.limits_.max_message_rate_per_second) ∨
       calculate_adverse_selection order depth > r.limits_.max_adverse_selection) := by
  unfold RiskManager.check_order_risk
  simp only
  split_ifs with h1 h2 h3
  · simp [h1]
  · simp only [true_iff]; exact Or.inr (Or.inl h2)
  · simp only [true_iff]; exact Or.inr (Or.inr h3)
  · simp only [Bool.true_eq_false, false_iff, not_or]
    exact ⟨h1, h2, h3⟩

theorem check_order_risk_while_triggered_witness :
    (tripped_risk_manager.check_order_risk (snapshot_1 0 OrderStatus.NEW)
        (flat_depth 90 80) 2000000000).1 = false :=
  (check_order_risk_while_triggered tripped_risk_manager (snapshot_1 0 OrderStatus.NEW)
    (flat_depth 90 80) 2000000000 (by decide!)).2 (Or.inr (Or.inr (by decide!)))

theorem run_defined (log : ℚ → ℚ) (ops : List RiskOp) : ∀ r : RiskManager,
    (∀ op ∈ ops, op.well_defined) → (r.run log ops).isSome = true := by
  induction ops with
  | nil => intro r _; rfl
  | cons op ops ih =>
    intro r hops
    have hop := hops op (List.mem_cons_self _ _)
    have hstep : (r.step log op).isSome = true := by
      cases op with
      | check_order_risk order depth now => rfl
      | update_metrics order depth => exact update_metrics_defined log r order depth
      | calculate_var returns confidence =>
        exact calculate_var_defined r returns confidence hop.1 hop.2.1 hop.2.2
      | check_circuit_breakers steady_now => rfl
    obtain ⟨r2, hr2⟩ := Option.isSome_iff_exists.mp hstep
    simp only [RiskManager.run, hr2]
    exact ih r2 (fun op2 h2 => hops op2 (List.mem_cons_of_mem _ h2))

/-- C10: `check_circuit_breakers` leaves the breaker Triggered when daily P&L is below
`-loss_threshold` or max drawdown is above its limit, and otherwise leaves the manager as
it was; from a Triggered state every state reached through `check_order_risk`,
`update_metrics`, `calculate_var` and `check_circuit_breakers` calls is Triggered, and
every sequence of such calls without undefined behaviour does reach a state. -/
theorem triggered_is_terminal (log : ℚ → ℚ) (r : RiskManager) :
    (∀ steady_now : Int,
      (r.metrics_.daily_pnl < -r.circuit_breaker_.loss_threshold ∨
        r.metrics_.max_drawdown > r.circuit_breaker_.max_drawdown →
        (r.check_circuit_breakers steady_now).circuit_breaker_.is_triggered = true) ∧
      (¬ (r.metrics_.daily_pnl < -r.circuit_breaker_.loss_threshold ∨
          r.metrics_.max_drawdown > r.circuit_breaker_.max_drawdown) →
        r.check_circuit_breakers steady_now = r)) ∧
    (∀ (ops : List RiskOp) (r1 : RiskManager),
      r.circuit_breaker_.is_triggered = true → r.run log ops = some r1 →
      r1.circuit_breaker_.is_triggered = true) ∧
    (∀ ops : List RiskOp, r.circuit_breaker_.is_triggered = true →
      (∀ op ∈ ops, op.well_defined) →
      ∃ r1, r.run log ops = some r1 ∧ r1.circuit_breaker_.is_triggered = true) := by
  refine ⟨fun steady_now => ⟨fun h => ?_, fun h => ?_⟩, fun ops r1 h hr => ?_,
    fun ops h hops => ?_⟩
  · unfold RiskManager.check_circuit_breakers RiskManager.trigger_circuit_breaker
    rw [if_pos h]
  · unfold RiskManager.check_circuit_breakers
    rw [if_neg h]
  · exact run_triggered log ops r r1 h hr
  · obtain ⟨r1, hr1⟩ := Option.isSome_iff_exists.mp (run_defined log ops r hops)
    exact ⟨r1, hr1, run_triggered log ops r r1 h hr1⟩

theorem triggered_is_terminal_witness :
    (armed_risk_manager.check_circuit_breakers 5).circuit_breaker_.is_triggered = false ∧
    armed_risk_manager.run log_unused tripping_calls = some tripped_risk_manager ∧
    ∃ r1, tripped_risk_manager.run log_unused calls_after_trip = some r1 ∧
      r1.circuit_breaker_.is_triggered = true :=
  ⟨by decide!, by decide!,
   (triggered_is_terminal log_unused tripped_risk_manager).2.2 calls_after_trip (by decide!)
     (by
       intro op hop
       simp only [calls_after_trip, List.mem_cons, List.mem_singleton, List.not_mem_nil,
         or_false] at hop
       rcases hop with rfl | rfl | rfl | rfl
       · trivial
       · trivial
       · exact ⟨by simp, by norm_num, by norm_num⟩
       · trivial)⟩

/-! # Theorems: Stoikov strategy -/

theorem submit_quote_submitted (connector : Order → Bool) (om : OrderManager)
    (side : OrderSide) (price size intensity min_intensity : ℚ) :
    (submit_quote connector om side price size intensity min_intensity).2 =
      if size > 0 ∧ intensity > min_intensity then [quote_order side price size] else [] := by
  unfold submit_quote
  by_cases hg : size > 0 ∧ intensity > min_intensity
  · simp only [hg, and_self, if_true]
    split_ifs <;> rfl
  · simp only [hg, if_false]

theorem record_price_frame (fns : MathFns) (s : StoikovStrategy) (mid_price : ℚ) :
    (s.record_price fns mid_price).config_ = s.config_ ∧
    (s.record_price fns mid_price).start_time_ = s.start_time_ ∧
    (s.record_price fns mid_price).volatility_estimator_ =
      s.volatility_estimator_.update fns mid_price :=
  ⟨rfl, rfl, rfl⟩

theorem on_market_data_late (fns : MathFns) (s : StoikovStrategy) (om : OrderManager)
    (connector : Order → Bool) (depth : MarketDepth) (now : Int)
    (h : s.time_remaining now ≤ 0) :
    s.on_market_data fns om connector depth now =
      { strategy := s.record_price fns depth.get_mid_price, order_manager := om,
        submitted := [], quotes := none } := by
  have h2 : (s.record_price fns depth.get_mid_price).time_remaining now ≤ 0 := h
  unfold StoikovStrategy.on_market_data
  simp only [h2, if_true]

theorem on_market_data_quoting (fns : MathFns) (s : StoikovStrategy) (om : OrderManager)
    (connector : Order → Bool) (depth : MarketDepth) (now : Int)
    (h : ¬ s.time_remaining now ≤ 0) :
    (s.on_market_data fns om connector depth now).quotes =
      some (s.tick_quotes fns om depth now) ∧
    (s.on_market_data fns om connector depth now).strategy =
      s.record_price fns depth.get_mid_price ∧
    (s.on_market_data fns om connector depth now).submitted =
      gated_orders (s.tick_quotes fns om depth now) s.config_.min_intensity := by
  have h2 : ¬ (s.record_price fns depth.get_mid_price).time_remaining now ≤ 0 := h
  unfold StoikovStrategy.on_market_data
  simp only
  rw [if_neg h2]
  refine ⟨rfl, rfl, ?_⟩
  simp only [submit_quote_submitted]
  rfl

theorem on_market_data_strategy (fns : MathFns) (s : StoikovStrategy) (om : OrderManager)
    (connector : Order → Bool) (depth : MarketDepth) (now : Int) :
    (s.on_market_data fns om connector depth now).strategy =
      s.record_price fns depth.get_mid_price := by
  by_cases h : s.time_remaining now ≤ 0
  · rw [on_market_data_late fns s om connector depth now h]
  · exact (on_market_data_quoting fns s om connector depth now h).2.1

theorem flat_depth_mid (ask bid : ℚ) (ha : 0 < ask) (hb : 0 < bid) :
    (flat_depth ask bid).get_mid_price = (ask + bid) * 0.5 := by
  unfold MarketDepth.get_mid_price flat_depth
  simp only
  rw [if_neg (by rw [not_or]; exact ⟨not_le.mpr ha, not_le.mpr hb⟩)]

theorem quoting_strategy_time_remaining : quoting_strategy.time_remaining 0 = 1 := by
  simp [StoikovStrategy.time_remaining, quoting_strategy]

theorem quoting_strategy_gate (fns : MathFns) (hexp : ∀ x, 0 < fns.exp x)
    (om : OrderManager) :
    gated_orders (quoting_strategy.tick_quotes fns om (flat_depth 101 99) 0)
        quoting_strategy.config_.min_intensity =
      [quote_order OrderSide.BUY
          (quoting_strategy.tick_quotes fns om (flat_depth 101 99) 0).bid_price
          (quoting_strategy.tick_quotes fns om (flat_depth 101 99) 0).bid_size,
       quote_order OrderSide.SELL
          (quoting_strategy.tick_quotes fns om (flat_depth 101 99) 0).ask_price
          (quoting_strategy.tick_quotes fns om (flat_depth 101 99) 0).ask_size] := by
  have hmid : (flat_depth 101 99).get_mid_price = 100 := by
    rw [flat_depth_mid 101 99 (by norm_num) (by norm_num)]; norm_num
  have hb : (quoting_strategy.tick_quotes fns om (flat_depth 101 99) 0).bid_size > 0 := by
    simp only [StoikovStrategy.tick_quotes, stoikov_quotes, quoting_strategy]
    exact mul_pos (by norm_num) (hexp _)
  have ha : (quoting_strategy.tick_quotes fns om (flat_depth 101 99) 0).ask_size > 0 := by
    simp only [StoikovStrategy.tick_quotes, stoikov_quotes, quoting_strategy]
    exact mul_pos (by norm_num) (hexp _)
  have hbi : (quoting_strategy.tick_quotes fns om (flat_depth 101 99) 0).bid_intensity >
      quoting_strategy.config_.min_intensity := by
    simp only [StoikovStrategy.tick_quotes, stoikov_quotes, quoting_strategy, hmid]
    exact mul_pos (by norm_num) (hexp _)
  have hai : (quoting_strategy.tick_quotes fns om (flat_depth 101 99) 0).ask_intensity >
      quoting_strategy.config_.min_intensity := by
    simp only [StoikovStrategy.tick_quotes, stoikov_quotes, quoting_strategy, hmid]
    exact mul_pos (by norm_num) (hexp _)
  unfold gated_orders
  rw [if_pos ⟨hb, hbi⟩, if_pos ⟨ha, hai⟩]
  rfl

theorem quoting_strategy_submitted (fns : MathFns) (hexp : ∀ x, 0 < fns.exp x)
    (om : OrderManager) (connector : Order → Bool) :
    (quoting_strategy.on_market_data fns om connector (flat_depth 101 99) 0).submitted =
      [quote_order OrderSide.BUY
          (quoting_strategy.tick_quotes fns om (flat_depth 101 99) 0).bid_price
          (quoting_strategy.tick_quotes fns om (flat_depth 101 99) 0).bid_size,
       quote_order OrderSide.SELL
          (quoting_strategy.tick_quotes fns om (flat_depth 101 99) 0).ask_price
          (quoting_strategy.tick_quotes fns om (flat_depth 101 99) 0).ask_size] := by
  have ht : ¬ quoting_strategy.time_remaining 0 ≤ 0 := by
    rw [quoting_strategy_time_remaining]; norm_num
  rw [(on_market_data_quoting fns quoting_strategy om connector (flat_depth 101 99) 0 ht).2.2]
  exact quoting_strategy_gate fns hexp om

/-- C11 (counterexample): the Risk Manager's breaker is Triggered, and a strategy with
`min_intensity = 0`, one day of horizon left and mid price 100 still hands a Buy and a
Sell order to the connector, for every positive `exp` and whatever the connector
answers. -/
theorem strategy_submits_while_triggered :
    tripped_risk_manager.circuit_breaker_.is_triggered = true ∧
    ∀ fns : MathFns, (∀ x, 0 < fns.exp x) → ∀ connector : Order → Bool,
      (quoting_strategy.on_market_data fns (OrderManager.fresh {}) connector
        (flat_depth 101 99) 0).submitted.map Order.side =
        [OrderSide.BUY, OrderSide.SELL] := by
  refine ⟨by decide!, fun fns hexp connector => ?_⟩
  rw [quoting_strategy_submitted fns hexp]
  rfl

/-- C11 (amended): `on_market_data` has no access to the Risk Manager. Whatever the state
of its circuit breaker, also Triggered, a tick with no time remaining submits nothing, and
a tick with time remaining submits the bid when `bid_size > 0` and `bid_intensity >
min_intensity` and the ask when `ask_size > 0` and `ask_intensity > min_intensity`. -/
theorem on_market_data_while_triggered (fns : MathFns) (s : StoikovStrategy)
    (om : OrderManager) (connector : Order → Bool) (depth : MarketDepth) (now : Int)
    (r : RiskManager) (_h : r.circuit_breaker_.is_triggered = true) :
    (s.time_remaining now ≤ 0 →
      (s.on_market_data fns om connector depth now).submitted = []) ∧
    (¬ s.time_remaining now ≤ 0 →
      (s.on_market_data fns om connector depth now).submitted =
        gated_orders (s.tick_quotes fns om depth now) s.config_.min_intensity) := by
  refine ⟨fun h => ?_, fun h => ?_⟩
  · rw [on_market_data_late fns s om connector depth now h]
  · exact (on_market_data_quoting fns s om connector depth now h).2.2

theorem on_market_data_while_triggered_witness :
    (quoting_strategy.on_market_data sample_fns (OrderManager.fresh {}) (fun _ => true)
        (flat_depth 101 99) 0).submitted =
      gated_orders (quoting_strategy.tick_quotes sample_fns (OrderManager.fresh {})
        (flat_depth 101 99) 0) quoting_strategy.config_.min_intensity :=
  (on_market_data_while_triggered sample_fns quoting_strategy (OrderManager.fresh {})
    (fun _ => true) (flat_depth 101 99) 0 tripped_risk_manager (by decide!)).2
    (by rw [quoting_strategy_time_remaining]; norm_num)

/-- C12 (counterexample): with the default order size 100 and the Order Manager's default
`max_order_size = 10`, a flat strategy (inventory 0) hands the connector a Buy order of
quantity 100 for which `check_risk_limits` is false, for every positive `exp` with
`exp 0 = 1`. -/
theorem strategy_submits_unchecked_order :
    (OrderManager.fresh {}).config_.max_order_size = 10 ∧
    ∀ fns : MathFns, (∀ x, 0 < fns.exp x) → fns.exp 0 = 1 → ∀ connector : Order → Bool,
      ∃ o ∈ (quoting_strategy.on_market_data fns (OrderManager.fresh {}) connector
          (flat_depth 101 99) 0).submitted,
        o.side = OrderSide.BUY ∧ o.quantity = 100 ∧
        (OrderManager.fresh {}).check_risk_limits o.side o.quantity o.price = false := by
  refine ⟨rfl, fun fns hexp h0 connector => ?_⟩
  rw [quoting_strategy_submitted fns hexp]
  have hsize : (quoting_strategy.tick_quotes fns (OrderManager.fresh {})
      (flat_depth 101 99) 0).bid_size = 100 := by
    simp [StoikovStrategy.tick_quotes, stoikov_quotes, quoting_strategy, OrderManager.fresh, h0]
  refine ⟨_, List.mem_cons_self _ _, rfl, hsize, ?_⟩
  apply check_risk_limits_oversize
  show (quoting_strategy.tick_quotes fns (OrderManager.fresh {})
      (flat_depth 101 99) 0).bid_size > (10 : ℚ)
  rw [hsize]; norm_num

/-- C12 (amended): every order that `on_market_data` hands to the connector has passed the
strategy's own gate only: it is the bid with `bid_size > 0` and `bid_intensity >
min_intensity`, or the ask with `ask_size > 0` and `ask_intensity > min_intensity`, of the
quotes computed on that tick. -/
theorem submitted_orders_pass_gate (fns : MathFns) (s : StoikovStrategy)
    (om : OrderManager) (connector : Order → Bool) (depth : MarketDepth) (now : Int)
    (o : Order) (ho : o ∈ (s.on_market_data fns om connector depth now).submitted) :
    ∃ q, (s.on_market_data fns om connector depth now).quotes = some q ∧
      ((o = quote_order OrderSide.BUY q.bid_price q.bid_size ∧
          q.bid_size > 0 ∧ q.bid_intensity > s.config_.min_intensity) ∨
       (o = quote_order OrderSide.SELL q.ask_price q.ask_size ∧
          q.ask_size > 0 ∧ q.ask_intensity > s.config_.min_intensity)) := by
  by_cases h : s.time_remaining now ≤ 0
  · rw [on_market_data_late fns s om connector depth now h] at ho
    simp at ho
  · obtain ⟨hq, _, hsub⟩ := on_market_data_quoting fns s om connector depth now h
    refine ⟨_, hq, ?_⟩
    rw [hsub] at ho
    unfold gated_orders at ho
    rcases List.mem_append.mp ho with hb | ha
    · left
      split_ifs at hb with hg
      · exact ⟨List.mem_singleton.mp hb, hg.1, hg.2⟩
      · simp at hb
    · right
      split_ifs at ha with hg
      · exact ⟨List.mem_singleton.mp ha, hg.1, hg.2⟩
      · simp at ha

theorem submitted_orders_pass_gate_witness :
    ∃ q, (quoting_strategy.on_market_data sample_fns (OrderManager.fresh {}) (fun _ => true)
        (flat_depth 101 99) 0).quotes = some q ∧
      ((quote_order OrderSide.BUY (298 / 3) 100 =
          quote_order OrderSide.BUY q.bid_price q.bid_size ∧
          q.bid_size > 0 ∧ q.bid_intensity > quoting_strategy.config_.min_intensity) ∨
       (quote_order OrderSide.BUY (298 / 3) 100 =
          quote_order OrderSide.SELL q.ask_price q.ask_size ∧
          q.ask_size > 0 ∧ q.ask_intensity > quoting_strategy.config_.min_intensity)) :=
  submitted_orders_pass_gate sample_fns quoting_strategy (OrderManager.fresh {})
    (fun _ => true) (flat_depth 101 99) 0 (quote_order OrderSide.BUY (298 / 3) 100)
    (by decide!)

theorem quote_trace_cons (fns : MathFns) (s : StoikovStrategy) (t : Tick) (ts : List Tick) :
    s.quote_trace fns (t :: ts) =
      (s.on_market_data fns t.order_manager t.connector t.depth t.now).quotes ::
        (s.record_price fns t.depth.get_mid_price).quote_trace fns ts := by
  simp only [StoikovStrategy.quote_trace, on_market_data_strategy]

theorem on_market_data_quotes (fns : MathFns) (s : StoikovStrategy) (om : OrderManager)
    (connector : Order → Bool) (depth : MarketDepth) (now : Int) :
    (s.on_market_data fns om connector depth now).quotes =
      if s.time_remaining now ≤ 0 then none else some (s.tick_quotes fns om depth now) := by
  by_cases h : s.time_remaining now ≤ 0
  · rw [on_market_data_late fns s om connector depth now h, if_pos h]
  · rw [(on_market_data_quoting fns s om connector depth now h).1, if_neg h]

theorem quote_trace_same_inputs (fns : MathFns) (start_1 start_2 : Int)
    (ts1 ts2 : List Tick) (hts : List.Forall₂ (Tick.same_inputs start_1 start_2) ts1 ts2) :
    ∀ s1 s2 : StoikovStrategy, s1.start_time_ = start_1 → s2.start_time_ = start_2 →
      s1.config_ = s2.config_ → s1.volatility_estimator_ = s2.volatility_estimator_ →
      s1.quote_trace fns ts1 = s2.quote_trace fns ts2 := by
  induction hts with
  | nil => intro s1 s2 _ _ _ _; rfl
  | @cons t1 t2 r1 r2 ht _ ih =>
    intro s1 s2 h1 h2 hc hv
    obtain ⟨hmid, hpos, hel⟩ := ht
    have htr : s1.time_remaining t1.now = s2.time_remaining t2.now := by
      simp only [StoikovStrategy.time_remaining, hc, h1, h2, hel]
    have hq : s1.tick_quotes fns t1.order_manager t1.depth t1.now =
        s2.tick_quotes fns t2.order_manager t2.depth t2.now := by
      simp only [StoikovStrategy.tick_quotes, StoikovStrategy.record_price, hc, hv, hmid,
        hpos, htr]
    rw [quote_trace_cons, quote_trace_cons, on_market_data_quotes, on_market_data_quotes,
      htr, hq]
    congr 1
    apply ih
    · exact h1
    · exact h2
    · exact hc
    · simp only [StoikovStrategy.record_price, hv, hmid]

theorem estimator_after_100_100_200 (fns : MathFns) :
    (((quoting_strategy.record_price fns 100).record_price fns 100).record_price fns
      200).volatility_estimator_ =
      { window_size_ := 100, last_price_ := 200, returns_ := [fns.log 1, fns.log 2] } := by
  simp only [StoikovStrategy.record_price, VolatilityEstimator.update, quoting_strategy]
  norm_num

theorem volatility_after_100_100_200 (fns : MathFns) (h1 : fns.log 1 = 0)
    (h2 : fns.log 2 ≠ 0) (hsqrt : ∀ x, 0 < x → 0 < fns.sqrt x) :
    0 < VolatilityEstimator.get_volatility fns
      { window_size_ := 100, last_price_ := 200, returns_ := [fns.log 1, fns.log 2] } := by
  simp only [VolatilityEstimator.get_volatility, h1, List.length_cons, List.length_nil,
    List.foldl_cons, List.foldl_nil]
  norm_num
  apply mul_pos
  · apply hsqrt
    have : 0 < fns.log 2 ^ 2 := by positivity
    nlinarith [this]
  · exact hsqrt _ (by norm_num)

theorem third_quote_bid_price (fns : MathFns) (last : Int)
    (h : ¬ quoting_strategy.time_remaining last ≤ 0) :
    (quoting_strategy.quote_trace fns (ticks_100_100_200 last))[2]? =
      some (some (stoikov_quotes fns quoting_strategy.config_ 200 5
        (VolatilityEstimator.get_volatility fns
          { window_size_ := 100, last_price_ := 200, returns_ := [fns.log 1, fns.log 2] })
        (quoting_strategy.time_remaining last))) := by
  have hmid1 : (flat_depth 101 99).get_mid_price = 100 := by
    rw [flat_depth_mid 101 99 (by norm_num) (by norm_num)]; norm_num
  have hmid2 : (flat_depth 201 199).get_mid_price = 200 := by
    rw [flat_depth_mid 201 199 (by norm_num) (by norm_num)]; norm_num
  have h3 : ¬ ((quoting_strategy.record_price fns 100).record_price fns 100).time_remaining
      last ≤ 0 := h
  simp only [ticks_100_100_200, quote_trace_cons, hmid1, hmid2, List.getElem?_cons_succ,
    List.getElem?_cons_zero, on_market_data_quotes, if_neg h3, StoikovStrategy.tick_quotes,
    estimator_after_100_100_200]
  rfl

/-- C13 (counterexample): two runs of the same strategy over the mid prices 100, 100, 200
with the Order Manager position 5 at every tick, the third tick delivered at once in one
run and half a day later in the other, compute different quotes on the third tick: the
bid prices differ, for every `log` with `log 1 = 0` and `log 2 ≠ 0` and every `sqrt` that
is positive on positive arguments. -/
theorem quotes_depend_on_clock :
    (ticks_100_100_200 0).map (fun t => (t.depth.get_mid_price, t.order_manager.position_)) =
      (ticks_100_100_200 43200).map
        (fun t => (t.depth.get_mid_price, t.order_manager.position_)) ∧
    ∀ fns : MathFns, fns.log 1 = 0 → fns.log 2 ≠ 0 → (∀ x, 0 < x → 0 < fns.sqrt x) →
      quoting_strategy.quote_trace fns (ticks_100_100_200 0) ≠
        quoting_strategy.quote_trace fns (ticks_100_100_200 43200) := by
  refine ⟨rfl, fun fns h1 h2 hsqrt heq => ?_⟩
  have ht0 : quoting_strategy.time_remaining 0 = 1 := quoting_strategy_time_remaining
  have ht1 : quoting_strategy.time_remaining 43200 = 1 / 2 := by
    simp [StoikovStrategy.time_remaining, quoting_strategy]; norm_num
  have hq0 := third_quote_bid_price fns 0 (by rw [ht0]; norm_num)
  have hq1 := third_quote_bid_price fns 43200 (by rw [ht1]; norm_num)
  rw [heq, hq1, ht0, ht1] at hq0
  simp only [Option.some.injEq] at hq0
  have hbid := congrArg Quotes.bid_price hq0
  have hvol := volatility_after_100_100_200 fns h1 h2 hsqrt
  simp only [stoikov_quotes, quoting_strategy] at hbid
  have hv2 : 0 < VolatilityEstimator.get_volatility fns
      { window_size_ := 100, last_price_ := 200, returns_ := [fns.log 1, fns.log 2] } ^ 2 := by
    positivity
  nlinarith [hbid, hv2]

/-- C13 (amended): two runs of StoikovStrategy with the same configuration and the same
estimator state, fed tick by tick the same mid price with the same Order Manager position
and the same number of seconds elapsed since each strategy was constructed, compute
identical quotes (prices, sizes and intensities) at every tick, whatever the depths, the
connectors and the absolute clock readings. -/
theorem quotes_determined_by_elapsed_time (fns : MathFns) (s1 s2 : StoikovStrategy)
    (ts1 ts2 : List Tick) (hc : s1.config_ = s2.config_)
    (hv : s1.volatility_estimator_ = s2.volatility_estimator_)
    (hts : List.Forall₂ (Tick.same_inputs s1.start_time_ s2.start_time_) ts1 ts2) :
    s1.quote_trace fns ts1 = s2.quote_trace fns ts2 :=
  quote_trace_same_inputs fns s1.start_time_ s2.start_time_ ts1 ts2 hts s1 s2 rfl rfl hc hv

theorem quotes_determined_by_elapsed_time_witness :
    quoting_strategy.quote_trace sample_fns (ticks_100_100_200 600) =
      quoting_strategy_later.quote_trace sample_fns ticks_later :=
  quotes_determined_by_elapsed_time sample_fns quoting_strategy quoting_strategy_later
    (ticks_100_100_200 600) ticks_later rfl rfl
    (List.Forall₂.cons ⟨rfl, rfl, by decide⟩
      (List.Forall₂.cons ⟨rfl, rfl, by decide⟩
        (List.Forall₂.cons ⟨rfl, rfl, by decide⟩ List.Forall₂.nil)))

/-! # Theorems: execution manager -/

theorem retry_refused_runs_on (m : BitMEXExecutionManager) (order : Order)
    (hmax : 0 < m.config_.max_retry_attempts) (fuel : Nat) :
    ∀ calls : Nat, m.retry_order_submission refusing_exchange order fuel 0 calls = none := by
  induction fuel with
  | zero => intro calls; rfl
  | succ fuel ih =>
    intro calls
    simp only [BitMEXExecutionManager.retry_order_submission, hmax, if_true,
      refusing_exchange]
    exact ih (calls + 1)

/-- C14 (the code at the failing input): with the default `max_retry_attempts = 3` and a
connector whose `place_order` returns false on every call, `submit_order` has not
returned after any number of loop iterations: a refusal does not count as an attempt. -/
theorem submit_order_never_returns_when_refused (fuel : Nat) :
    ({} : BitMEXExecutionManager).submit_order refusing_exchange
      (snapshot_1 0 OrderStatus.NEW) fuel = none := by
  have hcheck : ({} : BitMEXExecutionManager).check_risk_limits refusing_exchange
      (snapshot_1 0 OrderStatus.NEW) = true := by decide!
  unfold BitMEXExecutionManager.submit_order
  rw [hcheck]
  exact retry_refused_runs_on {} _ (by decide) fuel 0

theorem retry_returns_without_refusals (m : BitMEXExecutionManager) (ex : Exchange)
    (order : Order) (hex : ∀ k, ex.place_order k ≠ PlaceOutcome.refused) (budget : Nat) :
    ∀ (attempts : Int) (calls : Nat),
      m.config_.max_retry_attempts - attempts ≤ budget →
      ∃ sub, m.retry_order_submission ex order (budget + 1) attempts calls = some sub ∧
        sub.calls ≤ calls + budget ∧
        (sub.result = true → ex.place_order (sub.calls - 1) = PlaceOutcome.accepted) := by
  induction budget with
  | zero =>
    intro attempts calls h
    have hlt : ¬ attempts < m.config_.max_retry_attempts := by
      simp only [Nat.cast_zero] at h; omega
    refine ⟨{ result := false, manager := m, calls := calls }, ?_, by simp, by simp⟩
    simp only [BitMEXExecutionManager.retry_order_submission, hlt, if_false]
  | succ budget ih =>
    intro attempts calls h
    by_cases hlt : attempts < m.config_.max_retry_attempts
    · cases hout : ex.place_order calls with
      | accepted =>
        refine ⟨{ result := true,
                  manager := { m with active_orders_ := fun id =>
                    if id = order.order_id then some order else m.active_orders_ id },
                  calls := calls + 1 }, ?_, ?_, ?_⟩
        · simp only [BitMEXExecutionManager.retry_order_submission, hlt, if_true, hout]
        · simp only; omega
        · intro _; simpa using hout
      | refused => exact absurd hout (hex calls)
      | thrown =>
        obtain ⟨sub, hsub, hcalls, hres⟩ := ih (attempts + 1) (calls + 1) (by push_cast at h ⊢; omega)
        refine ⟨sub, ?_, by omega, hres⟩
        simp only [BitMEXExecutionManager.retry_order_submission, hlt, if_true, hout]
        exact hsub
    · refine ⟨{ result := false, manager := m, calls := calls }, ?_, by simp, by simp⟩
      simp only [BitMEXExecutionManager.retry_order_submission, hlt, if_false]

theorem submit_order_returns_without_refusals (m : BitMEXExecutionManager) (ex : Exchange)
    (order : Order) (hex : ∀ k, ex.place_order k ≠ PlaceOutcome.refused) :
    ∃ sub, m.submit_order ex order (m.config_.max_retry_attempts.toNat + 1) = some sub ∧
      sub.calls ≤ m.config_.max_retry_attempts.toNat := by
  unfold BitMEXExecutionManager.submit_order
  split_ifs
  · exact ⟨_, rfl, Nat.zero_le _⟩
  · obtain ⟨sub, hsub, hcalls, _⟩ := retry_returns_without_refusals m ex order hex
      m.config_.max_retry_attempts.toNat 0 0 (by omega)
    exact ⟨sub, hsub, by omega⟩

/-- C15: when one of the three pre-trade checks fails (order value above
`max_order_value`, magnitude of the resulting position value above `max_position_value`,
or leverage above `max_leverage`), `submit_order` returns false with no call to the
connector's `place_order`, and the manager with its tracked orders is unchanged. -/
theorem submit_order_rejected_without_submission (m : BitMEXExecutionManager)
    (ex : Exchange) (order : Order) (fuel : Nat)
    (h : order.price * order.quantity > m.config_.max_order_value ∨
      |(if order.side = OrderSide.BUY then ex.current_position + order.quantity
        else ex.current_position - order.quantity) * order.price| >
        m.config_.max_position_value ∨
      ex.current_leverage > m.config_.max_leverage) :
    ∃ sub, m.submit_order ex order fuel = some sub ∧ sub.result = false ∧ sub.calls = 0 ∧
      sub.manager.active_orders_ = m.active_orders_ := by
  have hcheck : m.check_risk_limits ex order = false := by
    unfold BitMEXExecutionManager.check_risk_limits
      BitMEXExecutionManager.validate_order_size
      BitMEXExecutionManager.validate_position_value
      BitMEXExecutionManager.validate_leverage
    simp only [Bool.and_eq_false_iff, decide_eq_false_iff_not, not_le]
    rcases h with h | h | h
    · exact Or.inl (Or.inl h)
    · exact Or.inl (Or.inr h)
    · exact Or.inr h
  refine ⟨{ result := false, manager := m, calls := 0 }, ?_, rfl, rfl, rfl⟩
  unfold BitMEXExecutionManager.submit_order
  rw [hcheck]
  rfl

theorem submit_order_rejected_without_submission_witness :
    ∃ sub, ({} : BitMEXExecutionManager).submit_order leveraged_exchange
        (snapshot_1 0 OrderStatus.NEW) 10 = some sub ∧
      sub.result = false ∧ sub.calls = 0 ∧
      sub.manager.active_orders_ = ({} : BitMEXExecutionManager).active_orders_ :=
  submit_order_rejected_without_submission {} leveraged_exchange
    (snapshot_1 0 OrderStatus.NEW) 10 (Or.inr (Or.inr (by decide!)))

/-! # Theorems: VaR, message rate, price history -/

/-- C16 (counterexample): `calculate_var` computes its index in double. For the sample [1]
and confidence 0 the index is 1, past the end. For the sample [1, 2, 3] and the
confidence 2^-60, inside (0, 1], the difference `1.0 - c` rounds to 1.0 and the index is
3, past the end. In both cases the source reads out of bounds and no VaR is set. For the
ten returns 0..9 and the double nearest to 0.1 the index is 9 and the VaR is -9, where
`floor((1 - c) * 10)` is 8. -/
theorem calculate_var_index_is_rounded :
    to_size_t (round_double (round_double (1 - 0) *
      ((([1] : List ℚ).insertionSort (· ≤ ·)).length : ℚ))) = some 1 ∧
    armed_risk_manager.calculate_var [1] 0 = none ∧
    round_double (1 - 1 / 2 ^ 60) = 1 ∧
    to_size_t (round_double (round_double (1 - 1 / 2 ^ 60) *
      ((([1, 2, 3] : List ℚ).insertionSort (· ≤ ·)).length : ℚ))) = some 3 ∧
    armed_risk_manager.calculate_var [1, 2, 3] (1 / 2 ^ 60) = none ∧
    round_double (1 / 10) = 3602879701896397 / 2 ^ 55 ∧
    ⌊(1 - round_double (1 / 10)) * ((ten_returns.insertionSort (· ≤ ·)).length : ℚ)⌋ = 8 ∧
    to_size_t (round_double (round_double (1 - round_double (1 / 10)) *
      ((ten_returns.insertionSort (· ≤ ·)).length : ℚ))) = some 9 ∧
    (armed_risk_manager.calculate_var ten_returns (round_double (1 / 10))).map
      (fun r => r.metrics_.current_var) = some (-9) := by
  decide!

/-- C16 (amended): for every non-empty return sample of size n and every confidence c
with 2^-54 < c <= 1, `calculate_var` sets `current_var` to the negation of the element of
the ascending sorted returns at the index it computes in double, the truncation of
`(1.0 - c) * n` with both operations rounded; that index is below n and lies between
`floor((1 - c) n (1 - 2^-53)^2)` and `floor((1 - c) n (1 + 2^-53)^2)`. For 100 returns at
99% confidence the index is 1, with 0.99 taken exactly or as the nearest double. -/
theorem calculate_var_value (r : RiskManager) (returns : List ℚ) (c : ℚ)
    (hn : returns ≠ []) (h0 : 1 / 2 ^ 54 < c) (h1 : c ≤ 1) :
    (∃ k x r1,
      to_size_t (round_double (round_double (1 - c) * (returns.length : ℚ))) = some k ∧
      k < returns.length ∧
      ⌊(1 - c) * (returns.length : ℚ) * (1 - 1 / 2 ^ 53) ^ 2⌋ ≤ (k : Int) ∧
      (k : Int) ≤ ⌊(1 - c) * (returns.length : ℚ) * (1 + 1 / 2 ^ 53) ^ 2⌋ ∧
      (returns.insertionSort (· ≤ ·))[k]? = some x ∧
      r.calculate_var returns c = some r1 ∧ r1.metrics_.current_var = -x) ∧
    (returns.insertionSort (· ≤ ·)).Sorted (· ≤ ·) ∧
    (returns.insertionSort (· ≤ ·)).Perm returns ∧
    to_size_t (round_double (round_double (1 - 0.99) * ((100 : Nat) : ℚ))) = some 1 ∧
    to_size_t (round_double (round_double (1 - round_double 0.99) * ((100 : Nat) : ℚ))) =
      some 1 := by
  have hlen : (returns.insertionSort (· ≤ ·)).length = returns.length :=
    List.length_insertionSort _ _
  have hpos : 0 < returns.length := List.length_pos.mpr hn
  obtain ⟨k, hk, hkn, hkf⟩ := to_size_t_in_range returns.length c hpos h0 h1
  obtain ⟨_, _, hlo, hhi⟩ := var_product_in_range c returns.length hpos h0 h1
  have hks : k < (returns.insertionSort (· ≤ ·)).length := by rw [hlen]; exact hkn
  refine ⟨⟨k, (returns.insertionSort (· ≤ ·))[k],
    { r with metrics_ := { r.metrics_ with current_var :=
        -(returns.insertionSort (· ≤ ·))[k] } },
    hk, hkn, ?_, ?_, List.getElem?_eq_getElem hks, ?_, rfl⟩, List.sorted_insertionSort _ _,
    List.perm_insertionSort _ _, by decide!, by decide!⟩
  · rw [hkf]; exact Int.floor_le_floor hlo
  · rw [hkf]; exact Int.floor_le_floor hhi
  · unfold RiskManager.calculate_var
    simp only [hlen, hk]
    rw [List.getElem?_eq_getElem hks]
    simp only
    split_ifs <;> rfl

theorem calculate_var_value_witness :
    (∃ k x r1,
      to_size_t (round_double (round_double (1 - 0.99) * (hundred_returns.length : ℚ))) =
        some k ∧
      k < hundred_returns.length ∧
      ⌊(1 - 0.99) * (hundred_returns.length : ℚ) * (1 - 1 / 2 ^ 53) ^ 2⌋ ≤ (k : Int) ∧
      (k : Int) ≤ ⌊(1 - 0.99) * (hundred_returns.length : ℚ) * (1 + 1 / 2 ^ 53) ^ 2⌋ ∧
      (hundred_returns.insertionSort (· ≤ ·))[k]? = some x ∧
      armed_risk_manager.calculate_var hundred_returns 0.99 = some r1 ∧
      r1.metrics_.current_var = -x) ∧
    (armed_risk_manager.calculate_var hundred_returns 0.99).map
      (fun r => r.metrics_.current_var) = some (-1) :=
  ⟨(calculate_var_value armed_risk_manager hundred_returns 0.99 (by decide!) (by decide!)
      (by decide!)).1, by decide!⟩

/-- C17 (counterexample): with a limit of 1 message per second, 3 messages counted and 2
whole seconds elapsed, the exact rate 3/2 exceeds the limit, yet `check_order_risk`
returns true: the source compares the integer quotient 3 / 2 = 1 with the limit. -/
theorem check_order_risk_truncates_rate :
    slow_risk_manager.run log_unused three_checks = some busy_risk_manager ∧
    Int.tdiv (2000000000 - busy_risk_manager.metrics_.last_reset) ticks_per_second = 2 ∧
    (busy_risk_manager.metrics_.message_count : ℚ) / 2 >
      (busy_risk_manager.limits_.max_message_rate_per_second : ℚ) ∧
    (busy_risk_manager.check_order_risk (snapshot_1 0 OrderStatus.NEW) (flat_depth 101 99)
      2000000000).1 = true := by
  decide!

/-- C17 (amended): whenever the whole seconds elapsed since the last reset are positive
and the integer quotient `message_count / elapsed_seconds` (truncated) exceeds
`max_message_rate_per_second`, `check_order_risk` returns false, for every order and
depth; for a non-negative count that is when
`message_count >= (max_message_rate_per_second + 1) * elapsed_seconds`. -/
theorem check_order_risk_rate_limit (r : RiskManager) (order : Order) (depth : MarketDepth)
    (now : Int)
    (hel : Int.tdiv (now - r.metrics_.last_reset) ticks_per_second > 0) :
    (Int.tdiv r.metrics_.message_count
        (Int.tdiv (now - r.metrics_.last_reset) ticks_per_second) >
      r.limits_.max_message_rate_per_second →
      (r.check_order_risk order depth now).1 = false) ∧
    (0 ≤ r.metrics_.message_count →
      (Int.tdiv r.metrics_.message_count
          (Int.tdiv (now - r.metrics_.last_reset) ticks_per_second) >
        r.limits_.max_message_rate_per_second ↔
       r.metrics_.message_count ≥ (r.limits_.max_message_rate_per_second + 1) *
          Int.tdiv (now - r.metrics_.last_reset) ticks_per_second)) := by
  refine ⟨fun hrate => ?_, fun hcount => ?_⟩
  · unfold RiskManager.check_order_risk
    simp only
    split_ifs with h1 h2 h3
    · rfl
    · rfl
    · exact absurd ⟨hel, hrate⟩ h2
    · exact absurd ⟨hel, hrate⟩ h2
  · rw [Int.tdiv_eq_ediv hcount (le_of_lt hel), gt_iff_lt, Int.lt_iff_add_one_le,
      Int.le_ediv_iff_mul_le hel]

theorem check_order_risk_rate_limit_witness :
    (busy_risk_manager.check_order_risk (snapshot_1 0 OrderStatus.NEW)
      (flat_depth 101 99) 1000000000).1 = false :=
  (check_order_risk_rate_limit busy_risk_manager (snapshot_1 0 OrderStatus.NEW)
    (flat_depth 101 99) 1000000000 (by decide!)).1 (by decide!)

theorem calculate_var_history (r r1 : RiskManager) (returns : List ℚ) (confidence : ℚ)
    (h : r.calculate_var returns confidence = some r1) :
    r1.price_history_ = r.price_history_ := by
  unfold RiskManager.calculate_var at h
  simp only at h
  split at h
  · exact absurd h (by simp)
  · split at h
    · exact absurd h (by simp)
    · split at h <;>
      · simp only [Option.some.injEq] at h
        rw [← h]

theorem update_metrics_history (log : ℚ → ℚ) (r r1 : RiskManager) (order : Order)
    (depth : MarketDepth) (h : r.update_metrics log order depth = some r1) :
    r1.price_history_ =
      (if r.price_history_.length > 1000 then r.price_history_.tail else r.price_history_) ++
        [depth.get_mid_price] := by
  simp only [RiskManager.update_metrics] at h
  by_cases hgt : r.price_history_.length > 1000
  · rw [if_pos hgt]
    split_ifs at h <;>
      first
      | rw [calculate_var_history _ _ _ _ h]
      | (simp only [Option.some.injEq] at h; rw [← h])
  · rw [if_neg hgt]
    split_ifs at h <;>
      first
      | rw [calculate_var_history _ _ _ _ h]
      | (simp only [Option.some.injEq] at h; rw [← h])

theorem drop_window (cap : Nat) (a b : ℚ) (t rest : List ℚ)
    (hlen : (a :: t).length = cap + 1) :
    (t ++ b :: rest).drop ((t ++ b :: rest).length - (cap + 1)) =
      (a :: t ++ b :: rest).drop ((a :: t ++ b :: rest).length - (cap + 1)) := by
  have h1 : (a :: t ++ b :: rest).length - (cap + 1) =
      ((t ++ b :: rest).length - (cap + 1)) + 1 := by
    simp only [List.length_cons, List.length_append, List.cons_append] at hlen ⊢
    omega
  rw [h1]
  rfl

theorem price_history_window (log : ℚ → ℚ) (depths : List MarketDepth) :
    ∀ r : RiskManager, r.price_history_.length ≤ 1001 →
      ∃ r1, r.run log (metric_updates depths) = some r1 ∧
        r1.price_history_ =
          (r.price_history_ ++ depths.map MarketDepth.get_mid_price).drop
            ((r.price_history_ ++ depths.map MarketDepth.get_mid_price).length - 1001) := by
  induction depths with
  | nil =>
    intro r hr
    refine ⟨r, rfl, ?_⟩
    simp only [List.map_nil, List.append_nil]
    rw [Nat.sub_eq_zero_of_le hr, List.drop_zero]
  | cons depth depths ih =>
    intro r hr
    obtain ⟨r2, hr2⟩ := Option.isSome_iff_exists.mp
      (update_metrics_defined log r (snapshot_1 0 OrderStatus.NEW) depth)
    have hh := update_metrics_history log r r2 _ depth hr2
    have hlen2 : r2.price_history_.length ≤ 1001 := by
      rw [hh]
      split_ifs with hgt
      · simp only [List.length_append, List.length_tail, List.length_singleton]; omega
      · simp only [List.length_append, List.length_singleton]; omega
    obtain ⟨r1, hr1, hhist⟩ := ih r2 hlen2
    refine ⟨r1, ?_, ?_⟩
    · simp only [metric_updates, List.map_cons, RiskManager.run, RiskManager.step, hr2]
      exact hr1
    · rw [hhist, hh]
      simp only [List.map_cons]
      split_ifs with hgt
      · cases hp : r.price_history_ with
        | nil => rw [hp] at hgt; simp at hgt
        | cons a t =>
          rw [hp] at hr
          simp only [List.tail_cons, List.append_assoc, List.singleton_append]
          have hlen : (a :: t).length = 1000 + 1 := by
            rw [hp] at hgt
            simp only [List.length_cons] at hr hgt ⊢
            omega
          exact drop_window 1000 a _ t _ hlen
      · simp only [List.append_assoc, List.singleton_append]

/-- C18 (the code at the failing input): after 1001 `update_metrics` calls on a Risk
Manager with an empty history, the mid-price history holds 1001 entries: the eviction
test `size() > 1000` runs before the new price is appended. -/
theorem price_history_holds_1001 :
    (armed_risk_manager.run log_unused
      (metric_updates (List.replicate 1001 (flat_depth 101 99)))).map
        (fun r => r.price_history_.length) = some 1001 := by
  obtain ⟨r1, hr1, hhist⟩ := price_history_window log_unused
    (List.replicate 1001 (flat_depth 101 99)) armed_risk_manager (by decide)
  have hempty : armed_risk_manager.price_history_ = [] := rfl
  rw [hr1, Option.map_some', hhist, hempty]
  simp only [List.nil_append, List.length_drop, List.length_map, List.length_replicate]

/-! # Theorems: backtest engine -/

theorem foldl_preserves {α β : Type} (P : α → Prop) (f : α → β → α) (l : List β)
    (hstep : ∀ a b, b ∈ l → P a → P (f a b)) : ∀ a, P a → P (l.foldl f a) := by
  induction l with
  | nil => intro a ha; exact ha
  | cons b l ih =>
    intro a ha
    simp only [List.foldl_cons]
    exact ih (fun a2 b2 hb2 => hstep a2 b2 (List.mem_cons_of_mem _ hb2)) _
      (hstep a b (List.mem_cons_self _ _) ha)

theorem process_order_frame {S : Type} (hooks : BacktestHooks S) (config : BacktestConfig)
    (clock : Nat → Int) (depth : MarketDepth) (st : BacktestRun S) (order : Order) :
    ((process_order hooks config clock depth st order).current_capital = st.current_capital ∨
      (process_order hooks config clock depth st order).current_capital =
        st.current_capital.sub (order_cost config order depth)) ∧
    (process_order hooks config clock depth st order).high_water_mark = st.high_water_mark ∧
    (process_order hooks config clock depth st order).max_drawdown = st.max_drawdown ∧
    (process_order hooks config clock depth st order).results.equity_curve =
      st.results.equity_curve ∧
    (process_order hooks config clock depth st order).results.drawdown_curve =
      st.results.drawdown_curve := by
  unfold process_order
  cases hc : (st.risk_manager.check_order_risk order depth (clock st.clock_reads)).1 with
  | false => simp [hc]
  | true => simp [hc, order_cost]

theorem Double.mul_zero_right (a : Double) :
    a.mul (Double.finite 0) = Double.finite 0 ∨ a.mul (Double.finite 0) = Double.nan := by
  cases a with
  | finite x =>
    left
    show Double.of (x * 0) = Double.finite 0
    rw [mul_zero]; exact Double.of_zero
  | pos_inf => right; simp [Double.mul, Double.mul_inf]
  | neg_inf => right; simp [Double.mul, Double.mul_inf]
  | nan => right; rfl

theorem Double.mul_zero_left (b : Double) :
    (Double.finite 0).mul b = Double.finite 0 ∨ (Double.finite 0).mul b = Double.nan := by
  cases b with
  | finite y =>
    left
    show Double.of (0 * y) = Double.finite 0
    rw [zero_mul]; exact Double.of_zero
  | pos_inf => right; simp [Double.mul, Double.mul_inf]
  | neg_inf => right; simp [Double.mul, Double.mul_inf]
  | nan => right; rfl

theorem Double.zero_rate : (Double.of 0).div (Double.finite 10000) = Double.finite 0 := by
  have h : (10000 : ℚ) ≠ 0 := by norm_num
  rw [Double.of_zero]
  simp only [Double.div]
  rw [if_neg h, zero_div]
  exact Double.of_zero

/-- With both costs zero (switched off or at 0 bps) the debit for an order is 0, or NaN
when a factor of a product with the rate 0 is not finite. -/
theorem order_cost_zero (config : BacktestConfig) (hz : config.zero_cost) (order : Order)
    (depth : MarketDepth) :
    order_cost config order depth = Double.finite 0 ∨
      order_cost config order depth = Double.nan := by
  obtain ⟨ht, hs⟩ := hz
  have h1 : (if config.include_transaction_costs = true then
      calculate_transaction_costs config order else Double.finite 0) = Double.finite 0 ∨
      (if config.include_transaction_costs = true then
      calculate_transaction_costs config order else Double.finite 0) = Double.nan := by
    by_cases hi : config.include_transaction_costs = true
    · rw [if_pos hi]
      rcases ht with h | h
      · rw [h] at hi; exact absurd hi (by simp)
      · unfold calculate_transaction_costs
        rw [h, Double.zero_rate]
        exact Double.mul_zero_right _
    · rw [if_neg hi]; exact Or.inl rfl
  have h2 : (if config.include_slippage = true then
      calculate_slippage config order depth else Double.finite 0) = Double.finite 0 ∨
      (if config.include_slippage = true then
      calculate_slippage config order depth else Double.finite 0) = Double.nan := by
    by_cases hi : config.include_slippage = true
    · rw [if_pos hi]
      rcases hs with h | h
      · rw [h] at hi; exact absurd hi (by simp)
      · unfold calculate_slippage
        simp only
        rw [h, Double.zero_rate]
        rcases Double.mul_zero_right (Double.of order.price) with hb | hb
        · rw [hb]
          split_ifs
          · rcases Double.mul_zero_left
              ((Double.of order.quantity).div (available_liquidity depth.asks)) with hm | hm
            · rw [hm]; exact Or.inl Double.add_zero_zero
            · rw [hm]; exact Or.inr (Double.add_nan_right _)
          · rcases Double.mul_zero_left
              ((Double.of order.quantity).div (available_liquidity depth.bids)) with hm | hm
            · rw [hm]; exact Or.inl Double.add_zero_zero
            · rw [hm]; exact Or.inr (Double.add_nan_right _)
        · rw [hb]; exact Or.inr (Double.add_nan_left _)
    · rw [if_neg hi]; exact Or.inl rfl
  unfold order_cost
  rcases h1 with h1 | h1 <;> rcases h2 with h2 | h2 <;> rw [h1, h2]
  · exact Or.inl Double.add_zero_zero
  · exact Or.inr (Double.add_nan_right _)
  · exact Or.inr (Double.add_nan_left _)
  · exact Or.inr (Double.add_nan_left _)

theorem Double.round_nonneg (a : Double) (ha : a.nonneg) : a.round.nonneg := by
  cases a with
  | finite x => exact round_double_nonneg x ha
  | pos_inf => exact ha
  | neg_inf => exact ha
  | nan => exact ha

theorem available_liquidity_nonneg (side : Fin MAX_LEVELS → Level)
    (h : ∀ i, 0 ≤ (side i).quantity) : (available_liquidity side).nonneg := by
  unfold available_liquidity
  exact foldl_preserves (fun x : Double => x.nonneg) _ _
    (fun a i _ ha => Double.round_nonneg _
      (Double.add_nonneg a _ ha (Double.of_nonneg _ (h i))))
    (Double.finite 0) (le_refl (0 : ℚ))

theorem Double.rate_nonneg (r : ℚ) (hr : 0 ≤ r) :
    ((Double.of r).div (Double.finite 10000)).nonneg := by
  have h : (10000 : ℚ) ≠ 0 := by norm_num
  have hT : Double.underflow_threshold < Double.overflow_threshold :=
    Double.underflow_lt_overflow
  have hu := Double.underflow_pos
  rcases Double.of_cases r with k | k | k | k
  · rw [k.2]
    simp [Double.div, Double.nonneg]
  · exfalso; linarith [k.1]
  · rw [k.2.2]
    simp only [Double.div]
    rw [if_neg h]
    exact Double.of_nonneg _ (by norm_num)
  · rw [k.2.2.2]
    simp only [Double.div]
    rw [if_neg h]
    exact Double.of_nonneg _ (div_nonneg hr (by norm_num))

/-- With non-negative prices, quantities, book quantities and rates the debit for an
order is not negative (a finite value from 0 on, or +inf), or it is NaN. -/
theorem order_cost_nonneg (config : BacktestConfig) (order : Order) (depth : MarketDepth)
    (ht : 0 ≤ config.transaction_cost_bps) (hs : 0 ≤ config.slippage_bps)
    (hp : 0 ≤ order.price) (hq : 0 ≤ order.quantity) (hd : depth.nonneg_book) :
    (order_cost config order depth).nonneg ∨ order_cost config order depth = Double.nan := by
  have hpn := Double.of_nonneg _ hp
  have hqn := Double.of_nonneg _ hq
  have h1 : (if config.include_transaction_costs = true then
      calculate_transaction_costs config order else Double.finite 0).nonneg ∨
      (if config.include_transaction_costs = true then
      calculate_transaction_costs config order else Double.finite 0) = Double.nan := by
    split_ifs
    · unfold calculate_transaction_costs
      rcases Double.mul_nonneg_or_nan _ _ hpn hqn with h | h
      · exact Double.mul_nonneg_or_nan _ _ h (Double.rate_nonneg _ ht)
      · rw [h]; exact Or.inr (Double.mul_nan_left _)
    · exact Or.inl (le_refl (0 : ℚ))
  have himpact : ∀ (base liquidity : Double), base.nonneg → liquidity.nonneg →
      (base.add (base.mul ((Double.of order.quantity).div liquidity))).nonneg ∨
      base.add (base.mul ((Double.of order.quantity).div liquidity)) = Double.nan := by
    intro base liquidity hb hl
    rcases Double.div_nonneg_or_nan _ _ hqn hl with h | h
    · rcases Double.mul_nonneg_or_nan _ _ hb h with h2 | h2
      · exact Or.inl (Double.add_nonneg _ _ hb h2)
      · rw [h2]; exact Or.inr (Double.add_nan_right _)
    · rw [h, Double.mul_nan_right]; exact Or.inr (Double.add_nan_right _)
  have h2 : (if config.include_slippage = true then
      calculate_slippage config order depth else Double.finite 0).nonneg ∨
      (if config.include_slippage = true then
      calculate_slippage config order depth else Double.finite 0) = Double.nan := by
    split_ifs
    · unfold calculate_slippage
      simp only
      rcases Double.mul_nonneg_or_nan _ _ hpn (Double.rate_nonneg _ hs) with hb | hb
      · split_ifs
        · exact himpact _ _ hb (available_liquidity_nonneg depth.asks (fun i => (hd i).1))
        · exact himpact _ _ hb (available_liquidity_nonneg depth.bids (fun i => (hd i).2))
      · rw [hb]; exact Or.inr (Double.add_nan_left _)
    · exact Or.inl (le_refl (0 : ℚ))
  unfold order_cost
  rcases h1 with h1 | h1
  · rcases h2 with h2 | h2
    · exact Or.inl (Double.add_nonneg _ _ h1 h2)
    · rw [h2]; exact Or.inr (Double.add_nan_right _)
  · rw [h1]; exact Or.inr (Double.add_nan_left _)

theorem orders_fold_frame {S : Type} (hooks : BacktestHooks S) (config : BacktestConfig)
    (clock : Nat → Int) (depth : MarketDepth) (orders : List Order) (st : BacktestRun S) :
    (orders.foldl (process_order hooks config clock depth) st).high_water_mark =
      st.high_water_mark ∧
    (orders.foldl (process_order hooks config clock depth) st).max_drawdown =
      st.max_drawdown ∧
    (orders.foldl (process_order hooks config clock depth) st).results.equity_curve =
      st.results.equity_curve ∧
    (orders.foldl (process_order hooks config clock depth) st).results.drawdown_curve =
      st.results.drawdown_curve := by
  apply foldl_preserves
    (fun a : BacktestRun S => a.high_water_mark = st.high_water_mark ∧
      a.max_drawdown = st.max_drawdown ∧
      a.results.equity_curve = st.results.equity_curve ∧
      a.results.drawdown_curve = st.results.drawdown_curve)
  · intro a o _ ha
    obtain ⟨_, h2, h3, h4, h5⟩ := process_order_frame hooks config clock depth a o
    exact ⟨h2.trans ha.1, h3.trans ha.2.1, h4.trans ha.2.2.1, h5.trans ha.2.2.2⟩
  · exact ⟨rfl, rfl, rfl, rfl⟩

theorem orders_fold_capital_zero_cost {S : Type} (hooks : BacktestHooks S)
    (config : BacktestConfig) (hz : config.zero_cost) (clock : Nat → Int)
    (depth : MarketDepth) (orders : List Order) (st : BacktestRun S)
    (hn : st.current_capital.normal)
    (hnan : ∀ o ∈ orders, order_cost config o depth ≠ Double.nan) :
    (orders.foldl (process_order hooks config clock depth) st).current_capital =
      st.current_capital := by
  apply foldl_preserves (fun a : BacktestRun S => a.current_capital = st.current_capital)
  · intro a o hmem ha
    rcases (process_order_frame hooks config clock depth a o).1 with h | h
    · exact h.trans ha
    · rcases order_cost_zero config hz o depth with h0 | h0
      · rw [h, h0, ha, Double.sub_zero _ hn]
      · exact absurd h0 (hnan o hmem)
  · rfl

/-- The orders of one bar leave the capital NaN or not above what it was. -/
theorem orders_fold_capital_le {S : Type} (hooks : BacktestHooks S)
    (config : BacktestConfig) (clock : Nat → Int) (depth : MarketDepth)
    (orders : List Order) (st : BacktestRun S)
    (ht : 0 ≤ config.transaction_cost_bps) (hs : 0 ≤ config.slippage_bps)
    (ho : ∀ o ∈ orders, 0 ≤ o.price ∧ 0 ≤ o.quantity) (hd : depth.nonneg_book)
    (hn : st.current_capital.normal) :
    (orders.foldl (process_order hooks config clock depth) st).current_capital.normal ∧
    ((orders.foldl (process_order hooks config clock depth) st).current_capital =
        Double.nan ∨
      Double.le (orders.foldl (process_order hooks config clock depth) st).current_capital
        st.current_capital = true) := by
  apply foldl_preserves (fun a : BacktestRun S => a.current_capital.normal ∧
    (a.current_capital = Double.nan ∨ Double.le a.current_capital st.current_capital = true))
  · intro a o hmem ha
    rcases (process_order_frame hooks config clock depth a o).1 with h | h
    · rw [h]; exact ha
    · rw [h]
      refine ⟨Double.sub_normal _ _, ?_⟩
      rcases order_cost_nonneg config o depth ht hs (ho o hmem).1 (ho o hmem).2 hd with hc | hc
      · rcases Double.sub_nonneg_le _ _ ha.1 hc with h1 | h1
        · exact Or.inl h1
        · rcases ha.2 with h2 | h2
          · rw [h2]; exact Or.inl (Double.sub_nan_left _)
          · exact Or.inr (Double.le_trans _ _ _ h1 h2)
      · rw [hc]; exact Or.inl (Double.sub_nan_right _)
  · refine ⟨hn, ?_⟩
    by_cases hnan : st.current_capital = Double.nan
    · exact Or.inl hnan
    · exact Or.inr (Double.le_self _ hnan)

theorem process_bar_curves {S : Type} (hooks : BacktestHooks S) (config : BacktestConfig)
    (clock : Nat → Int) (st : BacktestRun S) (depth : MarketDepth) :
    (process_bar hooks config clock st depth).current_capital =
      ((hooks.get_active_orders (hooks.on_market_data st.world depth)).foldl
        (process_order hooks config clock depth)
        { st with world := hooks.on_market_data st.world depth }).current_capital ∧
    (process_bar hooks config clock st depth).high_water_mark =
      (if (process_bar hooks config clock st depth).current_capital.gt st.high_water_mark
        then (process_bar hooks config clock st depth).current_capital
        else st.high_water_mark) ∧
    (process_bar hooks config clock st depth).results.equity_curve =
      st.results.equity_curve ++ [(process_bar hooks config clock st depth).current_capital] ∧
    (process_bar hooks config clock st depth).results.drawdown_curve =
      st.results.drawdown_curve ++
        [((process_bar hooks config clock st depth).high_water_mark.sub
          (process_bar hooks config clock st depth).current_capital).div
          (process_bar hooks config clock st depth).high_water_mark] ∧
    (process_bar hooks config clock st depth).max_drawdown =
      Double.max st.max_drawdown
        (((process_bar hooks config clock st depth).high_water_mark.sub
          (process_bar hooks config clock st depth).current_capital).div
          (process_bar hooks config clock st depth).high_water_mark) := by
  obtain ⟨h1, h2, h3, h4⟩ := orders_fold_frame hooks config clock depth
    (hooks.get_active_orders (hooks.on_market_data st.world depth))
    { st with world := hooks.on_market_data st.world depth }
  simp only at h1 h2 h3 h4
  unfold process_bar
  simp only [h1, h2, h3, h4, and_self]

theorem bars_fold_length {S : Type} (hooks : BacktestHooks S) (config : BacktestConfig)
    (clock : Nat → Int) (bars : List MarketDepth) :
    ∀ st : BacktestRun S,
      (bars.foldl (process_bar hooks config clock) st).results.equity_curve.length =
        st.results.equity_curve.length + bars.length ∧
      (bars.foldl (process_bar hooks config clock) st).results.drawdown_curve.length =
        st.results.drawdown_curve.length + bars.length := by
  induction bars with
  | nil => intro st; exact ⟨rfl, rfl⟩
  | cons depth bars ih =>
    intro st
    obtain ⟨_, _, h3, h4, _⟩ := process_bar_curves hooks config clock st depth
    obtain ⟨i1, i2⟩ := ih (process_bar hooks config clock st depth)
    simp only [List.foldl_cons, List.length_cons]
    rw [i1, i2, h3, h4]
    simp only [List.length_append, List.length_singleton]
    omega

theorem Double.drawdown_zero (c : ℚ) (hc : 0 < c) :
    ((Double.finite c).sub (Double.finite c)).div (Double.finite c) = Double.finite 0 := by
  show (Double.of (c + -c)).div (Double.finite c) = Double.finite 0
  rw [add_neg_cancel, Double.of_zero]
  simp only [Double.div]
  rw [if_neg (ne_of_gt hc), zero_div]
  exact Double.of_zero

theorem bars_fold_flat {S : Type} (hooks : BacktestHooks S) (config : BacktestConfig)
    (hz : config.zero_cost) (clock : Nat → Int) (c : ℚ) (hc : 0 < c)
    (hdouble : Double.of c = Double.finite c)
    (bars : List MarketDepth) (st : BacktestRun S)
    (hnan : ∀ w, ∀ o ∈ hooks.get_active_orders w, ∀ depth ∈ bars,
      order_cost config o depth ≠ Double.nan)
    (hst : st.current_capital = Double.finite c ∧ st.high_water_mark = Double.finite c ∧
      st.max_drawdown = Double.finite 0 ∧
      (∀ e ∈ st.results.equity_curve, e = Double.finite c) ∧
      (∀ d ∈ st.results.drawdown_curve, d = Double.finite 0)) :
    (bars.foldl (process_bar hooks config clock) st).current_capital = Double.finite c ∧
    (bars.foldl (process_bar hooks config clock) st).high_water_mark = Double.finite c ∧
    (bars.foldl (process_bar hooks config clock) st).max_drawdown = Double.finite 0 ∧
    (∀ e ∈ (bars.foldl (process_bar hooks config clock) st).results.equity_curve,
      e = Double.finite c) ∧
    (∀ d ∈ (bars.foldl (process_bar hooks config clock) st).results.drawdown_curve,
      d = Double.finite 0) := by
  apply foldl_preserves
    (fun a : BacktestRun S => a.current_capital = Double.finite c ∧
      a.high_water_mark = Double.finite c ∧
      a.max_drawdown = Double.finite 0 ∧ (∀ e ∈ a.results.equity_curve, e = Double.finite c) ∧
      (∀ d ∈ a.results.drawdown_curve, d = Double.finite 0)) _ _ _ st hst
  intro a depth hmem ha
  obtain ⟨a1, a2, a3, a4, a5⟩ := ha
  obtain ⟨h1, h2, h3, h4, h5⟩ := process_bar_curves hooks config clock a depth
  have hcap : (process_bar hooks config clock a depth).current_capital = Double.finite c := by
    rw [h1, orders_fold_capital_zero_cost hooks config hz clock depth _ _
      (by simp only [a1]; exact hdouble) (fun o ho => hnan _ o ho depth hmem)]
    exact a1
  have hhwm : (process_bar hooks config clock a depth).high_water_mark =
      Double.finite c := by
    rw [h2, hcap, a2]
    simp [Double.gt]
  have hdd : ((process_bar hooks config clock a depth).high_water_mark.sub
      (process_bar hooks config clock a depth).current_capital).div
      (process_bar hooks config clock a depth).high_water_mark = Double.finite 0 := by
    rw [hhwm, hcap]; exact Double.drawdown_zero c hc
  refine ⟨hcap, hhwm, ?_, ?_, ?_⟩
  · rw [h5, hdd, a3]
    simp [Double.max, Double.gt]
  · intro e he
    rw [h3, List.mem_append, List.mem_singleton] at he
    rcases he with he | he
    · exact a4 e he
    · rw [he, hcap]
  · intro d hd
    rw [h4, List.mem_append, List.mem_singleton] at hd
    rcases hd with hd | hd
    · exact a5 d hd
    · rw [hd, hdd]

/-- C19 (counterexample): with both rates at 0 bps and an initial capital of 1000000, a
Buy order of 5 at 100 is accepted on a snapshot whose ask side holds no quantity: the
quotient `order.quantity / available_liquidity` is 5 / 0 = +inf, the market impact is
0 * inf = NaN, and the equity and drawdown entries are NaN, not 1000000 and 0. The same
happens over ask quantities 2^60, 1, -2^60, 0, ..., whose sum in double is 0. -/
theorem dry_book_breaks_flat_equity :
    0 < costless_config.initial_capital ∧
    costless_config.transaction_cost_bps = 0 ∧ costless_config.slippage_bps = 0 ∧
    available_liquidity (dry_ask_depth 101 99).asks = Double.finite 0 ∧
    calculate_slippage costless_config (snapshot_1 0 OrderStatus.NEW) (dry_ask_depth 101 99) =
      Double.nan ∧
    (backtest_run buying_hooks costless_config (fun _ => 0) () armed_risk_manager
      [dry_ask_depth 101 99]).results.trade_history = [snapshot_1 0 OrderStatus.NEW] ∧
    (backtest_run buying_hooks costless_config (fun _ => 0) () armed_risk_manager
      [dry_ask_depth 101 99]).results.equity_curve = [Double.nan] ∧
    (backtest_run buying_hooks costless_config (fun _ => 0) () armed_risk_manager
      [dry_ask_depth 101 99]).results.drawdown_curve = [Double.nan] ∧
    available_liquidity (cancelling_depth 101 99).asks = Double.finite 0 ∧
    (backtest_run buying_hooks costless_config (fun _ => 0) () armed_risk_manager
      [cancelling_depth 101 99]).results.equity_curve = [Double.nan] := by
  decide!

/-- C19 (amended): for every backtest run with `initial_capital > 0` (a finite double) in
which transaction costs and slippage are zero (each switched off or at 0 bps) and no cost
computed for an order is NaN, whatever the strategy, the data and the Risk Manager, the
equity curve has one entry per snapshot after the warm-up, each equal to
`initial_capital`, and every drawdown entry and the maximum drawdown are 0. At a rate of
0 bps a cost is NaN when the order's `price * quantity` or its quantity over the
available liquidity is not finite, as over a book side with no quantity. -/
theorem backtest_flat_when_costs_zero {S : Type} (hooks : BacktestHooks S)
    (config : BacktestConfig) (clock : Nat → Int) (world : S) (risk_manager : RiskManager)
    (market_data : List MarketDepth) (hcap : 0 < config.initial_capital)
    (hdouble : Double.of config.initial_capital = Double.finite config.initial_capital)
    (hz : config.zero_cost)
    (hnan : ∀ w, ∀ o ∈ hooks.get_active_orders w, ∀ depth ∈ market_data,
      order_cost config o depth ≠ Double.nan) :
    (∀ e ∈ (backtest_run hooks config clock world risk_manager
        market_data).results.equity_curve, e = Double.finite config.initial_capital) ∧
    (∀ d ∈ (backtest_run hooks config clock world risk_manager
        market_data).results.drawdown_curve, d = Double.finite 0) ∧
    (backtest_run hooks config clock world risk_manager market_data).max_drawdown =
      Double.finite 0 ∧
    (backtest_run hooks config clock world risk_manager
        market_data).results.equity_curve.length =
      market_data.length - config.warm_up_bars ∧
    (backtest_run hooks config clock world risk_manager
        market_data).results.drawdown_curve.length =
      market_data.length - config.warm_up_bars := by
  unfold backtest_run
  simp only
  obtain ⟨_, _, h3, h4, h5⟩ := bars_fold_flat hooks config hz clock config.initial_capital
    hcap hdouble (market_data.drop config.warm_up_bars)
    { world := (market_data.take config.warm_up_bars).foldl hooks.on_market_data world,
      risk_manager := risk_manager, clock_reads := 0,
      current_capital := Double.of config.initial_capital,
      high_water_mark := Double.of config.initial_capital,
      max_drawdown := Double.finite 0, results := {} }
    (fun w o ho depth hmem => hnan w o ho depth (List.mem_of_mem_drop hmem))
    ⟨hdouble, hdouble, rfl, by intro e he; simp at he, by intro d hd; simp at hd⟩
  obtain ⟨l1, l2⟩ := bars_fold_length hooks config clock
    (market_data.drop config.warm_up_bars)
    { world := (market_data.take config.warm_up_bars).foldl hooks.on_market_data world,
      risk_manager := risk_manager, clock_reads := 0,
      current_capital := Double.of config.initial_capital,
      high_water_mark := Double.of config.initial_capital,
      max_drawdown := Double.finite 0, results := {} }
  refine ⟨h4, h5, h3, ?_, ?_⟩
  · rw [l1]; simp
  · rw [l2]; simp

theorem backtest_flat_when_costs_zero_witness :
    flat_series.length = 200 ∧ free_config.warm_up_bars = 50 ∧
    (∀ e ∈ (backtest_run buying_hooks free_config (fun _ => 0) () armed_risk_manager
        flat_series).results.equity_curve, e = Double.finite free_config.initial_capital) ∧
    (∀ d ∈ (backtest_run buying_hooks free_config (fun _ => 0) () armed_risk_manager
        flat_series).results.drawdown_curve, d = Double.finite 0) ∧
    (backtest_run buying_hooks free_config (fun _ => 0) () armed_risk_manager
        flat_series).max_drawdown = Double.finite 0 ∧
    (backtest_run buying_hooks free_config (fun _ => 0) () armed_risk_manager
        flat_series).results.equity_curve.length =
      flat_series.length - free_config.warm_up_bars ∧
    (backtest_run buying_hooks free_config (fun _ => 0) () armed_risk_manager
        flat_series).results.drawdown_curve.length =
      flat_series.length - free_config.warm_up_bars :=
  ⟨List.length_replicate _ _, rfl,
   backtest_flat_when_costs_zero buying_hooks free_config (fun _ => 0) () armed_risk_manager
    flat_series (by decide!) (by decide!) ⟨Or.inr rfl, Or.inr rfl⟩
    (by
      intro w o ho depth hmem
      simp only [buying_hooks, List.mem_singleton] at ho
      rw [ho, List.eq_of_mem_replicate hmem]
      decide!)⟩

theorem bars_fold_le_initial {S : Type} (hooks : BacktestHooks S) (config : BacktestConfig)
    (clock : Nat → Int) (c : Double) (bars : List MarketDepth) (st : BacktestRun S)
    (ht : 0 ≤ config.transaction_cost_bps) (hs : 0 ≤ config.slippage_bps)
    (ho : ∀ w, ∀ o ∈ hooks.get_active_orders w, 0 ≤ o.price ∧ 0 ≤ o.quantity)
    (hd : ∀ depth ∈ bars, depth.nonneg_book)
    (hst : st.current_capital.normal ∧
      (st.current_capital = Double.nan ∨ Double.le st.current_capital c = true) ∧
      ∀ e ∈ st.results.equity_curve, e = Double.nan ∨ Double.le e c = true) :
    (bars.foldl (process_bar hooks config clock) st).current_capital.normal ∧
    ((bars.foldl (process_bar hooks config clock) st).current_capital = Double.nan ∨
      Double.le (bars.foldl (process_bar hooks config clock) st).current_capital c = true) ∧
    ∀ e ∈ (bars.foldl (process_bar hooks config clock) st).results.equity_curve,
      e = Double.nan ∨ Double.le e c = true := by
  apply foldl_preserves
    (fun a : BacktestRun S => a.current_capital.normal ∧
      (a.current_capital = Double.nan ∨ Double.le a.current_capital c = true) ∧
      ∀ e ∈ a.results.equity_curve, e = Double.nan ∨ Double.le e c = true)
    _ _ _ st hst
  intro a depth hmem ha
  obtain ⟨a0, a1, a2⟩ := ha
  obtain ⟨h1, _, h3, _, _⟩ := process_bar_curves hooks config clock a depth
  obtain ⟨f1, f2⟩ := orders_fold_capital_le hooks config clock depth
    (hooks.get_active_orders (hooks.on_market_data a.world depth))
    { a with world := hooks.on_market_data a.world depth } ht hs (ho _) (hd depth hmem) a0
  simp only at f2
  have hcap : (process_bar hooks config clock a depth).current_capital = Double.nan ∨
      Double.le (process_bar hooks config clock a depth).current_capital c = true := by
    rw [h1]
    rcases f2 with f2 | f2
    · exact Or.inl f2
    · rcases a1 with a1 | a1
      · exact absurd a1 (Double.ne_nan_of_le _ _ f2).2
      · exact Or.inr (Double.le_trans _ _ _ f2 a1)
  refine ⟨by rw [h1]; exact f1, hcap, ?_⟩
  intro e he
  rw [h3, List.mem_append, List.mem_singleton] at he
  rcases he with he | he
  · exact a2 e he
  · rw [he]; exact hcap

/-- C20 (counterexample): over the mid prices 100, 101, 102 with a Buy order of 5 at 100
accepted on every bar and the default cost rates, the equity curve falls below the initial
capital of 1000000 on every bar: the last entry is 999999.8875, so the total return is
negative. -/
theorem rising_series_loses_capital :
    rising_series.map MarketDepth.get_mid_price = [100, 101, 102] ∧
    (backtest_run buying_hooks { warm_up_bars := 0 } (fun _ => 0) () armed_risk_manager
      rising_series).results.trade_history.map Order.side =
      [OrderSide.BUY, OrderSide.BUY, OrderSide.BUY] ∧
    (backtest_run buying_hooks { warm_up_bars := 0 } (fun _ => 0) () armed_risk_manager
      rising_series).results.equity_curve =
      [Double.finite (79999997 / 80), Double.finite (39999997 / 40),
        Double.finite (79999991 / 80)] ∧
    (79999991 / 80 : ℚ) < 1000000 := by
  decide!

/-- C20 (amended): for every backtest with non-negative order prices, order quantities,
book quantities and cost rates, so also over a rising mid-price series with a long-biased
fill pattern, the last equity-curve entry does not exceed `initial_capital`: the total
return is never positive. The last entry is NaN or at most `initial_capital` (a finite
value or -inf), so the comparison `last > initial_capital` is false; a finite last entry
`x` has `x <= initial_capital`. -/
theorem backtest_total_return_not_positive {S : Type} (hooks : BacktestHooks S)
    (config : BacktestConfig) (clock : Nat → Int) (world : S) (risk_manager : RiskManager)
    (market_data : List MarketDepth)
    (ht : 0 ≤ config.transaction_cost_bps) (hs : 0 ≤ config.slippage_bps)
    (ho : ∀ w, ∀ o ∈ hooks.get_active_orders w, 0 ≤ o.price ∧ 0 ≤ o.quantity)
    (hd : ∀ depth ∈ market_data, depth.nonneg_book) :
    ∀ last, (backtest_run hooks config clock world risk_manager
        market_data).results.equity_curve.getLast? = some last →
      Double.gt last (Double.of config.initial_capital) = false ∧
      (last = Double.nan ∨ Double.le last (Double.of config.initial_capital) = true) ∧
      (Double.of config.initial_capital = Double.finite config.initial_capital →
        ∀ x, last = Double.finite x → x ≤ config.initial_capital) := by
  intro last hlast
  have h := (bars_fold_le_initial hooks config clock (Double.of config.initial_capital)
    (market_data.drop config.warm_up_bars)
    { world := (market_data.take config.warm_up_bars).foldl hooks.on_market_data world,
      risk_manager := risk_manager, clock_reads := 0,
      current_capital := Double.of config.initial_capital,
      high_water_mark := Double.of config.initial_capital,
      max_drawdown := Double.finite 0, results := {} }
    ht hs ho (fun depth hmem => hd depth (List.mem_of_mem_drop hmem))
    ⟨Double.of_normal _, by
      by_cases hn : Double.of config.initial_capital = Double.nan
      · exact Or.inl hn
      · exact Or.inr (Double.le_self _ hn),
     by intro e he; simp at he⟩).2.2
  have hl := h last (List.mem_of_getLast?_eq_some hlast)
  refine ⟨?_, hl, ?_⟩
  · rcases hl with hl | hl
    · rw [hl]; rfl
    · exact Double.gt_of_le _ _ hl
  · intro hdouble x hx
    rcases hl with hl | hl
    · rw [hx] at hl; exact absurd hl (by simp)
    · rw [hx, hdouble] at hl
      simpa [Double.le] using hl

theorem flat_depth_nonneg_book (ask bid : ℚ) : (flat_depth ask bid).nonneg_book := by
  intro i
  simp [flat_depth]

theorem backtest_total_return_not_positive_witness :
    (backtest_run buying_hooks { warm_up_bars := 0 } (fun _ => 0) () armed_risk_manager
      rising_series).results.equity_curve.getLast? = some (Double.finite (79999991 / 80)) ∧
    (79999991 / 80 : ℚ) ≤ ({ warm_up_bars := 0 } : BacktestConfig).initial_capital :=
  ⟨by decide!,
   (backtest_total_return_not_positive buying_hooks { warm_up_bars := 0 } (fun _ => 0) ()
    armed_risk_manager rising_series (by decide!) (by decide!)
    (by
      intro w o ho
      simp only [buying_hooks, List.mem_singleton] at ho
      rw [ho]
      exact ⟨by decide!, by decide!⟩)
    (by
      intro depth hmem
      simp only [rising_series, List.mem_cons, List.mem_singleton, List.not_mem_nil,
        or_false] at hmem
      rcases hmem with rfl | rfl | rfl <;> exact flat_depth_nonneg_book _ _)
    (Double.finite (79999991 / 80)) (by decide!)).2.2 (by decide!) _ rfl⟩

/-! # Theorems: configuration, rolling metrics -/

/-- C22: `validate_config` raises an error if and only if `use_gpu` is set and
`gpu_device_id < 0`, or `num_threads <= 0`, or `max_memory_mb = 0`, or `tvm_opt_level` is
outside 0..3, or one of `model_dir`, `checkpoint_dir`, `data_dir` is empty; and
`load_from_file` ends in an error whenever the configuration it has read has a thread
count of zero or an empty required path. -/
theorem validate_config_error_iff (c : GlobalConfig) :
    (is_error c.validate_config = true ↔ c.invalid) ∧
    (∀ (c0 : GlobalConfig) (read_sources : GlobalConfig → Except String GlobalConfig),
      read_sources c0 = Except.ok c →
      (c.num_threads = 0 ∨ c.model_dir = "" ∨ c.checkpoint_dir = "" ∨ c.data_dir = "") →
      is_error (c0.load_from_file read_sources) = true) := by
  have hiff : is_error c.validate_config = true ↔ c.invalid := by
    unfold GlobalConfig.validate_config GlobalConfig.invalid
    split_ifs with h1 h2 h3 h4 h5
    · simp [is_error, h1]
    · simp [is_error, h2]
    · simp [is_error, h3]
    · simp only [is_error, true_iff]; exact Or.inr (Or.inr (Or.inr (Or.inl h4)))
    · simp only [is_error, true_iff]; exact Or.inr (Or.inr (Or.inr (Or.inr h5)))
    · simp only [is_error, Bool.false_eq_true, false_iff]
      intro h
      rcases h with h | h | h | h | h
      · exact h1 h
      · exact h2 h
      · exact h3 h
      · exact h4 h
      · exact h5 h
  refine ⟨hiff, fun c0 read_sources hread hbad => ?_⟩
  have hinv : c.invalid := by
    unfold GlobalConfig.invalid
    rcases hbad with h | h | h | h
    · exact Or.inr (Or.inl (by rw [h]))
    · exact Or.inr (Or.inr (Or.inr (Or.inr (Or.inl h))))
    · exact Or.inr (Or.inr (Or.inr (Or.inr (Or.inr (Or.inl h)))))
    · exact Or.inr (Or.inr (Or.inr (Or.inr (Or.inr (Or.inr h)))))
  have herr := hiff.mpr hinv
  unfold GlobalConfig.load_from_file
  rw [hread]
  cases hv : c.validate_config with
  | error e => simp only [hv, is_error]
  | ok u => rw [hv] at herr; exact absurd herr (by simp [is_error])

theorem validate_config_error_iff_witness :
    is_error ({ num_threads := 0 } : GlobalConfig).validate_config = true ∧
    is_error (({} : GlobalConfig).load_from_file
      (fun c => Except.ok { c with num_threads := 0 })) = true ∧
    is_error ({} : GlobalConfig).validate_config = false :=
  ⟨(validate_config_error_iff { num_threads := 0 }).1.mpr (Or.inr (Or.inl (by decide))),
   (validate_config_error_iff { num_threads := 0 }).2 {}
     (fun c => Except.ok { c with num_threads := 0 }) rfl (Or.inl rfl),
   by decide⟩

theorem calculate_rolling_metrics_length {T : Type} (ops : TensorOps T)
    (predictions targets : T) (window_size : Int) :
    (calculate_rolling_metrics ops predictions targets window_size).length =
      (ops.size predictions 1 - window_size + 1).toNat := by
  unfold calculate_rolling_metrics
  simp only [List.length_map, List.length_range]

/-- C24 (the code at the failing input): for shape (32, 128, 4) and window size 32 the
loop runs over the second dimension and returns 128 - 32 + 1 = 97 values, where the
test `RollingMetrics` expects `predictions.size(0) - 31 = 1`; for every input the number
of values is `predictions.size(1) - w + 1` (none when that is negative). -/
theorem rolling_metrics_length_is_97 :
    (calculate_rolling_metrics shape_ops [32, 128, 4] [32, 128, 4] 32).length = 97 ∧
    shape_ops.size [32, 128, 4] 0 - 31 = 1 ∧
    (∀ (T : Type) (ops : TensorOps T) (predictions targets : T) (window_size : Int),
      (calculate_rolling_metrics ops predictions targets window_size).length =
        (ops.size predictions 1 - window_size + 1).toNat) := by
  refine ⟨by decide, by decide, ?_⟩
  intro T ops predictions targets window_size
  exact calculate_rolling_metrics_length ops predictions targets window_size

/-! # Theorems: bounds of the VaR index -/

/-- C30 (counterexample): the confidence 2^-54 is inside (0, 1], yet `1.0 - c` is halfway
between two doubles and rounds to 1.0, so that for the two returns [5, 7] the index
`calculate_var` computes is 2, the size of the sample: the access is past the end. -/
theorem var_index_past_the_end :
    (0 : ℚ) < 1 / 2 ^ 54 ∧ (1 / 2 ^ 54 : ℚ) ≤ 1 ∧
    round_double (1 - 1 / 2 ^ 54) = 1 ∧
    to_size_t (round_double (round_double (1 - 1 / 2 ^ 54) *
      ((([5, 7] : List ℚ).insertionSort (· ≤ ·)).length : ℚ))) = some 2 ∧
    (([5, 7] : List ℚ).insertionSort (· ≤ ·))[2]? = none ∧
    armed_risk_manager.calculate_var [5, 7] (1 / 2 ^ 54) = none := by
  decide!

/-- C30 (amended): for every non-empty return sample of size n and every confidence c with
2^-54 < c <= 1 the index that `calculate_var` computes in double, the truncation of
`(1.0 - c) * n` with both operations rounded, is below n, the length of the sorted
sample, so that `calculate_var` is defined; and `update_metrics`, which builds its sample
from a price history of at least two prices and passes the confidence 0.99, hands
`calculate_var` a non-empty sample and is always defined. -/
theorem var_index_in_bounds (log : ℚ → ℚ) (r : RiskManager) :
    (∀ (returns : List ℚ) (c : ℚ), returns ≠ [] → 1 / 2 ^ 54 < c → c ≤ 1 →
      ∃ k, to_size_t (round_double (round_double (1 - c) *
          ((returns.insertionSort (· ≤ ·)).length : ℚ))) = some k ∧
        k < returns.length ∧
        k < (returns.insertionSort (· ≤ ·)).length ∧
        (r.calculate_var returns c).isSome = true) ∧
    (∀ prices : List ℚ, prices.length > 1 →
      log_returns log prices ≠ [] ∧
      (log_returns log prices).length = prices.length - 1) ∧
    (∀ (order : Order) (depth : MarketDepth),
      (r.update_metrics log order depth).isSome = true) := by
  refine ⟨fun returns c hn h0 h1 => ?_, fun prices hp => ?_, fun order depth => ?_⟩
  · have hlen : (returns.insertionSort (· ≤ ·)).length = returns.length :=
      List.length_insertionSort _ _
    have hpos : 0 < returns.length := List.length_pos.mpr hn
    obtain ⟨k, hk, hkn, _⟩ := to_size_t_in_range returns.length c hpos h0 h1
    rw [hlen]
    exact ⟨k, hk, hkn, hkn, calculate_var_defined r returns c hn h0 h1⟩
  · exact ⟨log_returns_ne_nil log prices hp, log_returns_length log prices⟩
  · exact update_metrics_defined log r order depth

/-! # Theorems: volatility estimator -/

theorem foldl_add_eq_sum {K : Type} [LinearOrderedField K] (f : K → K) (l : List K) :
    ∀ acc : K, l.foldl (fun a x => a + f x) acc = acc + (l.map f).sum := by
  induction l with
  | nil => intro acc; simp
  | cons x l ih =>
    intro acc
    simp only [List.foldl_cons, List.map_cons, List.sum_cons]
    rw [ih]
    ring

theorem get_volatility_unfold {K : Type} [LinearOrderedField K] (sqrt : K → K)
    (returns : List K) (h : 2 ≤ returns.length) :
    get_volatility_in sqrt returns = sqrt (sample_variance returns) * sqrt 252 := by
  unfold get_volatility_in sample_variance sample_mean
  rw [if_neg (by omega)]
  simp only
  have h1 := foldl_add_eq_sum (fun x : K => x) returns 0
  simp only [List.map_id', zero_add] at h1
  rw [h1]
  have h2 := foldl_add_eq_sum
    (fun x : K => (x - returns.sum / (returns.length : K)) *
      (x - returns.sum / (returns.length : K))) returns 0
  rw [zero_add] at h2
  rw [h2]
  have hcast : ((returns.length - 1 : Nat) : K) = (returns.length : K) - 1 := by
    rw [Nat.cast_sub (by omega)]; simp
  rw [hcast]
  have hsq : (fun x : K => (x - returns.sum / (returns.length : K)) *
      (x - returns.sum / (returns.length : K))) =
      (fun r : K => (r - returns.sum / (returns.length : K)) ^ 2) := by
    funext x
    ring
  rw [hsq]

theorem sample_variance_nonneg {K : Type} [LinearOrderedField K] (returns : List K)
    (h : 2 ≤ returns.length) : 0 ≤ sample_variance returns := by
  unfold sample_variance
  apply div_nonneg
  · apply List.sum_nonneg
    intro x hx
    rw [List.mem_map] at hx
    obtain ⟨r, _, hr⟩ := hx
    rw [← hr]
    positivity
  · have : (2 : K) ≤ (returns.length : K) := by exact_mod_cast h
    linarith

/-- C23: `get_volatility` returns 0 when fewer than two returns are stored; otherwise it
returns `sqrt(252)` times the square root of the sample variance with Bessel's
correction, which, for a `sqrt` that is the non-negative square root, is a non-negative
value whose square is 252 times the sum of `(r_i - mean)^2` divided by n - 1. -/
theorem get_volatility_spec {K : Type} [LinearOrderedField K] (sqrt : K → K)
    (hsqrt : ∀ x, 0 ≤ x → 0 ≤ sqrt x ∧ sqrt x ^ 2 = x) (returns : List K) :
    (∀ (fns : MathFns) (v : VolatilityEstimator),
      v.get_volatility fns = get_volatility_in fns.sqrt v.returns_) ∧
    (returns.length < 2 → get_volatility_in sqrt returns = 0) ∧
    (2 ≤ returns.length →
      get_volatility_in sqrt returns = sqrt 252 * sqrt (sample_variance returns) ∧
      0 ≤ get_volatility_in sqrt returns ∧
      get_volatility_in sqrt returns ^ 2 = 252 * sample_variance returns) := by
  refine ⟨fun fns v => rfl, fun h => ?_, fun h => ?_⟩
  · unfold get_volatility_in
    rw [if_pos h]
  · have hv := sample_variance_nonneg returns h
    obtain ⟨s1, s2⟩ := hsqrt (sample_variance returns) hv
    obtain ⟨t1, t2⟩ := hsqrt 252 (by norm_num)
    rw [get_volatility_unfold sqrt returns h]
    refine ⟨mul_comm _ _, mul_nonneg s1 t1, ?_⟩
    rw [mul_pow, s2, t2, mul_comm]

theorem get_volatility_spec_witness :
    0 ≤ get_volatility_in Real.sqrt ([1, 3] : List ℝ) ∧
    get_volatility_in Real.sqrt ([1, 3] : List ℝ) ^ 2 =
      252 * sample_variance ([1, 3] : List ℝ) ∧
    sample_variance ([1, 3] : List ℚ) = 2 :=
  ⟨((get_volatility_spec Real.sqrt
      (fun x hx => ⟨Real.sqrt_nonneg x, Real.sq_sqrt hx⟩) [1, 3]).2.2 (by simp)).2.1,
   ((get_volatility_spec Real.sqrt
      (fun x hx => ⟨Real.sqrt_nonneg x, Real.sq_sqrt hx⟩) [1, 3]).2.2 (by simp)).2.2,
   by decide!⟩

theorem log_returns_cons (log : ℚ → ℚ) (a b : ℚ) (ps : List ℚ) :
    log_returns log (a :: b :: ps) = log (b / a) :: log_returns log (b :: ps) := by
  simp [log_returns]

theorem estimator_update_live (fns : MathFns) (v : VolatilityEstimator) (price : ℚ)
    (hlast : 0 < v.last_price_) :
    (v.update fns price).last_price_ = price ∧
    (v.update fns price).window_size_ = v.window_size_ ∧
    (v.update fns price).returns_ =
      (if v.returns_.length ≥ v.window_size_ then v.returns_.tail else v.returns_) ++
        [fns.log (price / v.last_price_)] := by
  unfold VolatilityEstimator.update
  simp only [gt_iff_lt, hlast, if_true]
  exact ⟨trivial, trivial, trivial⟩

theorem estimator_feed_window (fns : MathFns) (prices : List ℚ) :
    ∀ v : VolatilityEstimator, 0 < v.last_price_ → 1 ≤ v.window_size_ →
      v.returns_.length ≤ v.window_size_ → (∀ p ∈ prices, 0 < p) →
      (v.feed fns prices).returns_ =
        (v.returns_ ++ log_returns fns.log (v.last_price_ :: prices)).drop
          ((v.returns_ ++ log_returns fns.log (v.last_price_ :: prices)).length -
            v.window_size_) := by
  induction prices with
  | nil =>
    intro v _ _ hlen _
    simp only [VolatilityEstimator.feed, List.foldl_nil, log_returns, List.tail_cons,
      List.zipWith_nil_right, List.append_nil]
    rw [Nat.sub_eq_zero_of_le hlen, List.drop_zero]
  | cons p ps ih =>
    intro v hlast hw hlen hpos
    obtain ⟨u1, u2, u3⟩ := estimator_update_live fns v p hlast
    have hp : 0 < p := hpos p (List.mem_cons_self _ _)
    have hlen1 : (v.update fns p).returns_.length ≤ (v.update fns p).window_size_ := by
      rw [u2, u3]
      split_ifs with hge
      · simp only [List.length_append, List.length_tail, List.length_singleton]; omega
      · simp only [List.length_append, List.length_singleton]; omega
    have h := ih (v.update fns p) (by rw [u1]; exact hp) (by rw [u2]; exact hw) hlen1
      (fun q hq => hpos q (List.mem_cons_of_mem _ hq))
    simp only [VolatilityEstimator.feed, List.foldl_cons] at h ⊢
    rw [h, u1, u2, u3, log_returns_cons]
    split_ifs with hge
    · cases hr : v.returns_ with
      | nil => rw [hr] at hge; simp only [List.length_nil] at hge; omega
      | cons a t =>
        rw [hr] at hlen hge
        simp only [List.tail_cons, List.append_assoc, List.singleton_append]
        obtain ⟨cap, hcap⟩ : ∃ cap, v.window_size_ = cap + 1 := ⟨v.window_size_ - 1, by omega⟩
        rw [hcap]
        exact drop_window cap a _ t _ (by simp only [List.length_cons] at hlen hge ⊢; omega)
    · simp only [List.append_assoc, List.singleton_append]

/-- C25: a VolatilityEstimator with `window_size >= 1`, fed any sequence of k strictly
positive prices, stores at most `window_size` returns, and they are the last
`min(k - 1, window_size)` log-returns `log(p_i / p_(i-1))` in arrival order. -/
theorem volatility_window_is_fifo (fns : MathFns) (window_size : Nat)
    (hw : 1 ≤ window_size) (prices : List ℚ) (hp : ∀ p ∈ prices, 0 < p) :
    ((VolatilityEstimator.fresh window_size).feed fns prices).returns_ =
      (log_returns fns.log prices).drop
        ((log_returns fns.log prices).length - window_size) ∧
    ((VolatilityEstimator.fresh window_size).feed fns prices).returns_.length ≤
      window_size ∧
    ((VolatilityEstimator.fresh window_size).feed fns prices).returns_.length =
      min (prices.length - 1) window_size := by
  have hret : ((VolatilityEstimator.fresh window_size).feed fns prices).returns_ =
      (log_returns fns.log prices).drop
        ((log_returns fns.log prices).length - window_size) := by
    cases prices with
    | nil => simp [VolatilityEstimator.feed, VolatilityEstimator.fresh, log_returns]
    | cons p ps =>
      have hfirst : (VolatilityEstimator.fresh window_size).update fns p =
          { window_size_ := window_size, last_price_ := p, returns_ := [] } := by
        simp [VolatilityEstimator.update, VolatilityEstimator.fresh]
      have h := estimator_feed_window fns ps
        { window_size_ := window_size, last_price_ := p, returns_ := [] }
        (hp p (List.mem_cons_self _ _)) hw (Nat.zero_le _)
        (fun q hq => hp q (List.mem_cons_of_mem _ hq))
      simp only [List.nil_append] at h
      simp only [VolatilityEstimator.feed, List.foldl_cons, hfirst] at h ⊢
      exact h
  rw [hret]
  have hl := log_returns_length fns.log prices
  refine ⟨rfl, ?_, ?_⟩
  · simp only [List.length_drop]; omega
  · simp only [List.length_drop, hl]; omega

theorem volatility_window_is_fifo_witness :
    ((VolatilityEstimator.fresh 2).feed sample_fns [100, 200, 100, 50, 100]).returns_ =
      [sample_fns.log (50 / 100), sample_fns.log (100 / 50)] ∧
    ((VolatilityEstimator.fresh 2).feed sample_fns [100, 200, 100, 50, 100]).returns_ =
      (log_returns sample_fns.log [100, 200, 100, 50, 100]).drop
        ((log_returns sample_fns.log [100, 200, 100, 50, 100]).length - 2) :=
  ⟨by decide!,
   (volatility_window_is_fifo sample_fns 2 (by decide) [100, 200, 100, 50, 100]
    (by
      intro p hp
      simp only [List.mem_cons, List.mem_singleton, List.not_mem_nil, or_false] at hp
      rcases hp with rfl | rfl | rfl | rfl | rfl <;> norm_num)).1⟩

/-! # Theorems: Stoikov quotes -/

theorem sample_exp_pos (x : ℚ) : 0 < sample_fns.exp x := by
  show 0 < (if x ≤ 0 then 1 / (1 - x) else 1 + x)
  split_ifs with h
  · exact div_pos (by norm_num) (by linarith)
  · linarith [not_le.mp h]

theorem step_ids_positive (m : OrderManager) (op : Op) (hnext : 1 ≤ m.next_order_id_)
    (hbound : m.next_order_id_ + 1 < 2 ^ 63)
    (hids : ∀ o ∈ m.active_orders_, 1 ≤ o.order_id) :
    1 ≤ (m.step op).next_order_id_ ∧
    (m.step op).next_order_id_ ≤ m.next_order_id_ + 1 ∧
    ∀ o ∈ (m.step op).active_orders_, 1 ≤ o.order_id := by
  cases op with
  | place side price quantity t1 t2 =>
    have hw : wrap64 (m.next_order_id_ + 1) = m.next_order_id_ + 1 :=
      wrap64_of_in_range _ (by omega) (by omega)
    simp only [OrderManager.step]
    rcases place_order_cases m side price quantity t1 t2 with h | h | h
    · rw [h.2]
      exact ⟨hnext, show m.next_order_id_ ≤ m.next_order_id_ + 1 by omega, hids⟩
    · rw [h.2.2]
      simp only [hw]
      exact ⟨by omega, le_refl _, hids⟩
    · rw [h.2.2]
      simp only [hw]
      refine ⟨by omega, le_refl _, ?_⟩
      intro o ho
      simp only [List.mem_append, List.mem_singleton] at ho
      rcases ho with ho | ho
      · exact hids o ho
      · rw [ho]; exact hnext
  | update order =>
    simp only [OrderManager.step]
    cases hfind : m.active_orders_.find? (fun o => o.order_id == order.order_id) with
    | none =>
      rw [update_order_not_found m order hfind]
      exact ⟨hnext, by omega, hids⟩
    | some it =>
      obtain ⟨_, _, h3, h4, _⟩ := update_order_found m order it hfind
      rw [h3, h4]
      refine ⟨hnext, by omega, ?_⟩
      intro o ho
      rcases mem_assign_first _ order _ o ho with h | h
      · have hit := List.find?_some hfind
        have hmem := List.mem_of_find?_eq_some hfind
        simp only [beq_iff_eq] at hit
        rw [h, ← hit]
        exact hids it hmem
      · exact hids o h

theorem run_ids_positive (ops : List Op) : ∀ m : OrderManager, 1 ≤ m.next_order_id_ →
    m.next_order_id_ + ops.length < 2 ^ 63 → (∀ o ∈ m.active_orders_, 1 ≤ o.order_id) →
    ∀ o ∈ (m.run ops).active_orders_, 1 ≤ o.order_id := by
  induction ops with
  | nil => intro m _ _ hids; exact hids
  | cons op ops ih =>
    intro m hnext hbound hids
    simp only [List.length_cons, Nat.cast_add, Nat.cast_one] at hbound
    obtain ⟨h1, h2, h3⟩ := step_ids_positive m op hnext (by omega) hids
    simp only [OrderManager.run]
    exact ih (m.step op) h1 (by omega) h3

theorem update_order_id_zero (m : OrderManager) (side : OrderSide) (price quantity : ℚ)
    (hids : ∀ o ∈ m.active_orders_, 1 ≤ o.order_id) :
    m.update_order (quote_order side price quantity) = m := by
  apply update_order_not_found
  rw [List.find?_eq_none]
  intro o ho
  have := hids o ho
  simp only [quote_order, beq_iff_eq]
  omega

theorem submit_quote_manager (connector : Order → Bool) (m : OrderManager)
    (side : OrderSide) (price size intensity min_intensity : ℚ)
    (hids : ∀ o ∈ m.active_orders_, 1 ≤ o.order_id) :
    (submit_quote connector m side price size intensity min_intensity).1 = m := by
  unfold submit_quote
  by_cases hg : size > 0 ∧ intensity > min_intensity
  · rw [if_pos hg]
    by_cases hc : connector (quote_order side price size) = true
    · simp only [hc, if_true]
      exact update_order_id_zero m side price size hids
    · simp only [hc]
      rfl
  · rw [if_neg hg]

theorem on_market_data_manager (fns : MathFns) (s : StoikovStrategy) (m : OrderManager)
    (connector : Order → Bool) (depth : MarketDepth) (now : Int)
    (hids : ∀ o ∈ m.active_orders_, 1 ≤ o.order_id) :
    (s.on_market_data fns m connector depth now).order_manager = m := by
  unfold StoikovStrategy.on_market_data
  simp only
  split_ifs
  · rfl
  · simp only [submit_quote_manager _ m _ _ _ _ _ hids]

theorem drive_unchanged (fns : MathFns) (connector : Order → Bool)
    (ticks : List (MarketDepth × Int)) : ∀ (s : StoikovStrategy) (m : OrderManager),
    (∀ o ∈ m.active_orders_, 1 ≤ o.order_id) →
    ∀ m1 ∈ s.drive fns m connector ticks, m1 = m := by
  induction ticks with
  | nil => intro s m _ m1 h; simp [StoikovStrategy.drive] at h
  | cons t ts ih =>
    intro s m hids m1 h
    simp only [StoikovStrategy.drive, on_market_data_manager fns s m connector t.1 t.2 hids,
      List.mem_cons] at h
    rcases h with h | h
    · exact h
    · exact ih _ m hids m1 h

theorem submitted_order_ids (fns : MathFns) (s : StoikovStrategy) (m : OrderManager)
    (connector : Order → Bool) (depth : MarketDepth) (now : Int) :
    ∀ o ∈ (s.on_market_data fns m connector depth now).submitted, o.order_id = 0 := by
  intro o ho
  by_cases h : s.time_remaining now ≤ 0
  · rw [on_market_data_late fns s m connector depth now h] at ho
    simp at ho
  · rw [(on_market_data_quoting fns s m connector depth now h).2.2] at ho
    unfold gated_orders at ho
    rcases List.mem_append.mp ho with hb | ha
    · split_ifs at hb
      · rw [List.mem_singleton.mp hb]; rfl
      · simp at hb
    · split_ifs at ha
      · rw [List.mem_singleton.mp ha]; rfl
      · simp at ha

/-- C29: for every Order Manager state reached from a fresh manager by `place_order` and
`update_order` calls (short of int64 overflow of the id counter) and every market depth,
`on_market_data` leaves the Order Manager as it was (position, notional exposure and
stored orders): the orders it hands to `update_order` carry `order_id` 0, no stored order
has that id, and `update_order` finds no match. An Order Manager driven only by the
strategy stays fresh and reports position 0 at every tick. -/
theorem on_market_data_leaves_order_manager (fns : MathFns) (s : StoikovStrategy)
    (connector : Order → Bool) (depth : MarketDepth) (now : Int) (config : Config)
    (ops : List Op) (hops : (1 : Int) + ops.length < 2 ^ 63) :
    (∀ o ∈ (s.on_market_data fns ((OrderManager.fresh config).run ops) connector depth
        now).submitted, o.order_id = 0) ∧
    (∀ o ∈ ((OrderManager.fresh config).run ops).active_orders_, 1 ≤ o.order_id) ∧
    (s.on_market_data fns ((OrderManager.fresh config).run ops) connector depth
      now).order_manager = (OrderManager.fresh config).run ops ∧
    (∀ ticks : List (MarketDepth × Int),
      ∀ m ∈ s.drive fns (OrderManager.fresh config) connector ticks,
        m = OrderManager.fresh config ∧ m.position_ = 0) := by
  have hids : ∀ o ∈ ((OrderManager.fresh config).run ops).active_orders_, 1 ≤ o.order_id :=
    run_ids_positive ops (OrderManager.fresh config) (le_refl _) hops
      (by intro o ho; simp [OrderManager.fresh] at ho)
  refine ⟨?_, hids, on_market_data_manager fns s _ connector depth now hids, ?_⟩
  · exact submitted_order_ids fns s _ connector depth now
  · intro ticks m hm
    have := drive_unchanged fns connector ticks s (OrderManager.fresh config)
      (by intro o ho; simp [OrderManager.fresh] at ho) m hm
    rw [this]
    exact ⟨rfl, rfl⟩

theorem on_market_data_leaves_order_manager_witness :
    (quoting_strategy.on_market_data sample_fns filled_3 (fun _ => true)
      (flat_depth 101 99) 0).order_manager = filled_3 ∧
    (quoting_strategy.on_market_data sample_fns filled_3 (fun _ => true)
      (flat_depth 101 99) 0).submitted.map Order.order_id = [0, 0] :=
  ⟨(on_market_data_leaves_order_manager sample_fns quoting_strategy (fun _ => true)
      (flat_depth 101 99) 0 {}
      [Op.place OrderSide.BUY 100 5 0 0,
       Op.update (snapshot_1 3 OrderStatus.PARTIALLY_FILLED)] (by decide)).2.2.1,
   by decide!⟩

/-! # Theorems: capital during a backtest -/

theorem interleaving_swap {α : Type} (l1 l2 : List α) : Interleaving l1 l2 (l2 ++ l1) := by
  induction l2 with
  | nil =>
    induction l1 with
    | nil => exact Interleaving.nil
    | cons a l1 ih => exact Interleaving.left a ih
  | cons b l2 ih => exact Interleaving.right b ih

theorem interleaving_perm {α : Type} {l1 l2 l : List α} (h : Interleaving l1 l2 l) :
    l.Perm (l1 ++ l2) := by
  induction h with
  | nil => exact List.Perm.refl _
  | left a _ ih => exact List.Perm.cons a ih
  | right b _ ih =>
    exact (List.Perm.cons b ih).trans (List.perm_middle.symm)

theorem process_order_log {S : Type} (hooks : BacktestHooks S) (config : BacktestConfig)
    (clock : Nat → Int) (depth : MarketDepth) (st : BacktestRun (S × List MarketDepth))
    (order : Order) :
    (process_order (logging_hooks hooks) config clock depth st order).world.2 =
      st.world.2 := by
  unfold process_order
  cases hc : (st.risk_manager.check_order_risk order depth (clock st.clock_reads)).1 with
  | false => simp [hc]
  | true => simp [hc, logging_hooks]

theorem process_bar_log {S : Type} (hooks : BacktestHooks S) (config : BacktestConfig)
    (clock : Nat → Int) (st : BacktestRun (S × List MarketDepth)) (depth : MarketDepth) :
    (process_bar (logging_hooks hooks) config clock st depth).world.2 =
      st.world.2 ++ [depth] := by
  have hfold : ∀ (orders : List Order) (st0 : BacktestRun (S × List MarketDepth)),
      (orders.foldl (process_order (logging_hooks hooks) config clock depth) st0).world.2 =
        st0.world.2 := by
    intro orders st0
    apply foldl_preserves
      (fun a : BacktestRun (S × List MarketDepth) => a.world.2 = st0.world.2)
    · intro a o _ ha
      rw [process_order_log]; exact ha
    · rfl
  have hrec : ∀ (w : S × List MarketDepth) (d : MarketDepth),
      ((logging_hooks hooks).record_metrics w d).2 = w.2 := fun _ _ => rfl
  have hmd : ∀ (w : S × List MarketDepth) (d : MarketDepth),
      ((logging_hooks hooks).on_market_data w d).2 = w.2 ++ [d] := fun _ _ => rfl
  unfold process_bar
  simp only
  rw [hrec, hfold, hmd]

theorem bars_fold_log {S : Type} (hooks : BacktestHooks S) (config : BacktestConfig)
    (clock : Nat → Int) (bars : List MarketDepth) :
    ∀ st : BacktestRun (S × List MarketDepth),
      (bars.foldl (process_bar (logging_hooks hooks) config clock) st).world.2 =
        st.world.2 ++ bars := by
  induction bars with
  | nil => intro st; simp
  | cons depth bars ih =>
    intro st
    simp only [List.foldl_cons]
    rw [ih, process_bar_log, List.append_assoc, List.singleton_append]

theorem warm_up_log {S : Type} (hooks : BacktestHooks S) (bars : List MarketDepth) :
    ∀ w : S × List MarketDepth,
      (bars.foldl (logging_hooks hooks).on_market_data w).2 = w.2 ++ bars := by
  induction bars with
  | nil => intro w; simp
  | cons depth bars ih =>
    intro w
    simp only [List.foldl_cons]
    rw [ih]
    simp [logging_hooks]

theorem run_scheduled_log {S : Type} (hooks : BacktestHooks S) (config : BacktestConfig)
    (clock : Nat → Int) (world : S) (risk_manager : RiskManager)
    (market_data executed : List MarketDepth) :
    (backtest_run_scheduled (logging_hooks hooks) config clock (world, []) risk_manager
      market_data executed).world.2 = market_data.take config.warm_up_bars ++ executed := by
  unfold backtest_run_scheduled
  simp only
  rw [bars_fold_log]
  simp only [warm_up_log, List.nil_append]

theorem long_series_length : long_series.length = 10001 := by
  simp [long_series]

theorem long_series_get (k : Nat) (hk : k < 10001) :
    long_series[k]? = some (flat_depth ((k : ℚ) + 2) ((k : ℚ) + 1)) := by
  simp [long_series, hk]

theorem second_half_first_head :
    second_half_first[0]? = some (flat_depth 5003 5002) := by
  unfold second_half_first
  rw [List.getElem?_append_left (by simp [long_series_length]), List.getElem?_drop,
    long_series_get 5001 (by norm_num)]
  norm_num

theorem run_scheduled_eq_run {S : Type} (hooks : BacktestHooks S) (config : BacktestConfig)
    (clock : Nat → Int) (world : S) (risk_manager : RiskManager)
    (market_data : List MarketDepth) :
    backtest_run_scheduled hooks config clock world risk_manager market_data
        (market_data.drop config.warm_up_bars) =
      backtest_run hooks config clock world risk_manager market_data := rfl

/-- Up to 10000 snapshots the `if` clause of the pragma is false: the only schedule of the
main loop is index order, the run is `backtest_run`, the strategy is handed every
snapshot once and in input order (the warm-up ones first), and the equity and drawdown
curves have one entry for each snapshot of the main loop. -/
theorem sequential_run_in_input_order {S : Type} (hooks : BacktestHooks S)
    (config : BacktestConfig) (clock : Nat → Int) (world : S) (risk_manager : RiskManager)
    (market_data executed : List MarketDepth) (hlen : market_data.length ≤ 10000)
    (hs : main_loop_schedule market_data config.warm_up_bars executed) :
    executed = market_data.drop config.warm_up_bars ∧
    backtest_run_scheduled hooks config clock world risk_manager market_data executed =
      backtest_run hooks config clock world risk_manager market_data ∧
    (backtest_run_scheduled (logging_hooks hooks) config clock (world, []) risk_manager
      market_data executed).world.2 = market_data := by
  have he : executed = market_data.drop config.warm_up_bars := by
    unfold main_loop_schedule at hs
    rw [if_neg (by omega)] at hs
    exact hs
  refine ⟨he, ?_, ?_⟩
  · rw [he]; rfl
  · rw [run_scheduled_log, he, List.take_append_drop]

/-- C21: on the 10001 snapshots of `long_series` with no warm-up the `if` clause of the
pragma on the main loop holds, running the second half of the iterations before the
first half is one of its schedules, and under it `run` hands the strategy snapshot 5001
(mid price 10005/2) first, where the input order starts with snapshot 0 (mid price 3/2):
the strategy is not invoked in input order. -/
theorem parallel_main_loop_reorders_snapshots :
    long_series.length > 10000 ∧
    main_loop_schedule long_series 0 second_half_first ∧
    ((backtest_run_scheduled (logging_hooks buying_hooks) { warm_up_bars := 0 } (fun _ => 0)
      ((), []) armed_risk_manager long_series second_half_first).world.2.map
        MarketDepth.get_mid_price)[0]? = some (10005 / 2) ∧
    (long_series.map MarketDepth.get_mid_price)[0]? = some (3 / 2) ∧
    (backtest_run_scheduled (logging_hooks buying_hooks) { warm_up_bars := 0 } (fun _ => 0)
      ((), []) armed_risk_manager long_series second_half_first).world.2.map
        MarketDepth.get_mid_price ≠ long_series.map MarketDepth.get_mid_price := by
  have hlog : ((backtest_run_scheduled (logging_hooks buying_hooks) { warm_up_bars := 0 }
      (fun _ => 0) ((), []) armed_risk_manager long_series second_half_first).world.2.map
        MarketDepth.get_mid_price)[0]? = some (10005 / 2) := by
    rw [run_scheduled_log, List.take_zero, List.nil_append, List.getElem?_map,
      second_half_first_head, Option.map_some', flat_depth_mid _ _ (by norm_num) (by norm_num)]
    norm_num
  have hin : (long_series.map MarketDepth.get_mid_price)[0]? = some (3 / 2) := by
    rw [List.getElem?_map, long_series_get 0 (by norm_num), Option.map_some',
      flat_depth_mid _ _ (by norm_num) (by norm_num)]
    norm_num
  refine ⟨by rw [long_series_length]; norm_num, ?_, hlog, hin, ?_⟩
  · unfold main_loop_schedule
    rw [if_pos (by rw [long_series_length]; norm_num)]
    simp only [List.drop_zero, long_series_length]
    exact interleaving_swap _ _
  · intro h
    rw [h, hin] at hlog
    norm_num at hlog

end MarketMaker
